import Mathlib

/-!
# Selective sync tree: tri-state selection engine

A shallow embedding of `src/mirall/selectivesyncdialog.cpp`
(`SelectiveSyncTreeView`): the lazily populated tree of remote folders, the
propagation of check states run by `slotItemChanged`, and the derivation of the
black list by `createBlackList`.

Modelling choices.

* A `QString` is the list of its characters (a null and an empty string are not
  told apart).
* A `QTreeWidgetItem` is a value of `Item`: its text, its `Qt::UserRole` data
  (the empty string while unset), its check state and its children in order.
  Icons, tool tips and the expanded flag carry no logic and are left out.
* A `QTreeWidgetItem*` is an `ItemRef`: the child indices that lead to the item,
  innermost first, so that `i :: r` is child `i` of `r` and the parent of
  `i :: r` is `r`; `[]` is the top-level item.
* `QTreeWidgetItem::setCheckState` stores the value and, when the stored value
  really changes, emits `itemChanged`, which the constructor connects to
  `slotItemChanged`: the slot is re-entered synchronously. The recursion this
  creates is bounded by an explicit fuel argument; `none` means the fuel ran out.
-/

namespace Mirall

/-- The characters of a `QString`. -/
abbrev QString := List Char

/-- Values of `Qt::CheckState`. -/
inductive CheckState where
  | Unchecked
  | PartiallyChecked
  | Checked
  deriving DecidableEq, Repr

/-- One `QTreeWidgetItem` with the subtree it owns. -/
inductive Item where
  | mk (text : QString) (data : QString) (checkState : CheckState) (children : List Item)
  deriving Repr

/-- Handle on an item: child indices from the item up to the top-level item. -/
abbrev ItemRef := List Nat

namespace Item

/-- Column 0 text of the item. -/
def text : Item → QString
  | mk t _ _ _ => t

/-- The `Qt::UserRole` data of the item, read as a string. -/
def data : Item → QString
  | mk _ d _ _ => d

/-- The check state of column 0. -/
def checkState : Item → CheckState
  | mk _ _ s _ => s

/-- The children of the item, in insertion order. -/
def children : Item → List Item
  | mk _ _ _ cs => cs

/-- Store a check state on the item itself, without any signal. -/
def withCheckState (s : CheckState) : Item → Item
  | mk t d _ cs => mk t d s cs

mutual
/-- Number of items of a subtree. -/
def size : Item → Nat
  | mk _ _ _ cs => 1 + sizeList cs
/-- Number of items of a list of subtrees. -/
def sizeList : List Item → Nat
  | [] => 0
  | c :: cs => size c + sizeList cs
end

mutual
/-- Number of levels below the item. -/
def height : Item → Nat
  | mk _ _ _ cs => heightList cs
/-- One more than the largest height in the list, `0` for the empty list. -/
def heightList : List Item → Nat
  | [] => 0
  | c :: cs => max (height c + 1) (heightList cs)
end

end Item

/-- Walk from `x` down the child indices `path`, outermost index first. -/
def getDown : List Nat → Item → Option Item
  | [], x => some x
  | i :: rest, x =>
    match x.children[i]? with
    | some c => getDown rest c
    | none => none

/-- Apply `f` to the item reached from `x` by `path`, outermost index first. -/
def modifyDown (f : Item → Item) : List Nat → Item → Item
  | [], x => f x
  | i :: rest, x => Item.mk x.text x.data x.checkState (x.children.modify (modifyDown f rest) i)

/-- The item a handle designates in the tree under `t`, if any. -/
def itemAt (t : Item) (r : ItemRef) : Option Item := getDown r.reverse t

/-- Apply `f` to the item a handle designates. -/
def modifyAt (t : Item) (r : ItemRef) (f : Item → Item) : Item := modifyDown f r.reverse t

/-- The call `item->checkState(0)`. -/
def checkStateAt (t : Item) (r : ItemRef) : Option CheckState := (itemAt t r).map Item.checkState

/-- The children of the designated item (`item->child(i)` for `i < item->childCount()`). -/
def childrenAt (t : Item) (r : ItemRef) : List Item :=
  match itemAt t r with
  | some x => x.children
  | none => []

/-- The call `item->childCount()`. -/
def childCount (t : Item) (r : ItemRef) : Nat := (childrenAt t r).length

/-- Store a check state on the designated item, emitting nothing. -/
def storeCheckState (t : Item) (r : ItemRef) (s : CheckState) : Item :=
  modifyAt t r (Item.withCheckState s)

/-- The call `item->setCheckState(0, s)` while `slot` is connected to `itemChanged`:
nothing happens when the stored state is already `s`; otherwise the state is
stored and the slot runs for that item before the call returns. -/
def setCheckState (slot : Item → ItemRef → Option Item) (t : Item) (r : ItemRef)
    (s : CheckState) : Option Item :=
  if checkStateAt t r = some s then some t else slot (storeCheckState t r s) r

/-- The loop `for (int i = start; i < start + remaining; ++i) body(i)` over child
indices. The bound is read once before the loop: the slot never adds or removes
an item, so `childCount()` cannot change while the loop runs. -/
def childLoop (body : Item → Nat → Option Item) : Nat → Nat → Item → Option Item
  | 0, _, t => some t
  | remaining + 1, i, t => (body t i).bind (childLoop body remaining (i + 1))

/-- Lines 151-175: the block run when the item is `Checked`. -/
def whenChecked (setCS : Item → ItemRef → CheckState → Option Item) (item : ItemRef)
    (t : Item) : Option Item :=
  if checkStateAt t item = some CheckState.Checked then
    (match item with
      | [] => some t
      | _ :: parent =>
        if checkStateAt t parent ≠ some CheckState.Checked then
          let hasUnchecked :=
            (childrenAt t parent).any (fun c => c.checkState != CheckState.Checked)
          if !hasUnchecked then
            setCS t parent CheckState.Checked
          else if checkStateAt t parent = some CheckState.Unchecked then
            setCS t parent CheckState.PartiallyChecked
          else some t
        else some t).bind fun t1 =>
      childLoop
        (fun acc i =>
          if checkStateAt acc (i :: item) ≠ some CheckState.Checked then
            setCS acc (i :: item) CheckState.Checked
          else some acc)
        (childCount t1 item) 0 t1
  else some t

/-- Lines 177-200: the block run when the item is `Unchecked`. -/
def whenUnchecked (setCS : Item → ItemRef → CheckState → Option Item) (item : ItemRef)
    (t : Item) : Option Item :=
  if checkStateAt t item = some CheckState.Unchecked then
    (match item with
      | [] => some t
      | _ :: parent =>
        if checkStateAt t parent ≠ some CheckState.Unchecked then
          let hasChecked :=
            (childrenAt t parent).any (fun c => c.checkState != CheckState.Unchecked)
          if !hasChecked then
            setCS t parent CheckState.Unchecked
          else if checkStateAt t parent = some CheckState.Checked then
            setCS t parent CheckState.PartiallyChecked
          else some t
        else some t).bind fun t1 =>
      childLoop
        (fun acc i =>
          if checkStateAt acc (i :: item) ≠ some CheckState.Unchecked then
            setCS acc (i :: item) CheckState.Unchecked
          else some acc)
        (childCount t1 item) 0 t1
  else some t

/-- Lines 202-207: the block run when the item is `PartiallyChecked`. -/
def whenPartiallyChecked (setCS : Item → ItemRef → CheckState → Option Item) (item : ItemRef)
    (t : Item) : Option Item :=
  if checkStateAt t item = some CheckState.PartiallyChecked then
    match item with
    | [] => some t
    | _ :: parent =>
      if checkStateAt t parent ≠ some CheckState.PartiallyChecked then
        setCS t parent CheckState.PartiallyChecked
      else some t
  else some t

/-- The slot `slotItemChanged(item, 0)` outside an insertion (`_inserting` false):
the three blocks in sequence, each reading the item's state afresh. Every
`setCheckState` inside re-enters the slot with one unit of fuel less. -/
def slotItemChanged : Nat → Item → ItemRef → Option Item
  | 0, _, _ => none
  | fuel + 1, t, item =>
    (whenChecked (setCheckState (slotItemChanged fuel)) item t).bind fun t1 =>
      (whenUnchecked (setCheckState (slotItemChanged fuel)) item t1).bind fun t2 =>
        whenPartiallyChecked (setCheckState (slotItemChanged fuel)) item t2

/-- A user toggle: the view stores the new state on the item and `itemChanged`
runs the slot for it. The fuel is the number of items of the tree. -/
def userToggle (t : Item) (item : ItemRef) (s : CheckState) : Option Item :=
  slotItemChanged t.size (storeCheckState t item s) item

/-- The test `it.startsWith(path)`. -/
def startsWith (it path : QString) : Bool := path.isPrefixOf it

mutual
/-- The method `createBlackList(root)` for a non-null `root`. -/
def createBlackList (oldBlackList : List QString) : Item → List QString
  | Item.mk _ data state children =>
    match state with
    | CheckState.Unchecked => [data]
    | CheckState.Checked => []
    | CheckState.PartiallyChecked =>
      if children.isEmpty then
        oldBlackList.filter (fun it => startsWith it data)
      else createBlackListChildren oldBlackList children
/-- The loop `result += createBlackList(root->child(i))` over the children. -/
def createBlackListChildren (oldBlackList : List QString) : List Item → List QString
  | [] => []
  | c :: cs => createBlackList oldBlackList c ++ createBlackListChildren oldBlackList cs
end

/-- The call `path.endsWith('/')`. -/
def endsWithSlash (path : QString) : Bool := path.getLast? == some '/'

/-- Lines 64-66: `if (path.endsWith('/')) path.chop(1)`. -/
def chopSlash (path : QString) : QString :=
  if endsWithSlash path then path.dropLast else path

/-- The call `path.split('/')` (empty parts are kept, so the result is never empty). -/
def split (sep : Char) : QString → List QString
  | [] => [[]]
  | c :: cs =>
    if c = sep then [] :: split sep cs
    else
      match split sep cs with
      | [] => [[c]]
      | w :: ws => (c :: w) :: ws

/-- Scan of `QString::remove(const QString &)`: at each position an occurrence of
`needle` starting there is cut out and the search goes on at the same position.
`skip` counts the characters of the current occurrence still to be dropped. -/
def removeScan (needle : QString) : Nat → QString → QString
  | _, [] => []
  | skip + 1, _ :: cs => removeScan needle skip cs
  | 0, c :: cs =>
    if needle ≠ [] ∧ needle.isPrefixOf (c :: cs) then removeScan needle (needle.length - 1) cs
    else c :: removeScan needle 0 cs

/-- The call `path.remove(needle)`: every occurrence of `needle` is removed. -/
def removeAll (needle path : QString) : QString := removeScan needle 0 path

/-- Lines 48-57: index of the first child whose text is `text`. -/
def findFirstChild : List Item → QString → Option Nat
  | [], _ => none
  | c :: cs, text =>
    if c.text = text then some 0
    else (findFirstChild cs text).map (· + 1)

/-- Lines 78-86: the scan of `_oldBlackList` for a new item whose parent is
partially checked; `current` is the state set so far. -/
def scanBlackList : List QString → QString → CheckState → CheckState
  | [], _, current => current
  | str :: rest, path, current =>
    if str ++ ['/'] = path then CheckState.Unchecked
    else if startsWith str path then scanBlackList rest path CheckState.PartiallyChecked
    else scanBlackList rest path current

/-- Lines 73-87: the check state given to an item created under a parent in
state `parentState`, for the listing entry `path`. -/
def initialCheckState (oldBlackList : List QString) (parentState : CheckState)
    (path : QString) : CheckState :=
  match parentState with
  | CheckState.Checked => CheckState.Checked
  | CheckState.Unchecked => CheckState.Unchecked
  | CheckState.PartiallyChecked => scanBlackList oldBlackList path CheckState.Checked

/-- Lines 59-97: `recursiveInsert(parent, pathTrail, path)` as a function of the
subtree of `parent`. A new item is appended after the existing children. -/
def recursiveInsert (oldBlackList : List QString) : List QString → QString → Item → Item
  | [], path, Item.mk text _ state children => Item.mk text (chopSlash path) state children
  | first :: rest, path, Item.mk text data state children =>
    match findFirstChild children first with
    | some i =>
      Item.mk text data state (children.modify (recursiveInsert oldBlackList rest path) i)
    | none =>
      Item.mk text data state
        (children ++ [recursiveInsert oldBlackList rest path
          (Item.mk first [] (initialCheckState oldBlackList state path) [])])

/-- The tree view: its constant members, the path of the account's DAV url
(`account->davUrl().path()`, supplied from outside) and the first top-level item. -/
structure SelectiveSyncTreeView where
  /-- Member `_folderPath`. -/
  folderPath : QString
  /-- Member `_rootName`. -/
  rootName : QString
  /-- Member `_oldBlackList`. -/
  oldBlackList : List QString
  /-- The value of `account->davUrl().path()`. -/
  davPath : QString
  /-- The value of `topLevelItem(0)`, `none` for a null pointer. -/
  topLevelItem : Option Item

/-- Lines 117-124: the prefix removed from every listing entry. -/
def pathToRemove (v : SelectiveSyncTreeView) : QString :=
  (if endsWithSlash v.davPath then v.davPath else v.davPath ++ ['/']) ++ v.folderPath ++ ['/']

/-- Lines 105-115: the existing top-level item, or the newly created root. -/
def rootItem (v : SelectiveSyncTreeView) : Item :=
  match v.topLevelItem with
  | some root => root
  | none =>
    Item.mk v.rootName v.folderPath
      (if v.oldBlackList.isEmpty then CheckState.Checked else CheckState.PartiallyChecked) []

/-- The segments of a listing entry: lines 128-129. -/
def pathSegments (path : QString) : List QString :=
  let paths := split '/' path
  if paths.getLast? = some [] then paths.dropLast else paths

/-- Lines 126-133: the body of the loop over the listing, for one entry. -/
def insertEntry (oldBlackList : List QString) (toRemove : QString) (root : Item)
    (entry : QString) : Item :=
  let path := removeAll toRemove entry
  let paths := pathSegments path
  if paths.isEmpty then root else recursiveInsert oldBlackList paths path root

/-- Lines 99-135: `slotUpdateDirectories(list)`. While it runs `_inserting` is set,
so the state changes it makes do not run `slotItemChanged`. -/
def slotUpdateDirectories (v : SelectiveSyncTreeView) (list : List QString) :
    SelectiveSyncTreeView :=
  { v with
    topLevelItem := some (list.foldl (insertEntry v.oldBlackList (pathToRemove v)) (rootItem v)) }

/-- The call `createBlackList()` on the view (lines 210-215 pick the top-level item). -/
def createBlackListTop (v : SelectiveSyncTreeView) : List QString :=
  match v.topLevelItem with
  | some root => createBlackList v.oldBlackList root
  | none => []

/-! ## Closed forms of the propagation

The functions below describe, without fuel, what one run of `slotItemChanged`
does: `cascadeUp` for the ancestors, `pushChildren` for the subtree. It is proved
further down that the slot computes exactly these. -/

/-- The state opposite to a fully set state. -/
def CheckState.opposite : CheckState → CheckState
  | CheckState.Checked => CheckState.Unchecked
  | CheckState.Unchecked => CheckState.Checked
  | CheckState.PartiallyChecked => CheckState.PartiallyChecked

/-- The part of `whenChecked`/`whenUnchecked` that looks at the parent, for the
fully set state `s`. -/
def parentFully (s : CheckState) (setCS : Item → ItemRef → CheckState → Option Item)
    (item : ItemRef) (t : Item) : Option Item :=
  match item with
  | [] => some t
  | _ :: parent =>
    if checkStateAt t parent ≠ some s then
      let hasOther := (childrenAt t parent).any (fun c => c.checkState != s)
      if !hasOther then
        setCS t parent s
      else if checkStateAt t parent = some s.opposite then
        setCS t parent CheckState.PartiallyChecked
      else some t
    else some t

/-- The part of `whenChecked`/`whenUnchecked` that loops over the children. -/
def childrenFully (s : CheckState) (setCS : Item → ItemRef → CheckState → Option Item)
    (item : ItemRef) (t : Item) : Option Item :=
  childLoop
    (fun acc i =>
      if checkStateAt acc (i :: item) ≠ some s then setCS acc (i :: item) s else some acc)
    (childCount t item) 0 t

/-- The common shape of `whenChecked` (`s = Checked`) and `whenUnchecked`
(`s = Unchecked`). -/
def whenFully (s : CheckState) (setCS : Item → ItemRef → CheckState → Option Item)
    (item : ItemRef) (t : Item) : Option Item :=
  if checkStateAt t item = some s then
    (parentFully s setCS item t).bind (childrenFully s setCS item)
  else some t

/-- What the slot does to the ancestors of `item` once `item` holds state `s`. -/
def cascadeUp : ItemRef → CheckState → Item → Item
  | [], _, t => t
  | _ :: parent, s, t =>
    if s = CheckState.PartiallyChecked then
      if checkStateAt t parent ≠ some CheckState.PartiallyChecked then
        cascadeUp parent CheckState.PartiallyChecked
          (storeCheckState t parent CheckState.PartiallyChecked)
      else t
    else if checkStateAt t parent ≠ some s then
      if (childrenAt t parent).any (fun c => c.checkState != s) then
        if checkStateAt t parent = some s.opposite then
          cascadeUp parent CheckState.PartiallyChecked
            (storeCheckState t parent CheckState.PartiallyChecked)
        else t
      else cascadeUp parent s (storeCheckState t parent s)
    else t

mutual
/-- Give state `s` to an item and push it into every child that differs. -/
def pushDown (s : CheckState) : Item → Item
  | Item.mk text data _ children => Item.mk text data s (pushDownList s children)
/-- Push `s` into every item of the list whose state is not `s` already. -/
def pushDownList (s : CheckState) : List Item → List Item
  | [] => []
  | c :: cs => (if c.checkState = s then c else pushDown s c) :: pushDownList s cs
end

/-- What the slot does below an item that holds state `s`: nothing for
`PartiallyChecked`, otherwise `s` is pushed into the children that differ. -/
def pushChildren (s : CheckState) (x : Item) : Item :=
  if s = CheckState.PartiallyChecked then x
  else Item.mk x.text x.data x.checkState (pushDownList s x.children)

/-- The tree after the slot has run for `item`, which holds state `s`. -/
def propagated (t : Item) (item : ItemRef) (s : CheckState) : Item :=
  modifyAt (cascadeUp item s t) item (pushChildren s)

/-- What a slot has to do at `p` for the upward cascade to be `cascadeUp`. -/
def UpSpec (slot : Item → ItemRef → Option Item) (p : ItemRef) : Prop :=
  ∀ t s, checkStateAt t p = some s →
    (s = CheckState.PartiallyChecked ∨ ∀ j s', checkStateAt t (j :: p) = some s' → s' = s) →
    slot t p = some (cascadeUp p s t)

/-- What a slot has to do, for items of height below `bound` that hold the same
fully set state `s` as their parent, for the downward cascade to be `pushChildren`. -/
def DownSpec (slot : Item → ItemRef → Option Item) (s : CheckState) (bound : Nat) : Prop :=
  ∀ t j p c, itemAt t (j :: p) = some c → c.checkState = s → checkStateAt t p = some s →
    c.height < bound → slot t (j :: p) = some (modifyAt t (j :: p) (pushChildren s))

/-- The tree in which the children `done` of the item at `p` have been pushed and
the children `todo` are still as they were. -/
def pushedUpTo (s : CheckState) (t : Item) (p : ItemRef) (done todo : List Item) : Item :=
  modifyAt t p (fun z => Item.mk z.text z.data z.checkState (pushDownList s done ++ todo))

/-- A user toggle on the view: `userToggle` on its top-level item. -/
def SelectiveSyncTreeView.toggle (v : SelectiveSyncTreeView) (item : ItemRef)
    (s : CheckState) : Option SelectiveSyncTreeView :=
  match v.topLevelItem with
  | none => some v
  | some t => (userToggle t item s).map fun t' => { v with topLevelItem := some t' }

/-- An entry lies in the subtree of the folder `path`: it is that folder or it
continues `path` with a `/`. -/
def inSubtreeOf (entry path : QString) : Bool :=
  entry == path || (path ++ ['/']).isPrefixOf entry

/-- A view on the folder `f` of the account at `/dav`, not yet listed, whose
previous black list is `a/x`, `ab`. -/
def siblingView : SelectiveSyncTreeView :=
  { folderPath := ['f'], rootName := ['r'], oldBlackList := [['a', '/', 'x'], ['a', 'b']],
    davPath := ['/', 'd', 'a', 'v'], topLevelItem := none }

/-- The listing of the folder `f`: the folder itself and its subfolders `a` and `ab`. -/
def siblingListing : List QString :=
  [['/', 'd', 'a', 'v', '/', 'f', '/'],
   ['/', 'd', 'a', 'v', '/', 'f', '/', 'a', '/'],
   ['/', 'd', 'a', 'v', '/', 'f', '/', 'a', 'b', '/']]

/-- A folder `f` with the children `a`, `b` (both `Unchecked`) and `c` (`Checked`). -/
def treeABC : Item :=
  Item.mk ['r'] ['f'] CheckState.PartiallyChecked
    [Item.mk ['a'] ['a'] CheckState.Unchecked [],
     Item.mk ['b'] ['b'] CheckState.Unchecked [],
     Item.mk ['c'] ['c'] CheckState.Checked []]

/-! ## Invariants of the tree -/

mutual
/-- Every item of the subtree passes the local test `ok`. -/
def Item.all (ok : Item → Bool) : Item → Bool
  | Item.mk text data state children =>
    ok (Item.mk text data state children) && Item.allList ok children
/-- Every item of every subtree of the list passes the local test `ok`. -/
def Item.allList (ok : Item → Bool) : List Item → Bool
  | [] => true
  | c :: cs => Item.all ok c && Item.allList ok cs
end

/-- The item agrees with its children: it has none, or it is `Checked` exactly
when all of them are `Checked`, `Unchecked` exactly when all of them are
`Unchecked`, and `PartiallyChecked` exactly in the remaining case. -/
def consistentHere (x : Item) : Bool :=
  x.children.isEmpty ||
    (decide (x.checkState = CheckState.Checked ↔
        ∀ c ∈ x.children, c.checkState = CheckState.Checked) &&
      decide (x.checkState = CheckState.Unchecked ↔
        ∀ c ∈ x.children, c.checkState = CheckState.Unchecked) &&
      decide (x.checkState = CheckState.PartiallyChecked ↔
        ¬ (∀ c ∈ x.children, c.checkState = CheckState.Checked) ∧
        ¬ (∀ c ∈ x.children, c.checkState = CheckState.Unchecked)))

/-- Every item with at least one child agrees with its children. -/
def Item.consistent (t : Item) : Bool := Item.all consistentHere t

/-- The children of a `Checked` item are `Checked` and the children of an
`Unchecked` item are `Unchecked`. -/
def uniformHere (x : Item) : Bool :=
  x.checkState == CheckState.PartiallyChecked ||
    x.children.all (fun c => c.checkState == x.checkState)

/-- Below every `Checked` item everything is `Checked`, below every `Unchecked`
item everything is `Unchecked`. -/
def Item.uniform (t : Item) : Bool := Item.all uniformHere t

/-- The states of the children of the designated item, in order. -/
def childStates (t : Item) (q : ItemRef) : List CheckState :=
  (childrenAt t q).map Item.checkState

/-- A condition `L state childStates` holds for the designated item, if it exists. -/
def HoldsAt (L : CheckState → List CheckState → Prop) (t : Item) (q : ItemRef) : Prop :=
  ∀ s, checkStateAt t q = some s → L s (childStates t q)

/-- The state the slot leaves on a parent in state `sp` whose children have the
states `cs`, after one of them has taken state `s`. -/
def stepState (s sp : CheckState) (cs : List CheckState) : CheckState :=
  if s = CheckState.PartiallyChecked then CheckState.PartiallyChecked
  else if sp ≠ s then
    if cs.any (fun c => c != s) then
      if sp = s.opposite then CheckState.PartiallyChecked else sp
    else s
  else sp

/-- A condition on an item and its children survives one step of the upward
cascade: if it held before child `i` changed its state, it holds for the state
the slot gives to the parent. -/
def StepClosed (L : CheckState → List CheckState → Prop) : Prop :=
  ∀ (s sp : CheckState) (cs : List CheckState) (i : Nat) (sOld : CheckState),
    cs[i]? = some s → L sp (cs.set i sOld) → L (stepState s sp cs) cs

/-- The condition behind `uniformHere`, on states alone. -/
def UniformL (s : CheckState) (cs : List CheckState) : Prop :=
  s = CheckState.PartiallyChecked ∨ ∀ c ∈ cs, c = s

/-- The condition behind `consistentHere`, on states alone. -/
def ConsistentL (s : CheckState) (cs : List CheckState) : Prop :=
  cs = [] ∨
    ((s = CheckState.Checked ↔ ∀ c ∈ cs, c = CheckState.Checked) ∧
     (s = CheckState.Unchecked ↔ ∀ c ∈ cs, c = CheckState.Unchecked) ∧
     (s = CheckState.PartiallyChecked ↔
        ¬ (∀ c ∈ cs, c = CheckState.Checked) ∧ ¬ (∀ c ∈ cs, c = CheckState.Unchecked)))

/-- The sequence of user toggles, each running to the end of its cascade. -/
def toggleAll : List (ItemRef × CheckState) → Item → Option Item
  | [], t => some t
  | (item, s) :: rest, t => (userToggle t item s).bind (toggleAll rest)

/-- The views that listing insertions alone can produce from an empty view. -/
inductive Built : SelectiveSyncTreeView → Prop where
  | fresh (folderPath rootName : QString) (oldBlackList : List QString) (davPath : QString) :
      Built { folderPath := folderPath, rootName := rootName, oldBlackList := oldBlackList,
              davPath := davPath, topLevelItem := none }
  | listing {v : SelectiveSyncTreeView} (list : List QString) :
      Built v → Built (slotUpdateDirectories v list)

/-- The views that any interleaving of listing insertions and user toggles to
`Checked` or `Unchecked` can produce from an empty view. -/
inductive Reachable : SelectiveSyncTreeView → Prop where
  | fresh (folderPath rootName : QString) (oldBlackList : List QString) (davPath : QString) :
      Reachable { folderPath := folderPath, rootName := rootName, oldBlackList := oldBlackList,
                  davPath := davPath, topLevelItem := none }
  | listing {v : SelectiveSyncTreeView} (list : List QString) :
      Reachable v → Reachable (slotUpdateDirectories v list)
  | toggled {v v' : SelectiveSyncTreeView} (item : ItemRef) (s : CheckState) :
      Reachable v → s ≠ CheckState.PartiallyChecked → v.toggle item s = some v' → Reachable v'

/-- A view on the folder `f` of the account at `/dav`, not yet listed, whose
previous black list is `a`. -/
def scenarioView : SelectiveSyncTreeView :=
  { folderPath := ['f'], rootName := ['r'], oldBlackList := [['a']],
    davPath := ['/', 'd', 'a', 'v'], topLevelItem := none }

/-- The listing of the folder `f`: the folder itself and its subfolders `a`, `b`, `c`. -/
def scenarioListing : List QString :=
  [['/', 'd', 'a', 'v', '/', 'f', '/'],
   ['/', 'd', 'a', 'v', '/', 'f', '/', 'a', '/'],
   ['/', 'd', 'a', 'v', '/', 'f', '/', 'b', '/'],
   ['/', 'd', 'a', 'v', '/', 'f', '/', 'c', '/']]

/-- The view after the first listing has arrived. -/
def scenarioBuilt : SelectiveSyncTreeView := slotUpdateDirectories scenarioView scenarioListing

/-- A view on the folder `f`, not yet listed, whose previous black list is `a/y`. -/
def staleView : SelectiveSyncTreeView :=
  { folderPath := ['f'], rootName := ['r'], oldBlackList := [['a', '/', 'y']],
    davPath := ['/', 'd', 'a', 'v'], topLevelItem := none }

/-- The view `staleView` after the listing of `f` (subfolders `a` and `b`) and the
listing of `a` (one subfolder `x`; the folder `a/y` is gone from the server). -/
def staleBuilt : SelectiveSyncTreeView :=
  slotUpdateDirectories
    (slotUpdateDirectories staleView
      [['/', 'd', 'a', 'v', '/', 'f', '/'],
       ['/', 'd', 'a', 'v', '/', 'f', '/', 'a', '/'],
       ['/', 'd', 'a', 'v', '/', 'f', '/', 'b', '/']])
    [['/', 'd', 'a', 'v', '/', 'f', '/', 'a', '/'],
     ['/', 'd', 'a', 'v', '/', 'f', '/', 'a', '/', 'x', '/']]

/-- The segments joined with `/` between them. -/
def joinSlash : List QString → QString
  | [] => []
  | [w] => w
  | w :: w' :: ws => w ++ '/' :: joinSlash (w' :: ws)

/-- The listing entry with segments `segs` is in the tree under `x`: every
segment is found by `findFirstChild`, and the item reached stores the path `d`. -/
def entryPresent : List QString → QString → Item → Prop
  | [], d, x => x.data = d
  | seg :: rest, d, x =>
    ∃ i c, findFirstChild x.children seg = some i ∧ x.children[i]? = some c ∧
      entryPresent rest d c

/-- The listing entry `entry` needs no insertion into the tree under `x`: it has
no segments, or it is present with the path that its insertion would store. -/
def entrySettled (toRemove : QString) (entry : QString) (x : Item) : Prop :=
  pathSegments (removeAll toRemove entry) ≠ [] →
    entryPresent (pathSegments (removeAll toRemove entry))
      (chopSlash (removeAll toRemove entry)) x

/-- The entry `q` is a path strictly below `p`: it starts with `p` followed by `/`. -/
def strictlyBelow (p q : QString) : Bool := (p ++ ['/']).isPrefixOf q

/-- No entry of the list is strictly below another entry of the list. -/
def noNestedEntries (l : List QString) : Prop :=
  ∀ p ∈ l, ∀ q ∈ l, strictlyBelow p q = false

mutual
/-- The item and all items below it store the path that leads to them: the item
stores `pre` followed by its text, its children store its path, a `/` and their
text, and so on; texts contain no `/` and the children of one item have
different texts. -/
def Item.pathsFollow (pre : QString) : Item → Bool
  | Item.mk text data _ children =>
    !text.contains '/' && data == pre ++ text && decide (children.map Item.text).Nodup &&
      Item.pathsFollowList (data ++ ['/']) children
/-- Every item of the list satisfies `Item.pathsFollow pre`. -/
def Item.pathsFollowList (pre : QString) : List Item → Bool
  | [] => true
  | c :: cs => Item.pathsFollow pre c && Item.pathsFollowList pre cs
end

/-- The stored paths of the tree follow the texts: the children of the top-level
item have different texts and store their text, and below them
`Item.pathsFollow` holds. The path of the top-level item itself is free. -/
def Item.wellPathed (t : Item) : Bool :=
  decide (t.children.map Item.text).Nodup && Item.pathsFollowList [] t.children

/-- No `PartiallyChecked` item of the tree is without children: the fallback of
`createBlackList` on the old black list is never taken. -/
def Item.noPartialLeaf (t : Item) : Bool :=
  Item.all (fun x => !(x.checkState == CheckState.PartiallyChecked && x.children.isEmpty)) t

/-- The entry `e` is the path `d` or lies below it. -/
def atOrBelow (d e : QString) : Prop := e = d ∨ ∃ u, e = d ++ '/' :: u

/-- A view on the folder `f`, not yet listed, whose previous black list holds
`a/b` and, below it, `a/b/c`. -/
def nestedView : SelectiveSyncTreeView :=
  { folderPath := ['f'], rootName := ['r'],
    oldBlackList := [['a', '/', 'b'], ['a', '/', 'b', '/', 'c']],
    davPath := ['/', 'd', 'a', 'v'], topLevelItem := none }

/-- The view `nestedView` after the listing of `f`, which has the subfolders `a`
and `d`; `a` is never expanded. -/
def nestedBuilt : SelectiveSyncTreeView :=
  slotUpdateDirectories nestedView
    [['/', 'd', 'a', 'v', '/', 'f', '/'],
     ['/', 'd', 'a', 'v', '/', 'f', '/', 'a', '/'],
     ['/', 'd', 'a', 'v', '/', 'f', '/', 'd', '/']]

/-- A folder with the expanded subfolder `a` (children `x` excluded, `y`
included) and the excluded subfolder `b`. -/
def treeExpanded : Item :=
  Item.mk ['r'] ['f'] CheckState.PartiallyChecked
    [Item.mk ['a'] ['a'] CheckState.PartiallyChecked
      [Item.mk ['x'] ['a', '/', 'x'] CheckState.Unchecked [],
       Item.mk ['y'] ['a', '/', 'y'] CheckState.Checked []],
     Item.mk ['b'] ['b'] CheckState.Unchecked []]

/-! ## The remote tree and its full expansion -/

/-- A directory of the remote tree: its name and its subdirectories. -/
inductive RemoteDir where
  | mk (name : QString) (subdirs : List RemoteDir)

/-- The name of a remote directory. -/
def RemoteDir.name : RemoteDir → QString
  | RemoteDir.mk name _ => name

/-- The subdirectories of a remote directory. -/
def RemoteDir.subdirs : RemoteDir → List RemoteDir
  | RemoteDir.mk _ subdirs => subdirs

/-- Modelled from the spec: the listing that the transport delivers for the
directory whose path relative to the folder, with its trailing `/`, is `pre`
(empty for the folder itself): one entry per subdirectory, namely its absolute
path with a trailing `/`. -/
def listingOf (toRemove pre : QString) (subdirs : List RemoteDir) : List QString :=
  subdirs.map fun d => toRemove ++ pre ++ d.name ++ ['/']

mutual
/-- The item of the directory is expanded (its listing arrives and is inserted),
then every item below it, depth first. -/
def expandDir (pre : QString) : RemoteDir → SelectiveSyncTreeView → SelectiveSyncTreeView
  | RemoteDir.mk name subdirs, v =>
    expandDirs (pre ++ name ++ ['/']) subdirs
      (slotUpdateDirectories v (listingOf (pathToRemove v) (pre ++ name ++ ['/']) subdirs))
/-- The items of the directories are expanded one after the other. -/
def expandDirs (pre : QString) : List RemoteDir → SelectiveSyncTreeView → SelectiveSyncTreeView
  | [], v => v
  | d :: ds, v => expandDirs pre ds (expandDir pre d v)
end

/-- The view after the listing of the folder and the full expansion of every
item, with no toggle. -/
def fullyExpanded (v : SelectiveSyncTreeView) (dirs : List RemoteDir) : SelectiveSyncTreeView :=
  expandDirs [] dirs (slotUpdateDirectories v (listingOf (pathToRemove v) [] dirs))

mutual
/-- All listing entries that the expansion of a directory inserts, in order. -/
def dfsListings (toRemove pre : QString) : RemoteDir → List QString
  | RemoteDir.mk name subdirs =>
    listingOf toRemove (pre ++ name ++ ['/']) subdirs ++
      dfsListingsList toRemove (pre ++ name ++ ['/']) subdirs
/-- All listing entries that the expansion of the directories inserts, in order. -/
def dfsListingsList (toRemove pre : QString) : List RemoteDir → List QString
  | [] => []
  | d :: ds => dfsListings toRemove pre d ++ dfsListingsList toRemove pre ds
end

/-- All listing entries of a full expansion, in order. -/
def allListings (toRemove : QString) (dirs : List RemoteDir) : List QString :=
  listingOf toRemove [] dirs ++ dfsListingsList toRemove [] dirs

mutual
/-- The paths, relative to the folder, of a directory and of all directories below it. -/
def relPaths (pre : QString) : RemoteDir → List QString
  | RemoteDir.mk name subdirs => (pre ++ name) :: relPathsList (pre ++ name ++ ['/']) subdirs
/-- The relative paths of the directories of the list and of all directories below them. -/
def relPathsList (pre : QString) : List RemoteDir → List QString
  | [] => []
  | d :: ds => relPaths pre d ++ relPathsList pre ds
end

mutual
/-- Names contain no `/` and the subdirectories of one directory have different names. -/
def RemoteDir.namesOK : RemoteDir → Bool
  | RemoteDir.mk name subdirs =>
    !name.contains '/' && decide (subdirs.map RemoteDir.name).Nodup &&
      RemoteDir.namesOKList subdirs
/-- Every directory of the list satisfies `RemoteDir.namesOK`. -/
def RemoteDir.namesOKList : List RemoteDir → Bool
  | [] => true
  | d :: ds => RemoteDir.namesOK d && RemoteDir.namesOKList ds
end

/-- The directories directly in the folder have different names, and names are
well formed everywhere. -/
def remoteOK (dirs : List RemoteDir) : Bool :=
  decide (dirs.map RemoteDir.name).Nodup && RemoteDir.namesOKList dirs

mutual
/-- The item that a full expansion without toggle creates for a directory under
a parent in state `parentState`. -/
def seededItem (oldBlackList : List QString) (parentState : CheckState) (pre : QString) :
    RemoteDir → Item
  | RemoteDir.mk name subdirs =>
    Item.mk name (pre ++ name) (initialCheckState oldBlackList parentState (pre ++ name ++ ['/']))
      (seededList oldBlackList
        (initialCheckState oldBlackList parentState (pre ++ name ++ ['/']))
        (pre ++ name ++ ['/']) subdirs)
/-- The items that a full expansion without toggle creates for the directories of the list. -/
def seededList (oldBlackList : List QString) (parentState : CheckState) (pre : QString) :
    List RemoteDir → List Item
  | [] => []
  | d :: ds =>
    seededItem oldBlackList parentState pre d :: seededList oldBlackList parentState pre ds
end

/-- The item that the listing of the parent creates for a directory, before the
directory itself is expanded. -/
def leafItem (oldBlackList : List QString) (parentState : CheckState) (pre : QString)
    (d : RemoteDir) : Item :=
  Item.mk d.name (pre ++ d.name)
    (initialCheckState oldBlackList parentState (pre ++ d.name ++ ['/'])) []

mutual
/-- The insertions that the expansion of a directory performs, as seen from the
item of that directory: the segments still to be walked and the entry's path. -/
def relEntries (pre : QString) : RemoteDir → List (List QString × QString)
  | RemoteDir.mk name subdirs =>
    subdirs.map (fun c => ([c.name], pre ++ name ++ ['/'] ++ c.name ++ ['/'])) ++
      relEntriesList (pre ++ name ++ ['/']) subdirs
/-- The insertions that the expansion of the directories performs, as seen from
the item of their parent. -/
def relEntriesList (pre : QString) : List RemoteDir → List (List QString × QString)
  | [] => []
  | c :: cs => (relEntries pre c).map (fun e => (c.name :: e.1, e.2)) ++ relEntriesList pre cs
end

/-- One insertion given by its segments and its path. -/
def insertPair (oldBlackList : List QString) (x : Item) (e : List QString × QString) : Item :=
  recursiveInsert oldBlackList e.1 e.2 x

/-- The entries of the old black list that are not strictly below another entry. -/
def collapsed (oldBlackList : List QString) : List QString :=
  oldBlackList.filter fun e => !oldBlackList.any fun p => strictlyBelow p e

/-- Every segment followed by a `/`. -/
def slashed : List QString → QString
  | [] => []
  | n :: ns => n ++ '/' :: slashed ns

/-- The view with `root` as its top-level item. -/
def SelectiveSyncTreeView.withRoot (v : SelectiveSyncTreeView) (root : Item) :
    SelectiveSyncTreeView :=
  { v with topLevelItem := some root }

/-- The insertions of a full expansion, as seen from the top-level item. -/
def rootEntries (dirs : List RemoteDir) : List (List QString × QString) :=
  dirs.map (fun c => ([c.name], [] ++ c.name ++ ['/'])) ++ relEntriesList [] dirs

/-- The tree that a full expansion without toggle builds in an empty view. -/
def seededRoot (v : SelectiveSyncTreeView) (dirs : List RemoteDir) : Item :=
  Item.mk v.rootName v.folderPath
    (if v.oldBlackList.isEmpty then CheckState.Checked else CheckState.PartiallyChecked)
    (seededList v.oldBlackList
      (if v.oldBlackList.isEmpty then CheckState.Checked else CheckState.PartiallyChecked)
      [] dirs)

/-- No entry of the old black list is a path strictly above `e`. -/
def topmostIn (oldBlackList : List QString) (e : QString) : Prop :=
  ∀ p ∈ oldBlackList, strictlyBelow p e = false

/-- The entries of the old black list that start with `pre` are paths of the
directories `ds` or of directories below them. -/
def entriesKnown (oldBlackList : List QString) (pre : QString) (ds : List RemoteDir) : Prop :=
  ∀ e ∈ oldBlackList, (∃ u, e = pre ++ u) → e ∈ relPathsList pre ds

/-- A view on the folder `f`, not yet listed, whose previous black list is `b`. -/
def goneView : SelectiveSyncTreeView :=
  { folderPath := ['f'], rootName := ['r'], oldBlackList := [['b']],
    davPath := ['/', 'd', 'a', 'v'], topLevelItem := none }

/-- A remote folder whose only subdirectory is `a` (the directory `b` is gone). -/
def goneRemote : List RemoteDir := [RemoteDir.mk ['a'] []]

/-- A view on the folder `f`, not yet listed, whose previous black list is `a`,
`a/x`, `b/y`. -/
def demoView : SelectiveSyncTreeView :=
  { folderPath := ['f'], rootName := ['r'],
    oldBlackList := [['a'], ['a', '/', 'x'], ['b', '/', 'y']],
    davPath := ['/', 'd', 'a', 'v'], topLevelItem := none }

/-- A remote folder with the subdirectories `a` (containing `x`), `b` (containing
`y` and `z`) and `c`. -/
def demoRemote : List RemoteDir :=
  [RemoteDir.mk ['a'] [RemoteDir.mk ['x'] []],
   RemoteDir.mk ['b'] [RemoteDir.mk ['y'] [], RemoteDir.mk ['z'] []],
   RemoteDir.mk ['c'] []]

/-! ## Seeding of new items, stored paths and the ascent of `PartiallyChecked` -/

/-- The seeding rule for a new item below a `PartiallyChecked` parent in the
words of the specification, for the absolute path `d` of the item: `Unchecked`
if an entry of the old black list equals `d`, else `PartiallyChecked` if an
entry is a path prefix of `d`, else `Checked`. -/
def seedPerSpec (oldBlackList : List QString) (d : QString) : CheckState :=
  if oldBlackList.any (fun e => e == d) then CheckState.Unchecked
  else if oldBlackList.any (fun e => inSubtreeOf d e) then CheckState.PartiallyChecked
  else CheckState.Checked

/-- A folder in state `PartiallyChecked` that has not been listed yet. -/
def unlistedFolder : Item := Item.mk ['r'] ['f'] CheckState.PartiallyChecked []

/-- Lines 146-149: the slot as `itemChanged` reaches it, with the member
`_inserting` as an argument: while an insertion runs the slot returns at once. -/
def slotItemChangedWhile (inserting : Bool) (fuel : Nat) (t : Item) (item : ItemRef) :
    Option Item :=
  if inserting then some t else slotItemChanged fuel t item

/-- A listing entry for the folder `x` of another folder `g` of the account: it
does not start with the prefix `/dav/f/` that `scenarioView` removes. -/
def foreignEntry : QString := ['/', 'd', 'a', 'v', '/', 'g', '/', 'x', '/']

/-- The handle of the item that the segments lead to from `x`: each segment in
turn is looked up among the children with `findFirstChild`, as `recursiveInsert`
does. -/
def reachedBy : List QString → Item → Option ItemRef
  | [], _ => some []
  | seg :: rest, x =>
    match findFirstChild x.children seg with
    | none => none
    | some i =>
      match x.children[i]? with
      | none => none
      | some c => (reachedBy rest c).map (· ++ [i])

/-- The item is `Checked` exactly when all its children are `Checked`,
`Unchecked` exactly when all its children are `Unchecked`, and
`PartiallyChecked` exactly in the remaining case. -/
def agreesWithChildren (y : Item) : Prop :=
  (y.checkState = CheckState.Checked ↔ ∀ c ∈ y.children, c.checkState = CheckState.Checked) ∧
  (y.checkState = CheckState.Unchecked ↔
    ∀ c ∈ y.children, c.checkState = CheckState.Unchecked) ∧
  (y.checkState = CheckState.PartiallyChecked ↔
    ¬ (∀ c ∈ y.children, c.checkState = CheckState.Checked) ∧
    ¬ (∀ c ∈ y.children, c.checkState = CheckState.Unchecked))

/-- The handle `a` designates an ancestor of the item of `p`, not that item itself. -/
def properAncestor (a p : ItemRef) : Prop := ∃ r, r ≠ [] ∧ p = r ++ a

/-- A folder with the chain of subfolders `a`, `a/b` and, in `a/b`, the
subfolders `n` and `m`; every item is `Checked`. -/
def chainTree : Item :=
  Item.mk ['r'] ['f'] CheckState.Checked
    [Item.mk ['a'] ['a'] CheckState.Checked
      [Item.mk ['b'] ['a', '/', 'b'] CheckState.Checked
        [Item.mk ['n'] ['a', '/', 'b', '/', 'n'] CheckState.Checked [],
         Item.mk ['m'] ['a', '/', 'b', '/', 'm'] CheckState.Checked []]]]

/-- The view of the scenario after the item `b` has been expanded too: its
listing holds the subfolders `x` and `y`. -/
def expandedB : SelectiveSyncTreeView :=
  slotUpdateDirectories scenarioBuilt
    [['/', 'd', 'a', 'v', '/', 'f', '/', 'b', '/'],
     ['/', 'd', 'a', 'v', '/', 'f', '/', 'b', '/', 'x', '/'],
     ['/', 'd', 'a', 'v', '/', 'f', '/', 'b', '/', 'y', '/']]

/-- The view `expandedB` after the user has toggled `b` to `Unchecked`. -/
def excludedB : SelectiveSyncTreeView :=
  expandedB.withRoot
    (Item.mk ['r'] ['f'] CheckState.PartiallyChecked
      [Item.mk ['a'] ['a'] CheckState.Unchecked [],
       Item.mk ['b'] ['b'] CheckState.Unchecked
        [Item.mk ['x'] ['b', '/', 'x'] CheckState.Unchecked [],
         Item.mk ['y'] ['b', '/', 'y'] CheckState.Unchecked []],
       Item.mk ['c'] ['c'] CheckState.Checked []])

/-! ## The insertion with its signals

Every setter of `QTreeWidgetItem` emits `itemChanged` when it stores a value for
the first time or a value that differs from the stored one, and the view runs
`slotItemChanged` for the item. The functions below follow `recursiveInsert` and
`slotUpdateDirectories` on the whole tree, handle by handle, and run `slot` at
every such emission; `recursiveInsert` and `slotUpdateDirectories` above are what
is left when the slot returns at once. -/

/-- The constructor `new QTreeWidgetItem(parent)`: an item without text, data or
children, whose check state reads `Unchecked`, is appended below the designated
item. Nothing is emitted. -/
def appendItem (t : Item) (parent : ItemRef) : Item :=
  modifyAt t parent fun x =>
    Item.mk x.text x.data x.checkState (x.children ++ [Item.mk [] [] CheckState.Unchecked []])

/-- Lines 79-86 with their signals: the scan of `_oldBlackList` for the new item. -/
def scanBlackListEmitting (slot : Item → ItemRef → Option Item) (item : ItemRef) :
    List QString → QString → Item → Option Item
  | [], _, t => some t
  | str :: rest, path, t =>
    if str ++ ['/'] = path then setCheckState slot t item CheckState.Unchecked
    else if startsWith str path then
      (setCheckState slot t item CheckState.PartiallyChecked).bind
        (scanBlackListEmitting slot item rest path)
    else scanBlackListEmitting slot item rest path t

/-- Lines 59-97 with their signals: `recursiveInsert(parent, pathTrail, path)` on
the tree `t`. For the last item `setToolTip` and `setData` emit when the path
differs from the stored one. A new item receives its first check state, its
icon and its text, each with an emission, and the scan of lines 79-86 emits at
each change. -/
def recursiveInsertEmitting (slot : Item → ItemRef → Option Item)
    (oldBlackList : List QString) : List QString → QString → ItemRef → Item → Option Item
  | [], path, parent, t =>
    if (itemAt t parent).map Item.data = some (chopSlash path) then some t
    else
      (slot t parent).bind fun t1 =>
        slot (modifyAt t1 parent fun x => Item.mk x.text (chopSlash path) x.checkState x.children)
          parent
  | first :: rest, path, parent, t =>
    match findFirstChild (childrenAt t parent) first with
    | some i => recursiveInsertEmitting slot oldBlackList rest path (i :: parent) t
    | none =>
      let item := childCount t parent :: parent
      let t0 := appendItem t parent
      (match checkStateAt t0 parent with
        | some CheckState.Checked => slot (storeCheckState t0 item CheckState.Checked) item
        | some CheckState.Unchecked => slot (storeCheckState t0 item CheckState.Unchecked) item
        | _ =>
          (slot (storeCheckState t0 item CheckState.Checked) item).bind
            (scanBlackListEmitting slot item oldBlackList path)).bind fun t1 =>
        (slot t1 item).bind fun t2 =>
          (slot (modifyAt t2 item fun x => Item.mk first x.data x.checkState x.children)
            item).bind fun t3 =>
            recursiveInsertEmitting slot oldBlackList rest path item t3

/-- Lines 126-133 with their signals: the body of the loop, for one entry. -/
def insertEntryEmitting (slot : Item → ItemRef → Option Item) (oldBlackList : List QString)
    (toRemove : QString) (root : Item) (entry : QString) : Option Item :=
  let path := removeAll toRemove entry
  let paths := pathSegments path
  if paths.isEmpty then some root
  else recursiveInsertEmitting slot oldBlackList paths path [] root

/-- Lines 126-133 with their signals: the loop over the listing. -/
def insertAllEmitting (slot : Item → ItemRef → Option Item) (oldBlackList : List QString)
    (toRemove : QString) : List QString → Item → Option Item
  | [], root => some root
  | entry :: rest, root =>
    (insertEntryEmitting slot oldBlackList toRemove root entry).bind
      (insertAllEmitting slot oldBlackList toRemove rest)

/-- Lines 104-115 with their signals: the existing top-level item, or the new
one, whose text, icon, data and check state are set with an emission each. -/
def rootItemEmitting (slot : Item → ItemRef → Option Item) (v : SelectiveSyncTreeView) :
    Option Item :=
  match v.topLevelItem with
  | some root => some root
  | none =>
    (slot (Item.mk v.rootName [] CheckState.Unchecked []) []).bind fun t1 =>
      (slot t1 []).bind fun t2 =>
        (slot (Item.mk t2.text v.folderPath t2.checkState t2.children) []).bind fun t3 =>
          slot (storeCheckState t3 []
            (if v.oldBlackList.isEmpty then CheckState.Checked
             else CheckState.PartiallyChecked)) []

/-- Lines 99-135 with their signals: `slotUpdateDirectories(list)` sets
`_inserting` for the time it runs, so every emission reaches
`slotItemChangedWhile true`. -/
def slotUpdateDirectoriesEmitting (fuel : Nat) (v : SelectiveSyncTreeView)
    (list : List QString) : Option SelectiveSyncTreeView :=
  ((rootItemEmitting (slotItemChangedWhile true fuel) v).bind
    (insertAllEmitting (slotItemChangedWhile true fuel) v.oldBlackList (pathToRemove v)
      list)).map fun root => { v with topLevelItem := some root }

/-! ## Basic facts about items and handles -/

@[simp] theorem Item.text_mk (a b : QString) (c : CheckState) (d : List Item) :
    (Item.mk a b c d).text = a := rfl
@[simp] theorem Item.data_mk (a b : QString) (c : CheckState) (d : List Item) :
    (Item.mk a b c d).data = b := rfl
@[simp] theorem Item.checkState_mk (a b : QString) (c : CheckState) (d : List Item) :
    (Item.mk a b c d).checkState = c := rfl
@[simp] theorem Item.children_mk (a b : QString) (c : CheckState) (d : List Item) :
    (Item.mk a b c d).children = d := rfl

@[simp] theorem Item.eta (x : Item) : Item.mk x.text x.data x.checkState x.children = x := by
  cases x; rfl

theorem getDown_append (a b : List Nat) (x : Item) :
    getDown (a ++ b) x = (getDown a x).bind (getDown b) := by
  induction a generalizing x with
  | nil => simp [getDown]
  | cons i a ih =>
    simp only [List.cons_append, getDown]
    cases x.children[i]? with
    | none => simp
    | some c => simp [ih]

theorem modifyDown_append (f : Item → Item) (a b : List Nat) (x : Item) :
    modifyDown f (a ++ b) x = modifyDown (modifyDown f b) a x := by
  induction a generalizing x with
  | nil => simp [modifyDown]
  | cons i a ih =>
    simp only [List.cons_append, modifyDown]
    congr 1
    congr 1
    funext c
    exact ih c

theorem getDown_modifyDown_self (f : Item → Item) (p : List Nat) (x : Item) :
    getDown p (modifyDown f p x) = (getDown p x).map f := by
  induction p generalizing x with
  | nil => simp [getDown, modifyDown]
  | cons i p ih =>
    simp only [getDown, modifyDown, Item.children_mk, List.getElem?_modify_eq]
    cases x.children[i]? with
    | none => simp
    | some c => simp [ih]

theorem modifyDown_congr (f g : Item → Item) (p : List Nat) (x : Item)
    (h : ∀ y, getDown p x = some y → f y = g y) : modifyDown f p x = modifyDown g p x := by
  induction p generalizing x with
  | nil => simpa [modifyDown] using h x (by simp [getDown])
  | cons i p ih =>
    simp only [modifyDown]
    congr 1
    apply List.ext_getElem?
    intro n
    by_cases hn : i = n
    · subst hn
      simp only [List.getElem?_modify_eq]
      cases hc : x.children[i]? with
      | none => simp
      | some c =>
        show some (modifyDown f p c) = some (modifyDown g p c)
        congr 1
        apply ih
        intro y hy
        apply h
        simp [getDown, hc, hy]
    · simp [List.getElem?_modify_ne _ _ hn]

theorem modifyDown_id_fun (p : List Nat) (x : Item) : modifyDown id p x = x := by
  induction p generalizing x with
  | nil => simp [modifyDown]
  | cons i p ih =>
    simp only [modifyDown]
    have : (modifyDown id p) = id := by funext c; exact ih c
    rw [this, List.modify_id, Item.eta]

theorem modifyDown_id (f : Item → Item) (p : List Nat) (x : Item)
    (h : ∀ y, getDown p x = some y → f y = y) : modifyDown f p x = x := by
  rw [modifyDown_congr f id p x (by simpa using h), modifyDown_id_fun]

theorem modifyDown_modifyDown (f g : Item → Item) (p : List Nat) (x : Item) :
    modifyDown g p (modifyDown f p x) = modifyDown (g ∘ f) p x := by
  induction p generalizing x with
  | nil => simp [modifyDown]
  | cons i p ih =>
    simp only [modifyDown, Item.text_mk, Item.data_mk, Item.checkState_mk, Item.children_mk,
      List.modify_modify_eq]
    congr 1
    congr 1
    funext c
    exact ih c

/-- Observations of an item that do not look inside its children. -/
theorem getDown_modifyDown_off {α : Type} (obs : Item → α)
    (hobs : ∀ (a b : QString) (c : CheckState) (cs : List Item) (g : Item → Item) (i : Nat),
      obs (Item.mk a b c (cs.modify g i)) = obs (Item.mk a b c cs))
    (f : Item → Item) (p q : List Nat) (x : Item) (h : ¬ p <+: q) :
    (getDown q (modifyDown f p x)).map obs = (getDown q x).map obs := by
  induction p generalizing q x with
  | nil => exact absurd (List.nil_prefix) h
  | cons i p ih =>
    cases q with
    | nil =>
      simp only [getDown, modifyDown, Option.map_some']
      rw [hobs]; simp
    | cons j q =>
      simp only [getDown, modifyDown, Item.children_mk]
      by_cases hij : i = j
      · subst hij
        simp only [List.getElem?_modify_eq]
        cases hc : x.children[i]? with
        | none => simp
        | some c =>
          simp only [Option.map_some']
          apply ih
          intro hp
          exact h (by simpa using hp)
      · simp [List.getElem?_modify_ne _ _ hij]

theorem whenChecked_eq : whenChecked = whenFully CheckState.Checked := rfl
theorem whenUnchecked_eq : whenUnchecked = whenFully CheckState.Unchecked := rfl

@[simp] theorem itemAt_nil (t : Item) : itemAt t [] = some t := rfl

theorem itemAt_append (t : Item) (q p : ItemRef) :
    itemAt t (q ++ p) = (itemAt t p).bind (fun y => itemAt y q) := by
  simp only [itemAt, List.reverse_append, getDown_append]

theorem itemAt_cons (t : Item) (i : Nat) (r : ItemRef) :
    itemAt t (i :: r) = (itemAt t r).bind (fun x => x.children[i]?) := by
  have h := itemAt_append t [i] r
  simp only [List.singleton_append] at h
  rw [h]
  congr 1
  funext y
  simp only [itemAt, List.reverse_cons, List.reverse_nil, List.nil_append, getDown]
  cases y.children[i]? <;> rfl

theorem itemAt_cons_eq_childrenAt (t : Item) (i : Nat) (r : ItemRef) :
    itemAt t (i :: r) = (childrenAt t r)[i]? := by
  rw [itemAt_cons, childrenAt]
  cases itemAt t r <;> simp

theorem modifyAt_append (t : Item) (q p : ItemRef) (f : Item → Item) :
    modifyAt t (q ++ p) f = modifyAt t p (fun y => modifyAt y q f) := by
  simp only [modifyAt, List.reverse_append, modifyDown_append]

theorem modifyAt_cons (t : Item) (i : Nat) (r : ItemRef) (f : Item → Item) :
    modifyAt t (i :: r) f =
      modifyAt t r (fun y => Item.mk y.text y.data y.checkState (y.children.modify f i)) := by
  have h := modifyAt_append t [i] r f
  simp only [List.singleton_append] at h
  rw [h]
  rfl

theorem modifyAt_modifyAt (t : Item) (p : ItemRef) (f g : Item → Item) :
    modifyAt (modifyAt t p f) p g = modifyAt t p (g ∘ f) := by
  simp only [modifyAt, modifyDown_modifyDown]

theorem modifyAt_congr (t : Item) (p : ItemRef) (f g : Item → Item)
    (h : ∀ y, itemAt t p = some y → f y = g y) : modifyAt t p f = modifyAt t p g :=
  modifyDown_congr f g _ t h

theorem modifyAt_id (t : Item) (p : ItemRef) (f : Item → Item)
    (h : ∀ y, itemAt t p = some y → f y = y) : modifyAt t p f = t :=
  modifyDown_id f _ t h

theorem itemAt_modifyAt_self (t : Item) (p : ItemRef) (f : Item → Item) :
    itemAt (modifyAt t p f) p = (itemAt t p).map f :=
  getDown_modifyDown_self f _ t

/-- Below the modified item the new tree shows what `f` produced. -/
theorem itemAt_modifyAt_under (t : Item) (p r : ItemRef) (f : Item → Item) :
    itemAt (modifyAt t p f) (r ++ p) = (itemAt t p).bind (fun y => itemAt (f y) r) := by
  rw [itemAt_append, itemAt_modifyAt_self]
  cases itemAt t p <;> simp

/-- Away from the subtree of the modified item, observations that do not look
inside the children are unchanged. -/
theorem itemAt_modifyAt_off {α : Type} (obs : Item → α)
    (hobs : ∀ (a b : QString) (c : CheckState) (cs : List Item) (g : Item → Item) (i : Nat),
      obs (Item.mk a b c (cs.modify g i)) = obs (Item.mk a b c cs))
    (t : Item) (p q : ItemRef) (f : Item → Item) (h : ¬ p <:+ q) :
    (itemAt (modifyAt t p f) q).map obs = (itemAt t q).map obs := by
  apply getDown_modifyDown_off obs hobs
  intro hp
  exact h (List.reverse_prefix.mp hp)

theorem checkStateAt_modifyAt_off (t : Item) (p q : ItemRef) (f : Item → Item)
    (h : ¬ p <:+ q) : checkStateAt (modifyAt t p f) q = checkStateAt t q :=
  itemAt_modifyAt_off Item.checkState (by intros; rfl) t p q f h

theorem childCount_modifyAt_off (t : Item) (p q : ItemRef) (f : Item → Item)
    (h : ¬ p <:+ q) : childCount (modifyAt t p f) q = childCount t q := by
  have := itemAt_modifyAt_off (fun x => x.children.length) (by intros; simp) t p q f h
  simp only [childCount, childrenAt]
  cases h1 : itemAt (modifyAt t p f) q <;> cases h2 : itemAt t q <;> simp_all

@[simp] theorem Item.children_withCheckState (s : CheckState) (x : Item) :
    (x.withCheckState s).children = x.children := by cases x; rfl
@[simp] theorem Item.checkState_withCheckState (s : CheckState) (x : Item) :
    (x.withCheckState s).checkState = s := by cases x; rfl
@[simp] theorem Item.text_withCheckState (s : CheckState) (x : Item) :
    (x.withCheckState s).text = x.text := by cases x; rfl
@[simp] theorem Item.data_withCheckState (s : CheckState) (x : Item) :
    (x.withCheckState s).data = x.data := by cases x; rfl

/-- Strictly below an item only its children matter. -/
theorem itemAt_of_children_eq (x y : Item) (h : x.children = y.children) (r : ItemRef)
    (hr : r ≠ []) : itemAt x r = itemAt y r := by
  have hrev : r.reverse ≠ [] := by simpa using hr
  unfold itemAt
  cases hr' : r.reverse with
  | nil => exact absurd hr' hrev
  | cons i rest => simp only [getDown, h]

theorem checkStateAt_isSome (t : Item) (q : ItemRef) :
    (checkStateAt t q).isSome = (itemAt t q).isSome := by
  simp [checkStateAt]

theorem itemAt_isSome_of_cons {t : Item} {i : Nat} {r : ItemRef}
    (h : (itemAt t (i :: r)).isSome) : (itemAt t r).isSome := by
  rw [itemAt_cons] at h
  cases hr : itemAt t r with
  | none => simp [hr] at h
  | some y => rfl

theorem itemAt_storeCheckState (t : Item) (p : ItemRef) (s : CheckState) :
    itemAt (storeCheckState t p s) p = (itemAt t p).map (Item.withCheckState s) :=
  itemAt_modifyAt_self t p _

theorem checkStateAt_storeCheckState_self (t : Item) (p : ItemRef) (s : CheckState) :
    checkStateAt (storeCheckState t p s) p = (checkStateAt t p).map (fun _ => s) := by
  simp only [checkStateAt, itemAt_storeCheckState]
  cases itemAt t p <;> simp

theorem checkStateAt_storeCheckState_ne (t : Item) (p q : ItemRef) (s : CheckState)
    (h : q ≠ p) : checkStateAt (storeCheckState t p s) q = checkStateAt t q := by
  by_cases hs : p <:+ q
  · obtain ⟨r, rfl⟩ := hs
    have hr : r ≠ [] := by
      intro h0; apply h; simp [h0]
    unfold checkStateAt storeCheckState
    rw [itemAt_modifyAt_under, itemAt_append]
    cases itemAt t p with
    | none => simp
    | some y =>
      simp only [Option.some_bind]
      rw [itemAt_of_children_eq (y.withCheckState s) y (by simp) r hr]
  · exact checkStateAt_modifyAt_off t p q _ hs

theorem checkStateAt_storeCheckState (t : Item) (p q : ItemRef) (s : CheckState) :
    checkStateAt (storeCheckState t p s) q =
      if q = p then (checkStateAt t p).map (fun _ => s) else checkStateAt t q := by
  by_cases h : q = p
  · subst h; simp [checkStateAt_storeCheckState_self]
  · simp [h, checkStateAt_storeCheckState_ne t p q s h]

theorem childCount_storeCheckState (t : Item) (p q : ItemRef) (s : CheckState) :
    childCount (storeCheckState t p s) q = childCount t q := by
  by_cases hs : p <:+ q
  · obtain ⟨r, rfl⟩ := hs
    unfold childCount childrenAt storeCheckState
    rw [itemAt_modifyAt_under, itemAt_append]
    cases itemAt t p with
    | none => simp
    | some y =>
      simp only [Option.some_bind]
      by_cases hr : r = []
      · subst hr; simp
      · rw [itemAt_of_children_eq (y.withCheckState s) y (by simp) r hr]
  · exact childCount_modifyAt_off t p q _ hs

theorem checkStateAt_cons (t : Item) (i : Nat) (r : ItemRef) :
    checkStateAt t (i :: r) = ((childrenAt t r)[i]?).map Item.checkState := by
  simp only [checkStateAt, itemAt_cons_eq_childrenAt]

theorem checkStateAt_cons_isSome (t : Item) (i : Nat) (r : ItemRef) :
    (checkStateAt t (i :: r)).isSome ↔ i < childCount t r := by
  simp only [checkStateAt_cons, childCount, Option.isSome_map']
  constructor
  · intro h
    by_contra hlt
    rw [List.getElem?_eq_none (by omega)] at h
    simp at h
  · intro h
    rw [List.getElem?_eq_getElem h]; rfl

/-- The scan of a parent's children for a state other than `s`, in terms of handles. -/
theorem any_childrenAt_iff (t : Item) (r : ItemRef) (s : CheckState) :
    (childrenAt t r).any (fun c => c.checkState != s) = true ↔
      ∃ i s', checkStateAt t (i :: r) = some s' ∧ s' ≠ s := by
  simp only [List.any_eq_true, bne_iff_ne, ne_eq, checkStateAt_cons]
  constructor
  · rintro ⟨c, hc, hne⟩
    obtain ⟨i, hi, rfl⟩ := List.getElem_of_mem hc
    exact ⟨i, _, by rw [List.getElem?_eq_getElem hi]; rfl, hne⟩
  · rintro ⟨i, s', hs, hne⟩
    cases hc : (childrenAt t r)[i]? with
    | none => simp [hc] at hs
    | some c =>
      simp only [hc, Option.map_some', Option.some.injEq] at hs
      exact ⟨c, List.getElem?_mem hc, by rw [hs]; exact hne⟩

theorem any_childrenAt_congr (t t' : Item) (r : ItemRef) (s : CheckState)
    (h : ∀ i, checkStateAt t' (i :: r) = checkStateAt t (i :: r)) :
    (childrenAt t' r).any (fun c => c.checkState != s) =
      (childrenAt t r).any (fun c => c.checkState != s) := by
  rw [Bool.eq_iff_iff, any_childrenAt_iff, any_childrenAt_iff]
  simp only [h]

theorem CheckState.opposite_ne_partially {s : CheckState} (h : s ≠ CheckState.PartiallyChecked) :
    s.opposite ≠ CheckState.PartiallyChecked := by
  cases s <;> simp_all [CheckState.opposite]

theorem CheckState.opposite_ne_self {s : CheckState} (h : s ≠ CheckState.PartiallyChecked) :
    s.opposite ≠ s := by
  cases s <;> simp_all [CheckState.opposite]

/-- A handle is never a proper ancestor of itself or of its own descendants. -/
theorem cons_append_ne (i : Nat) (r p : ItemRef) : p ≠ i :: (r ++ p) := by
  intro h
  have := congrArg List.length h
  simp at this
  omega

/-- The upward cascade only writes to proper ancestors of the item. -/
theorem checkStateAt_cascadeUp (p : ItemRef) (s : CheckState) (t : Item) (q : ItemRef)
    (h : ¬ ∃ r, r ≠ [] ∧ p = r ++ q) : checkStateAt (cascadeUp p s t) q = checkStateAt t q := by
  induction p generalizing s t with
  | nil => rfl
  | cons i pp ih =>
    have hq : q ≠ pp := by
      intro e; apply h; exact ⟨[i], by simp, by simp [e]⟩
    have hrec : ¬ ∃ r, r ≠ [] ∧ pp = r ++ q := by
      rintro ⟨r, hr, e⟩
      apply h
      exact ⟨i :: r, by simp, by simp [e]⟩
    unfold cascadeUp
    split_ifs <;>
      first
        | rfl
        | (rw [ih _ _ hrec, checkStateAt_storeCheckState_ne _ _ _ _ hq])

theorem childCount_cascadeUp (p : ItemRef) (s : CheckState) (t : Item) (q : ItemRef) :
    childCount (cascadeUp p s t) q = childCount t q := by
  induction p generalizing s t with
  | nil => rfl
  | cons i pp ih =>
    unfold cascadeUp
    split_ifs <;>
      first
        | rfl
        | (rw [ih, childCount_storeCheckState])

theorem checkStateAt_cascadeUp_self (p : ItemRef) (s : CheckState) (t : Item) :
    checkStateAt (cascadeUp p s t) p = checkStateAt t p := by
  apply checkStateAt_cascadeUp
  rintro ⟨r, hr, e⟩
  have := congrArg List.length e
  cases r with
  | nil => exact hr rfl
  | cons a r => simp at this; omega

theorem checkStateAt_cascadeUp_under (p : ItemRef) (s : CheckState) (t : Item) (r : ItemRef) :
    checkStateAt (cascadeUp p s t) (r ++ p) = checkStateAt t (r ++ p) := by
  apply checkStateAt_cascadeUp
  rintro ⟨r', hr, e⟩
  have := congrArg List.length e
  cases r' with
  | nil => exact hr rfl
  | cons a r' => simp at this; omega

theorem checkStateAt_cascadeUp_child (p : ItemRef) (s : CheckState) (t : Item) (i : Nat) :
    checkStateAt (cascadeUp p s t) (i :: p) = checkStateAt t (i :: p) :=
  checkStateAt_cascadeUp_under p s t [i]

theorem checkStateAt_parent_isSome {t : Item} {i : Nat} {pp : ItemRef} {s : CheckState}
    (h : checkStateAt t (i :: pp) = some s) : ∃ s', checkStateAt t pp = some s' := by
  have h1 : (itemAt t (i :: pp)).isSome := by
    rw [← checkStateAt_isSome, h]; rfl
  have h2 := itemAt_isSome_of_cons h1
  rw [← checkStateAt_isSome] at h2
  exact Option.isSome_iff_exists.mp h2

theorem parentFully_eq (s : CheckState) (hs : s ≠ CheckState.PartiallyChecked)
    (slot : Item → ItemRef → Option Item) (i : Nat) (pp : ItemRef) (t : Item)
    (hv : checkStateAt t (i :: pp) = some s) (hslot : UpSpec slot pp) :
    parentFully s (setCheckState slot) (i :: pp) t = some (cascadeUp (i :: pp) s t) := by
  obtain ⟨sp, hsp⟩ := checkStateAt_parent_isSome hv
  simp only [parentFully]
  conv_rhs => unfold cascadeUp
  simp only [hs, if_false]
  by_cases h1 : checkStateAt t pp = some s
  · simp [h1]
  · simp only [ne_eq, h1, not_false_eq_true, if_true]
    cases hany : (childrenAt t pp).any (fun c => c.checkState != s) with
    | false =>
      simp only [Bool.not_false, if_true, Bool.false_eq_true, if_false]
      unfold setCheckState
      rw [if_neg h1]
      apply hslot
      · rw [checkStateAt_storeCheckState_self, hsp]; rfl
      · right
        intro j s' hj
        rw [checkStateAt_storeCheckState_ne _ _ _ _ (by simp)] at hj
        by_contra hne
        have : (childrenAt t pp).any (fun c => c.checkState != s) = true :=
          (any_childrenAt_iff t pp s).mpr ⟨j, s', hj, hne⟩
        rw [hany] at this
        exact Bool.false_ne_true this
    | true =>
      simp only [Bool.not_true, Bool.false_eq_true, if_false, if_true]
      by_cases h2 : checkStateAt t pp = some s.opposite
      · simp only [h2, if_true]
        unfold setCheckState
        rw [if_neg (by rw [h2]; simpa using CheckState.opposite_ne_partially hs)]
        apply hslot
        · rw [checkStateAt_storeCheckState_self, hsp]; rfl
        · left; rfl
      · simp only [h2, if_false]

theorem whenPartiallyChecked_eq (slot : Item → ItemRef → Option Item) (p : ItemRef) (t : Item)
    (hv : checkStateAt t p = some CheckState.PartiallyChecked)
    (hslot : ∀ i pp, p = i :: pp → UpSpec slot pp) :
    whenPartiallyChecked (setCheckState slot) p t =
      some (cascadeUp p CheckState.PartiallyChecked t) := by
  unfold whenPartiallyChecked
  rw [if_pos hv]
  cases p with
  | nil => rfl
  | cons i pp =>
    obtain ⟨sp, hsp⟩ := checkStateAt_parent_isSome hv
    simp only []
    conv_rhs => unfold cascadeUp
    simp only [if_true]
    by_cases h1 : checkStateAt t pp = some CheckState.PartiallyChecked
    · simp [h1]
    · simp only [ne_eq, h1, not_false_eq_true, if_true]
      unfold setCheckState
      rw [if_neg h1]
      apply hslot i pp rfl
      · rw [checkStateAt_storeCheckState_self, hsp]; rfl
      · left; rfl

/-- The loop over the children changes nothing when they all hold `s` already. -/
theorem childLoop_noop (s : CheckState) (setCS : Item → ItemRef → CheckState → Option Item)
    (p : ItemRef) (t : Item) (k j : Nat)
    (h : ∀ i s', checkStateAt t (i :: p) = some s' → s' = s) (hk : j + k ≤ childCount t p) :
    childLoop
      (fun acc i =>
        if checkStateAt acc (i :: p) ≠ some s then setCS acc (i :: p) s else some acc)
      k j t = some t := by
  induction k generalizing j with
  | zero => rfl
  | succ k ih =>
    simp only [childLoop]
    have hj : j < childCount t p := by omega
    obtain ⟨s', hs'⟩ := Option.isSome_iff_exists.mp ((checkStateAt_cons_isSome t j p).mpr hj)
    have := h j s' hs'
    subst this
    simp only [hs', ne_eq, not_true_eq_false, if_false, Option.some_bind]
    exact ih (j + 1) (by omega)

theorem childrenFully_noop (s : CheckState) (setCS : Item → ItemRef → CheckState → Option Item)
    (p : ItemRef) (t : Item) (h : ∀ i s', checkStateAt t (i :: p) = some s' → s' = s) :
    childrenFully s setCS p t = some t :=
  childLoop_noop s setCS p t _ 0 h (by omega)

theorem whenFully_skip (s : CheckState) (setCS : Item → ItemRef → CheckState → Option Item)
    (p : ItemRef) (t : Item) (h : checkStateAt t p ≠ some s) : whenFully s setCS p t = some t := by
  unfold whenFully
  rw [if_neg h]

theorem whenPartiallyChecked_skip (setCS : Item → ItemRef → CheckState → Option Item)
    (p : ItemRef) (t : Item) (h : checkStateAt t p ≠ some CheckState.PartiallyChecked) :
    whenPartiallyChecked setCS p t = some t := by
  unfold whenPartiallyChecked
  rw [if_neg h]

theorem slotItemChanged_succ (fuel : Nat) (t : Item) (p : ItemRef) :
    slotItemChanged (fuel + 1) t p =
      (whenFully CheckState.Checked (setCheckState (slotItemChanged fuel)) p t).bind fun t1 =>
        (whenFully CheckState.Unchecked (setCheckState (slotItemChanged fuel)) p t1).bind
          fun t2 => whenPartiallyChecked (setCheckState (slotItemChanged fuel)) p t2 := rfl

/-- With enough fuel for the ancestors, the slot run for an item whose children
need no change performs exactly the upward cascade. -/
theorem slotItemChanged_up (fuel : Nat) (p : ItemRef) (hfuel : p.length < fuel) :
    UpSpec (slotItemChanged fuel) p := by
  induction fuel generalizing p with
  | zero => omega
  | succ fuel ih =>
    intro t s hv hchildren
    rw [slotItemChanged_succ]
    have hup : ∀ i pp, p = i :: pp → UpSpec (slotItemChanged fuel) pp := by
      intro i pp e
      apply ih
      subst e
      simp at hfuel
      omega
    by_cases hs : s = CheckState.PartiallyChecked
    · subst hs
      rw [whenFully_skip _ _ _ _ (by rw [hv]; simp), Option.some_bind,
        whenFully_skip _ _ _ _ (by rw [hv]; simp), Option.some_bind]
      exact whenPartiallyChecked_eq _ p t hv hup
    · have hch : ∀ j s', checkStateAt t (j :: p) = some s' → s' = s := by
        rcases hchildren with h | h
        · exact absurd h hs
        · exact h
      have hfully : whenFully s (setCheckState (slotItemChanged fuel)) p t =
          some (cascadeUp p s t) := by
        unfold whenFully
        rw [if_pos hv]
        have hparent : parentFully s (setCheckState (slotItemChanged fuel)) p t =
            some (cascadeUp p s t) := by
          cases p with
          | nil => rfl
          | cons i pp => exact parentFully_eq s hs _ i pp t hv (hup i pp rfl)
        rw [hparent, Option.some_bind]
        apply childrenFully_noop
        intro j s' hj
        rw [checkStateAt_cascadeUp_child] at hj
        exact hch j s' hj
      have hself : checkStateAt (cascadeUp p s t) p = some s := by
        rw [checkStateAt_cascadeUp_self, hv]
      cases s with
      | PartiallyChecked => exact absurd rfl hs
      | Checked =>
        rw [hfully, Option.some_bind, whenFully_skip _ _ _ _ (by rw [hself]; simp),
          Option.some_bind, whenPartiallyChecked_skip _ _ _ (by rw [hself]; simp)]
      | Unchecked =>
        rw [whenFully_skip _ _ _ _ (by rw [hv]; simp), Option.some_bind, hfully,
          Option.some_bind, whenPartiallyChecked_skip _ _ _ (by rw [hself]; simp)]

theorem length_pushDownList (s : CheckState) (cs : List Item) :
    (pushDownList s cs).length = cs.length := by
  induction cs with
  | nil => simp [pushDownList]
  | cons c cs ih => simp [pushDownList, ih]

theorem pushDownList_append (s : CheckState) (as bs : List Item) :
    pushDownList s (as ++ bs) = pushDownList s as ++ pushDownList s bs := by
  induction as with
  | nil => simp [pushDownList]
  | cons c cs ih => simp [pushDownList, ih]

theorem pushDownList_of_all (s : CheckState) (cs : List Item)
    (h : ∀ c ∈ cs, c.checkState = s) : pushDownList s cs = cs := by
  induction cs with
  | nil => simp [pushDownList]
  | cons c cs ih =>
    simp only [pushDownList]
    rw [if_pos (h c (by simp)), ih (fun c' hc' => h c' (by simp [hc']))]

theorem pushChildren_withCheckState (s : CheckState) (hs : s ≠ CheckState.PartiallyChecked)
    (c : Item) : pushChildren s (c.withCheckState s) = pushDown s c := by
  cases c
  simp [pushChildren, hs, Item.withCheckState, pushDown]

@[simp] theorem checkState_pushChildren (s : CheckState) (x : Item) :
    (pushChildren s x).checkState = x.checkState := by
  unfold pushChildren
  split_ifs <;> simp

theorem Item.height_eq (x : Item) : x.height = Item.heightList x.children := by
  cases x; simp [Item.height]

@[simp] theorem Item.height_withCheckState (s : CheckState) (x : Item) :
    (x.withCheckState s).height = x.height := by
  cases x; simp [Item.height, Item.withCheckState]

theorem Item.height_lt_heightList {c : Item} {cs : List Item} (h : c ∈ cs) :
    c.height < Item.heightList cs := by
  induction cs with
  | nil => simp at h
  | cons d ds ih =>
    simp only [Item.heightList]
    rcases List.mem_cons.mp h with rfl | h'
    · omega
    · have := ih h'; omega

theorem modify_append_cons {α : Type} (f : α → α) (as : List α) (c : α) (bs : List α) :
    (as ++ c :: bs).modify f as.length = as ++ f c :: bs := by
  induction as with
  | nil => simp
  | cons a as ih => simp [ih]

theorem childLoop_push (s : CheckState) (hs : s ≠ CheckState.PartiallyChecked)
    (slot : Item → ItemRef → Option Item) (p : ItemRef) (t : Item) (y : Item)
    (hy : itemAt t p = some y) (hst : y.checkState = s) (bound : Nat)
    (hslot : DownSpec slot s bound) (todo done : List Item)
    (hb : ∀ c ∈ todo, c.height < bound) :
    childLoop
      (fun acc i =>
        if checkStateAt acc (i :: p) ≠ some s then setCheckState slot acc (i :: p) s
        else some acc)
      todo.length done.length (pushedUpTo s t p done todo) =
      some (pushedUpTo s t p (done ++ todo) []) := by
  induction todo generalizing done with
  | nil => simp [childLoop]
  | cons c todo ih =>
    simp only [List.length_cons, childLoop]
    have hitem : itemAt (pushedUpTo s t p done (c :: todo)) (done.length :: p) = some c := by
      have := itemAt_modifyAt_under t p [done.length]
        (fun z => Item.mk z.text z.data z.checkState (pushDownList s done ++ c :: todo))
      simp only [List.singleton_append] at this
      unfold pushedUpTo
      rw [this, hy, Option.some_bind, itemAt_cons, itemAt_nil, Option.some_bind,
        Item.children_mk, List.getElem?_append_right (by simp [length_pushDownList])]
      simp [length_pushDownList]
    have hparent : checkStateAt (pushedUpTo s t p done (c :: todo)) p = some s := by
      unfold pushedUpTo checkStateAt
      rw [itemAt_modifyAt_self, hy]
      simp [hst]
    have hstep :
        (if checkStateAt (pushedUpTo s t p done (c :: todo)) (done.length :: p) ≠ some s then
            setCheckState slot (pushedUpTo s t p done (c :: todo)) (done.length :: p) s
          else some (pushedUpTo s t p done (c :: todo))) =
          some (pushedUpTo s t p (done ++ [c]) todo) := by
      have hcs : checkStateAt (pushedUpTo s t p done (c :: todo)) (done.length :: p) =
          some c.checkState := by
        simp [checkStateAt, hitem]
      by_cases hc : c.checkState = s
      · rw [if_neg (by rw [hcs, hc]; simp)]
        congr 1
        unfold pushedUpTo
        congr 1
        funext z
        simp [pushDownList_append, pushDownList, hc]
      · rw [if_pos (by rw [hcs]; simpa using hc)]
        unfold setCheckState
        rw [if_neg (by rw [hcs]; simpa using hc)]
        rw [hslot _ done.length p (c.withCheckState s)
          (by rw [itemAt_storeCheckState, hitem]; rfl) (by simp)
          (by rw [checkStateAt_storeCheckState_ne _ _ _ _ (List.cons_ne_self _ _).symm, hparent])
          (by simpa using hb c (by simp))]
        congr 1
        unfold storeCheckState
        rw [modifyAt_modifyAt, modifyAt_cons]
        unfold pushedUpTo
        rw [modifyAt_modifyAt]
        congr 1
        funext z
        have hlen : done.length = (pushDownList s done).length := (length_pushDownList s done).symm
        simp only [Function.comp, Item.text_mk, Item.data_mk, Item.checkState_mk,
          Item.children_mk, pushDownList_append, pushDownList, if_neg hc]
        rw [hlen, modify_append_cons]
        simp [pushChildren_withCheckState s hs]
    rw [hstep, Option.some_bind]
    have := ih (done ++ [c]) (fun c' hc' => hb c' (by simp [hc']))
    simpa using this

theorem childrenAt_of_itemAt {t : Item} {p : ItemRef} {y : Item} (hy : itemAt t p = some y) :
    childrenAt t p = y.children := by
  simp [childrenAt, hy]

theorem childrenFully_eq (s : CheckState) (hs : s ≠ CheckState.PartiallyChecked)
    (slot : Item → ItemRef → Option Item) (p : ItemRef) (t : Item) (y : Item)
    (hy : itemAt t p = some y) (hst : y.checkState = s)
    (hslot : DownSpec slot s y.height) :
    childrenFully s (setCheckState slot) p t = some (modifyAt t p (pushChildren s)) := by
  have h := childLoop_push s hs slot p t y hy hst y.height hslot y.children []
    (fun c hc => by rw [Item.height_eq y]; exact Item.height_lt_heightList hc)
  have h0 : pushedUpTo s t p [] y.children = t := by
    unfold pushedUpTo
    apply modifyAt_id
    intro z hz
    rw [hy] at hz
    cases hz
    simp [pushDownList]
  have h1 : pushedUpTo s t p ([] ++ y.children) [] = modifyAt t p (pushChildren s) := by
    unfold pushedUpTo
    apply modifyAt_congr
    intro z hz
    rw [hy] at hz
    cases hz
    simp [pushChildren, hs]
  rw [h0, h1] at h
  unfold childrenFully
  rw [childCount, childrenAt_of_itemAt hy]
  exact h

/-- With enough fuel for the subtree, the slot run for an item that holds the
same fully set state as its parent performs exactly the downward cascade. -/
theorem slotItemChanged_down (fuel : Nat) (s : CheckState)
    (hs : s ≠ CheckState.PartiallyChecked) (t : Item) (p : ItemRef) (y : Item)
    (hy : itemAt t p = some y) (hst : y.checkState = s)
    (hparent : ∀ j pp, p = j :: pp → checkStateAt t pp = some s) (hfuel : y.height < fuel) :
    slotItemChanged fuel t p = some (modifyAt t p (pushChildren s)) := by
  induction fuel generalizing t p y with
  | zero => omega
  | succ fuel ih =>
    have hv : checkStateAt t p = some s := by simp [checkStateAt, hy, hst]
    have hslot : DownSpec (slotItemChanged fuel) s y.height := by
      intro t' j p' c hc hcs hp hlt
      exact ih t' (j :: p') c hc hcs
        (fun j' pp' e => by cases e; exact hp) (by omega)
    have hfully : whenFully s (setCheckState (slotItemChanged fuel)) p t =
        some (modifyAt t p (pushChildren s)) := by
      unfold whenFully
      rw [if_pos hv]
      have hpar : parentFully s (setCheckState (slotItemChanged fuel)) p t = some t := by
        cases p with
        | nil => rfl
        | cons j pp =>
          simp only [parentFully]
          rw [if_neg (by simp [hparent j pp rfl])]
      rw [hpar, Option.some_bind]
      exact childrenFully_eq s hs _ p t y hy hst hslot
    have hself : checkStateAt (modifyAt t p (pushChildren s)) p = some s := by
      unfold checkStateAt
      rw [itemAt_modifyAt_self, hy]
      simp [hst]
    rw [slotItemChanged_succ]
    cases s with
    | PartiallyChecked => exact absurd rfl hs
    | Checked =>
      rw [hfully, Option.some_bind, whenFully_skip _ _ _ _ (by rw [hself]; simp),
        Option.some_bind, whenPartiallyChecked_skip _ _ _ (by rw [hself]; simp)]
    | Unchecked =>
      rw [whenFully_skip _ _ _ _ (by rw [hv]; simp), Option.some_bind, hfully,
        Option.some_bind, whenPartiallyChecked_skip _ _ _ (by rw [hself]; simp)]

theorem itemAt_storeCheckState_under (t : Item) (p r : ItemRef) (s : CheckState)
    (hr : r ≠ []) : itemAt (storeCheckState t p s) (r ++ p) = itemAt t (r ++ p) := by
  unfold storeCheckState
  rw [itemAt_modifyAt_under, itemAt_append]
  cases itemAt t p with
  | none => simp
  | some y =>
    simp only [Option.some_bind]
    rw [itemAt_of_children_eq (y.withCheckState s) y (by simp) r hr]

/-- The upward cascade leaves the subtree of the item as it is. -/
theorem itemAt_cascadeUp_under (p : ItemRef) (s : CheckState) (t : Item) (r : ItemRef) :
    itemAt (cascadeUp p s t) (r ++ p) = itemAt t (r ++ p) := by
  induction p generalizing s t r with
  | nil => rfl
  | cons i pp ih =>
    have e : r ++ i :: pp = (r ++ [i]) ++ pp := by simp
    unfold cascadeUp
    split_ifs <;>
      first
        | rfl
        | (rw [e, ih, itemAt_storeCheckState_under _ _ _ _ (by simp)])

theorem itemAt_cascadeUp_self (p : ItemRef) (s : CheckState) (t : Item) :
    itemAt (cascadeUp p s t) p = itemAt t p :=
  itemAt_cascadeUp_under p s t []

/-- One run of the slot: with fuel above the depth of the item and above the
height of its subtree, the slot returns the tree described by `propagated`. -/
theorem slotItemChanged_eq (fuel : Nat) (t : Item) (p : ItemRef) (y : Item)
    (hy : itemAt t p = some y) (hdepth : p.length < fuel) (hheight : y.height < fuel) :
    slotItemChanged fuel t p = some (propagated t p y.checkState) := by
  cases fuel with
  | zero => omega
  | succ fuel =>
    have hv : checkStateAt t p = some y.checkState := by simp [checkStateAt, hy]
    have hup : ∀ i pp, p = i :: pp → UpSpec (slotItemChanged fuel) pp := by
      intro i pp e
      apply slotItemChanged_up
      subst e
      simp at hdepth
      omega
    rw [slotItemChanged_succ]
    by_cases hs : y.checkState = CheckState.PartiallyChecked
    · rw [hs] at hv ⊢
      rw [whenFully_skip _ _ _ _ (by rw [hv]; simp), Option.some_bind,
        whenFully_skip _ _ _ _ (by rw [hv]; simp), Option.some_bind,
        whenPartiallyChecked_eq _ p t hv hup]
      congr 1
      unfold propagated
      rw [modifyAt_id]
      intro z _
      simp [pushChildren]
    · have hy1 : itemAt (cascadeUp p y.checkState t) p = some y := by
        rw [itemAt_cascadeUp_self, hy]
      have hslot : DownSpec (slotItemChanged fuel) y.checkState y.height := by
        intro t' j p' c hc hcs hp hlt
        exact slotItemChanged_down fuel y.checkState hs t' (j :: p') c hc hcs
          (fun j' pp' e => by cases e; exact hp) (by omega)
      have hfully : whenFully y.checkState (setCheckState (slotItemChanged fuel)) p t =
          some (propagated t p y.checkState) := by
        unfold whenFully
        rw [if_pos hv]
        have hparent : parentFully y.checkState (setCheckState (slotItemChanged fuel)) p t =
            some (cascadeUp p y.checkState t) := by
          cases p with
          | nil => rfl
          | cons i pp => exact parentFully_eq _ hs _ i pp t hv (hup i pp rfl)
        rw [hparent, Option.some_bind]
        exact childrenFully_eq _ hs _ p _ y hy1 rfl hslot
      have hself : checkStateAt (propagated t p y.checkState) p = some y.checkState := by
        unfold propagated checkStateAt
        rw [itemAt_modifyAt_self, hy1]
        simp
      revert hfully hself hv hs
      generalize propagated t p y.checkState = t'
      generalize y.checkState = s
      intro hv hs hfully hself
      cases s with
      | PartiallyChecked => exact absurd rfl hs
      | Checked =>
        rw [hfully, Option.some_bind, whenFully_skip _ _ _ _ (by rw [hself]; simp),
          Option.some_bind, whenPartiallyChecked_skip _ _ _ (by rw [hself]; simp)]
      | Unchecked =>
        rw [whenFully_skip _ _ _ _ (by rw [hv]; simp), Option.some_bind, hfully,
          Option.some_bind, whenPartiallyChecked_skip _ _ _ (by rw [hself]; simp)]

mutual
theorem Item.height_lt_size : ∀ x : Item, x.height < x.size
  | Item.mk _ _ _ cs => by
    have := Item.heightList_le_sizeList cs
    simp only [Item.height, Item.size]
    omega
theorem Item.heightList_le_sizeList : ∀ cs : List Item, Item.heightList cs ≤ Item.sizeList cs
  | [] => by simp [Item.heightList, Item.sizeList]
  | c :: cs => by
    have h1 := Item.height_lt_size c
    have h2 := Item.heightList_le_sizeList cs
    simp only [Item.heightList, Item.sizeList]
    omega
end

theorem getDown_height (p : List Nat) (x y : Item) (h : getDown p x = some y) :
    p.length + y.height ≤ x.height := by
  induction p generalizing x with
  | nil =>
    simp only [getDown, Option.some.injEq] at h
    subst h; simp
  | cons i rest ih =>
    simp only [getDown] at h
    cases hc : x.children[i]? with
    | none => simp [hc] at h
    | some c =>
      simp only [hc] at h
      have h1 := ih c h
      have h2 := Item.height_lt_heightList (List.getElem?_mem hc)
      rw [Item.height_eq x]
      simp only [List.length_cons]
      omega

theorem itemAt_height (t : Item) (p : ItemRef) (y : Item) (h : itemAt t p = some y) :
    p.length + y.height ≤ t.height := by
  have := getDown_height p.reverse t y h
  simpa using this

/-- A user toggle of an existing item always returns, and the tree it returns is
the closed form `propagated` applied after the new state is stored. -/
theorem userToggle_eq (t : Item) (p : ItemRef) (s : CheckState) (y : Item)
    (hy : itemAt t p = some y) :
    userToggle t p s = some (propagated (storeCheckState t p s) p s) := by
  have h1 := itemAt_height t p y hy
  have h2 := Item.height_lt_size t
  have h3 : itemAt (storeCheckState t p s) p = some (y.withCheckState s) := by
    rw [itemAt_storeCheckState, hy]; rfl
  have := slotItemChanged_eq t.size (storeCheckState t p s) p (y.withCheckState s) h3
    (by omega) (by simp; omega)
  simpa [userToggle] using this

theorem Item.size_pos (t : Item) : 0 < t.size := by
  cases t; simp [Item.size]

/-- A toggle through a handle that designates no item changes nothing. -/
theorem userToggle_of_none (t : Item) (p : ItemRef) (s : CheckState)
    (hy : itemAt t p = none) : userToggle t p s = some t := by
  have hstore : storeCheckState t p s = t := by
    unfold storeCheckState
    apply modifyAt_id
    intro y h; rw [hy] at h; cases h
  have hv : checkStateAt t p = none := by simp [checkStateAt, hy]
  unfold userToggle
  rw [hstore]
  obtain ⟨n, hn⟩ : ∃ n, t.size = n + 1 := ⟨t.size - 1, by have := Item.size_pos t; omega⟩
  rw [hn, slotItemChanged_succ, whenFully_skip _ _ _ _ (by rw [hv]; simp), Option.some_bind,
    whenFully_skip _ _ _ _ (by rw [hv]; simp), Option.some_bind,
    whenPartiallyChecked_skip _ _ _ (by rw [hv]; simp)]

theorem createBlackListChildren_eq (oldBlackList : List QString) (cs : List Item) :
    createBlackListChildren oldBlackList cs = (cs.map (createBlackList oldBlackList)).flatten := by
  induction cs with
  | nil => simp [createBlackListChildren]
  | cons c cs ih => simp [createBlackListChildren, ih]

/-- C4: `createBlackList` returns the empty list for an item that is `Checked`
(Included) and exactly the one-element list of the item's stored path for an
item that is `Unchecked` (Excluded), whatever its text, children and their
states, and whatever the old black list. -/
theorem C4_createBlackList_checked_unchecked (oldBlackList : List QString) (text data : QString)
    (children : List Item) :
    createBlackList oldBlackList (Item.mk text data CheckState.Checked children) = [] ∧
    createBlackList oldBlackList (Item.mk text data CheckState.Unchecked children) = [data] := by
  constructor <;> simp [createBlackList]

/-- C5: for a `PartiallyChecked` item with at least one child, `createBlackList`
is the concatenation, in child order, of `createBlackList` of the children; the
item's own text and stored path play no part in the result. -/
theorem C5_createBlackList_partial_children (oldBlackList : List QString) (text data : QString)
    (text' data' : QString) (c : Item) (cs : List Item) :
    createBlackList oldBlackList (Item.mk text data CheckState.PartiallyChecked (c :: cs)) =
      ((c :: cs).map (createBlackList oldBlackList)).flatten ∧
    createBlackList oldBlackList (Item.mk text data CheckState.PartiallyChecked (c :: cs)) =
      createBlackList oldBlackList (Item.mk text' data' CheckState.PartiallyChecked (c :: cs)) := by
  constructor
  · rw [← createBlackListChildren_eq]
    simp [createBlackList]
  · simp [createBlackList]

/-- What the fallback of `createBlackList` computes for a `PartiallyChecked` item
without children: the entries of the old black list that start, as strings, with
the stored path. -/
theorem createBlackList_partial_leaf (oldBlackList : List QString) (text data : QString) :
    createBlackList oldBlackList (Item.mk text data CheckState.PartiallyChecked []) =
      oldBlackList.filter (fun it => startsWith it data) := by
  simp [createBlackList]

/-- C6 (failing input): the folder `f` has the subfolders `a` and `ab`, the old
black list is `a/x`, `ab`. After the listing of `f`, the item `a` is
`PartiallyChecked`, has no children and stores the path `a`; `createBlackList`
of it returns `a/x` and also `ab`, an entry that does not lie in the subtree of
`a`. The user then includes `ab` again (toggle to `Checked`): the black list of
the view still contains `ab`. -/
theorem C6_fallback_returns_sibling_entry :
    (itemAt (rootItem (slotUpdateDirectories siblingView siblingListing)) [0]).map
        (fun x => (x.text, x.data, x.checkState, x.children.length)) =
      some (['a'], ['a'], CheckState.PartiallyChecked, 0) ∧
    (itemAt (rootItem (slotUpdateDirectories siblingView siblingListing)) [0]).map
        (createBlackList siblingView.oldBlackList) = some [['a', '/', 'x'], ['a', 'b']] ∧
    inSubtreeOf ['a', 'b'] ['a'] = false ∧
    ((slotUpdateDirectories siblingView siblingListing).toggle [1] CheckState.Checked).map
        createBlackListTop = some [['a', '/', 'x'], ['a', 'b']] := by
  decide

open CheckState

theorem suffix_cons_same_length {i j : Nat} {p : ItemRef} (h : (i :: p) <:+ (j :: p)) : i = j := by
  have := List.IsSuffix.eq_of_length h (by simp)
  simpa using this

theorem not_suffix_cons_self (i : Nat) (p : ItemRef) : ¬ (i :: p) <:+ p := by
  intro h
  have := h.length_le
  simp at this

theorem checkStateAt_propagated_off (t : Item) (p : ItemRef) (s : CheckState) (q : ItemRef)
    (h : ¬ p <:+ q) :
    checkStateAt (propagated t p s) q = checkStateAt (cascadeUp p s t) q :=
  checkStateAt_modifyAt_off _ p q _ h

/-- The state of the item itself is not changed by the propagation. -/
theorem checkStateAt_propagated_self (t : Item) (p : ItemRef) (s : CheckState) :
    checkStateAt (propagated t p s) p = checkStateAt t p := by
  unfold propagated checkStateAt
  rw [itemAt_modifyAt_self, itemAt_cascadeUp_self]
  cases itemAt t p <;> simp

theorem itemAt_nil_checkState (t : Item) : checkStateAt t [] = some t.checkState := rfl

theorem childrenAt_nil (t : Item) : childrenAt t [] = t.children := rfl

theorem modifyDown_data (f : Item → Item) (hf : ∀ x, (f x).data = x.data) (p : List Nat)
    (x : Item) : (modifyDown f p x).data = x.data := by
  cases p with
  | nil => exact hf x
  | cons i rest => simp [modifyDown]

theorem storeCheckState_data (t : Item) (p : ItemRef) (s : CheckState) :
    (storeCheckState t p s).data = t.data :=
  modifyDown_data _ (by simp) _ t

theorem cascadeUp_data (p : ItemRef) (s : CheckState) (t : Item) :
    (cascadeUp p s t).data = t.data := by
  induction p generalizing s t with
  | nil => rfl
  | cons i pp ih =>
    unfold cascadeUp
    split_ifs <;> first | rfl | (rw [ih, storeCheckState_data])

theorem pushChildren_data (s : CheckState) (x : Item) : (pushChildren s x).data = x.data := by
  unfold pushChildren
  split_ifs <;> simp

theorem propagated_data (t : Item) (p : ItemRef) (s : CheckState) :
    (propagated t p s).data = t.data := by
  unfold propagated modifyAt
  rw [modifyDown_data _ (pushChildren_data s), cascadeUp_data]

theorem createBlackList_of_unchecked (oldBlackList : List QString) (x : Item)
    (h : x.checkState = Unchecked) : createBlackList oldBlackList x = [x.data] := by
  cases x
  simp only [Item.checkState_mk] at h
  subst h
  simp [createBlackList]

/-- The states of the children of the top-level item after a toggle of child `i`. -/
theorem checkStateAt_child_propagated (t : Item) (i j : Nat) (s : CheckState) :
    checkStateAt (propagated t [i] s) [j] = checkStateAt t [j] := by
  by_cases hij : j = i
  · subst hij
    exact checkStateAt_propagated_self t [j] s
  · rw [checkStateAt_propagated_off _ _ _ _ (fun h => hij (suffix_cons_same_length h).symm),
      checkStateAt_cascadeUp]
    rintro ⟨r, hr, e⟩
    have := congrArg List.length e
    cases r with
    | nil => exact hr rfl
    | cons a r => simp at this

/-- C9: an item is `Unchecked` (Excluded), one of its siblings is `Unchecked`
too, and the parent is `Unchecked` or `PartiallyChecked`. After the user toggles
the item to `Checked` (Included) the parent is `PartiallyChecked`, not
`Checked`, and the sibling is still `Unchecked`. -/
theorem C9_include_under_excluded_sibling (t : Item) (i j : Nat) (parent : ItemRef)
    (hij : j ≠ i)
    (hitem : checkStateAt t (i :: parent) = some Unchecked)
    (hsibling : checkStateAt t (j :: parent) = some Unchecked)
    (hparent : checkStateAt t parent = some Unchecked ∨
      checkStateAt t parent = some PartiallyChecked) :
    ∃ t', userToggle t (i :: parent) Checked = some t' ∧
      checkStateAt t' parent = some PartiallyChecked ∧
      checkStateAt t' (j :: parent) = some Unchecked := by
  obtain ⟨y, hy⟩ : ∃ y, itemAt t (i :: parent) = some y := by
    have : (checkStateAt t (i :: parent)).isSome := by rw [hitem]; rfl
    rw [checkStateAt_isSome] at this
    exact Option.isSome_iff_exists.mp this
  refine ⟨_, userToggle_eq t (i :: parent) Checked y hy, ?_, ?_⟩
  · rw [checkStateAt_propagated_off _ _ _ _ (not_suffix_cons_self i parent)]
    have hp0 : checkStateAt (storeCheckState t (i :: parent) Checked) parent =
        checkStateAt t parent :=
      checkStateAt_storeCheckState_ne _ _ _ _ (List.cons_ne_self _ _).symm
    have hany : (childrenAt (storeCheckState t (i :: parent) Checked) parent).any
        (fun c => c.checkState != Checked) = true := by
      rw [any_childrenAt_iff]
      refine ⟨j, Unchecked, ?_, by simp⟩
      rw [checkStateAt_storeCheckState_ne _ _ _ _ (by simpa using hij), hsibling]
    unfold cascadeUp
    rcases hparent with h | h
    · simp only [hp0, h, hany, CheckState.opposite]
      simp only [reduceCtorEq, if_false, ne_eq, Option.some.injEq, not_false_eq_true, if_true]
      rw [checkStateAt_cascadeUp_self, checkStateAt_storeCheckState_self, hp0, h]
      rfl
    · simp only [hp0, h, hany, CheckState.opposite]
      simp only [reduceCtorEq, if_false, ne_eq, Option.some.injEq, not_false_eq_true, if_true]
      rw [hp0, h]
  · rw [checkStateAt_propagated_off _ _ _ _
      (fun h => hij (suffix_cons_same_length h).symm)]
    rw [checkStateAt_cascadeUp, checkStateAt_storeCheckState_ne _ _ _ _ (by simpa using hij),
      hsibling]
    rintro ⟨r, hr, e⟩
    have := congrArg List.length e
    cases r with
    | nil => exact hr rfl
    | cons a r => simp at this; omega

/-- C9 witness: in `treeABC` the child `a` is toggled to `Checked` while its
sibling `b` stays `Unchecked`. -/
theorem C9_include_under_excluded_sibling_witness :
    (1 : Nat) ≠ 0 ∧ checkStateAt treeABC [0] = some Unchecked ∧
    checkStateAt treeABC [1] = some Unchecked ∧
    (checkStateAt treeABC [] = some Unchecked ∨
      checkStateAt treeABC [] = some PartiallyChecked) ∧
    ∃ t', userToggle treeABC [0] Checked = some t' ∧
      checkStateAt t' [] = some PartiallyChecked ∧ checkStateAt t' [1] = some Unchecked :=
  ⟨by decide, by decide, by decide, by decide,
    C9_include_under_excluded_sibling treeABC 0 1 [] (by decide) (by decide) (by decide)
      (by decide)⟩

theorem childStates_getElem? (t : Item) (q : ItemRef) (i : Nat) :
    (childStates t q)[i]? = checkStateAt t (i :: q) := by
  simp [childStates, checkStateAt_cons]

theorem childStates_congr (t t' : Item) (q : ItemRef)
    (h : ∀ i, checkStateAt t' (i :: q) = checkStateAt t (i :: q)) :
    childStates t' q = childStates t q := by
  apply List.ext_getElem?
  intro i
  rw [childStates_getElem?, childStates_getElem?, h]

theorem childStates_storeCheckState_child (t : Item) (i : Nat) (q : ItemRef) (s : CheckState) :
    childStates (storeCheckState t (i :: q) s) q = (childStates t q).set i s := by
  apply List.ext_getElem?
  intro j
  rw [childStates_getElem?, checkStateAt_storeCheckState, List.getElem?_set]
  by_cases hij : i = j
  · subst hij
    simp only [if_true, childStates_getElem?]
    cases h : checkStateAt t (i :: q) with
    | none =>
      have : ¬ i < (childStates t q).length := by
        intro hlt
        have := List.getElem?_eq_getElem hlt
        rw [childStates_getElem?, h] at this
        cases this
      simp [this]
    | some s' =>
      have : i < (childStates t q).length := by
        by_contra hlt
        have := List.getElem?_eq_none (Nat.le_of_not_lt hlt)
        rw [childStates_getElem?, h] at this
        cases this
      simp [this]
  · have : ¬ (j :: q = i :: q) := by simpa using fun h => hij h.symm
    simp [hij, this, childStates_getElem?]

theorem childStates_storeCheckState_off (t : Item) (p q : ItemRef) (s : CheckState)
    (h : ∀ i, p ≠ i :: q) : childStates (storeCheckState t p s) q = childStates t q :=
  childStates_congr _ _ _ (fun i => checkStateAt_storeCheckState_ne _ _ _ _ (h i).symm)

theorem any_childrenAt_eq (t : Item) (q : ItemRef) (s : CheckState) :
    (childrenAt t q).any (fun c => c.checkState != s) = (childStates t q).any (fun c => c != s) := by
  unfold childStates
  induction childrenAt t q with
  | nil => rfl
  | cons c cs ih => simp [ih]

/-- One step of the upward cascade, in terms of `stepState`. -/
theorem cascadeUp_cons (i : Nat) (pp : ItemRef) (s sp : CheckState) (t : Item)
    (hsp : checkStateAt t pp = some sp) :
    cascadeUp (i :: pp) s t =
      if stepState s sp (childStates t pp) = sp then t
      else cascadeUp pp (stepState s sp (childStates t pp))
        (storeCheckState t pp (stepState s sp (childStates t pp))) := by
  conv_lhs => unfold cascadeUp
  unfold stepState
  rw [any_childrenAt_eq, hsp]
  by_cases h1 : s = PartiallyChecked
  · subst h1
    by_cases h2 : sp = PartiallyChecked
    · simp [h2]
    · have h2' : ¬ PartiallyChecked = sp := fun h => h2 h.symm
      simp [h2, h2']
  · simp only [h1, if_false, ne_eq, Option.some.injEq]
    by_cases h2 : sp = s
    · simp [h2]
    · simp only [h2, not_false_eq_true, if_true]
      have h2' : ¬ s = sp := fun h => h2 h.symm
      by_cases h3 : (childStates t pp).any (fun c => c != s) = true
      · simp only [h3, if_true]
        by_cases h4 : sp = s.opposite
        · have h5 : ¬ PartiallyChecked = s.opposite :=
            fun h => CheckState.opposite_ne_partially h1 h.symm
          simp [h4, h5]
        · simp [h4]
      · simp [h3, h2']

theorem checkStateAt_cascadeUp_parent (i : Nat) (pp : ItemRef) (s sp : CheckState) (t : Item)
    (hsp : checkStateAt t pp = some sp) :
    checkStateAt (cascadeUp (i :: pp) s t) pp = some (stepState s sp (childStates t pp)) := by
  rw [cascadeUp_cons i pp s sp t hsp]
  split_ifs with h
  · rw [hsp, h]
  · rw [checkStateAt_cascadeUp_self, checkStateAt_storeCheckState_self, hsp]; rfl

theorem not_proper_ancestor_of_length {p q : ItemRef} (h : p.length ≤ q.length) :
    ¬ ∃ r, r ≠ [] ∧ p = r ++ q := by
  rintro ⟨r, hr, e⟩
  have := congrArg List.length e
  cases r with
  | nil => exact hr rfl
  | cons a r => simp at this; omega

theorem childStates_cascadeUp (p : ItemRef) (s : CheckState) (t : Item) (q : ItemRef)
    (h : p.length ≤ q.length + 1) : childStates (cascadeUp p s t) q = childStates t q :=
  childStates_congr _ _ _ (fun i =>
    checkStateAt_cascadeUp p s t (i :: q) (not_proper_ancestor_of_length (by simpa using h)))

theorem HoldsAt_congr (L : CheckState → List CheckState → Prop) (t t' : Item) (q : ItemRef)
    (h1 : checkStateAt t' q = checkStateAt t q) (h2 : childStates t' q = childStates t q)
    (h : HoldsAt L t q) : HoldsAt L t' q := by
  intro s hs
  rw [h2]
  exact h s (by rw [← h1, hs])

/-- The skeleton shared by the invariants: a step-closed condition that holds
outside the subtree of the item, and held at its parent before the item changed,
holds outside the subtree after the upward cascade. -/
theorem cascadeUp_holds (L : CheckState → List CheckState → Prop) (hL : StepClosed L)
    (p : ItemRef) (s : CheckState) (t : Item) (hv : checkStateAt t p = some s)
    (hout : ∀ q, ¬ p <:+ q → (∀ i, p ≠ i :: q) → HoldsAt L t q)
    (hpar : ∀ i pp, p = i :: pp → ∀ sp, checkStateAt t pp = some sp →
      ∃ sOld, L sp ((childStates t pp).set i sOld)) :
    ∀ q, ¬ p <:+ q → HoldsAt L (cascadeUp p s t) q := by
  induction p generalizing s t with
  | nil => intro q hq; exact absurd List.nil_suffix hq
  | cons i pp ih =>
    intro q hq
    obtain ⟨sp, hsp⟩ := checkStateAt_parent_isSome hv
    obtain ⟨sOld, hOld⟩ := hpar i pp rfl sp hsp
    have hcsi : (childStates t pp)[i]? = some s := by rw [childStates_getElem?, hv]
    have hstep := hL s sp (childStates t pp) i sOld hcsi hOld
    by_cases hqpp : q = pp
    · subst hqpp
      intro s' hs'
      rw [checkStateAt_cascadeUp_parent i q s sp t hsp] at hs'
      cases hs'
      rw [childStates_cascadeUp _ _ _ _ (by simp)]
      exact hstep
    · by_cases hsuf : pp <:+ q
      · -- strictly inside the subtree of the parent, outside the subtree of the item
        obtain ⟨r, rfl⟩ := hsuf
        have hr : r ≠ [] := by intro h0; apply hqpp; simp [h0]
        have hlen : (i :: pp).length ≤ (r ++ pp).length := by
          cases r with
          | nil => exact absurd rfl hr
          | cons a r => simp
        apply HoldsAt_congr L t
        · exact checkStateAt_cascadeUp _ _ _ _ (not_proper_ancestor_of_length hlen)
        · exact childStates_cascadeUp _ _ _ _ (by omega)
        · exact hout _ hq (fun j e => by
            have := congrArg List.length e
            simp at this
            cases r with
            | nil => exact absurd rfl hr
            | cons a r => simp at this)
      · rw [cascadeUp_cons i pp s sp t hsp]
        have houtq : HoldsAt L t q :=
          hout q hq (fun j e => by
            apply hsuf
            have : pp = q := by simpa using (List.cons.inj e).2
            rw [this])
        split_ifs with hX
        · exact houtq
        · apply ih
          · rw [checkStateAt_storeCheckState_self, hsp]; rfl
          · intro q' hq' hne'
            have hq'pp : q' ≠ pp := by
              intro e; apply hq'; rw [e]
            apply HoldsAt_congr L t
            · exact checkStateAt_storeCheckState_ne _ _ _ _ hq'pp
            · exact childStates_storeCheckState_off _ _ _ _ hne'
            · apply hout q'
              · intro hs
                apply hq'
                exact (List.suffix_cons i pp).trans hs
              · intro j e
                apply hq'
                have : pp = q' := by simpa using (List.cons.inj e).2
                rw [this]
          · intro i1 ppp e spp hspp
            subst e
            refine ⟨sp, ?_⟩
            rw [childStates_storeCheckState_child, List.set_set]
            have hppp : checkStateAt t ppp = some spp := by
              rw [← hspp, checkStateAt_storeCheckState_ne _ _ _ _ (List.cons_ne_self _ _).symm]
            have hself : (childStates t ppp).set i1 sp = childStates t ppp := by
              apply List.ext_getElem?
              intro j
              rw [List.getElem?_set]
              by_cases hj : i1 = j
              · subst hj
                rw [childStates_getElem?, hsp]
                have : i1 < (childStates t ppp).length := by
                  by_contra hlt
                  have := List.getElem?_eq_none (Nat.le_of_not_lt hlt)
                  rw [childStates_getElem?, hsp] at this
                  cases this
                simp [this]
              · simp [hj]
            rw [hself]
            apply hout ppp _ _ spp hppp
            · intro hs
              have := hs.length_le
              simp at this
              omega
            · intro j e
              have := congrArg List.length e
              simp at this
          · exact hsuf

theorem mem_of_mem_set_ne {α : Type} {cs : List α} {i : Nat} {a c : α}
    (hc : c ∈ cs) (hi : cs[i]? ≠ some c) : c ∈ cs.set i a := by
  obtain ⟨j, hj, rfl⟩ := List.getElem_of_mem hc
  have hij : i ≠ j := by
    intro e; subst e
    exact hi (List.getElem?_eq_getElem hj)
  have : (cs.set i a)[j]? = some cs[j] := by
    rw [List.getElem?_set_ne hij, List.getElem?_eq_getElem hj]
  exact List.getElem?_mem this

/-- If all states are `x` once entry `i` is overwritten, and entry `i` is `x`, all are `x`. -/
theorem all_eq_of_set {cs : List CheckState} {i : Nat} {sOld x : CheckState}
    (hi : cs[i]? = some x) (h : ∀ c ∈ cs.set i sOld, c = x) : ∀ c ∈ cs, c = x := by
  intro c hc
  by_cases hci : cs[i]? = some c
  · rw [hi] at hci; exact (Option.some.inj hci).symm
  · exact h c (mem_of_mem_set_ne hc hci)

theorem any_ne_false_iff (cs : List CheckState) (s : CheckState) :
    cs.any (fun c => c != s) = false ↔ ∀ c ∈ cs, c = s := by
  simp [List.any_eq_false]

theorem stepClosed_uniformL : StepClosed UniformL := by
  intro s sp cs i sOld hi hold
  unfold stepState
  by_cases h1 : s = PartiallyChecked
  · simp only [h1, if_true]; left; rfl
  · simp only [h1, if_false]
    by_cases h2 : sp = s
    · subst h2
      simp only [ne_eq, not_true_eq_false, if_false]
      rcases hold with h | h
      · exact absurd h h1
      · right; exact all_eq_of_set hi h
    · simp only [ne_eq, h2, not_false_eq_true, if_true]
      cases hany : cs.any (fun c => c != s) with
      | false =>
        simp only [Bool.false_eq_true, if_false]
        right; exact (any_ne_false_iff cs s).mp hany
      | true =>
        simp only [if_true]
        by_cases h4 : sp = s.opposite
        · simp only [h4, if_true]; left; rfl
        · simp only [h4, if_false]
          left
          cases s <;> cases sp <;> simp_all [CheckState.opposite]

theorem set_ne_nil_of_getElem? {cs : List CheckState} {i : Nat} {s : CheckState}
    (sOld : CheckState) (hi : cs[i]? = some s) : cs.set i sOld ≠ [] ∧ cs ≠ [] ∧ (cs.set i sOld)[i]? = some sOld := by
  have hlt : i < cs.length := by
    by_contra h
    rw [List.getElem?_eq_none (Nat.le_of_not_lt h)] at hi
    cases hi
  refine ⟨?_, ?_, ?_⟩
  · intro h
    have hl : (cs.set i sOld).length = 0 := by rw [h]; rfl
    rw [List.length_set] at hl
    omega
  · intro h; subst h; simp at hlt
  · simp [List.getElem?_set, hlt]

theorem consistentL_of_all {s : CheckState} (hs : s ≠ PartiallyChecked) {cs : List CheckState}
    (hne : cs ≠ []) (hall : ∀ c ∈ cs, c = s) : ConsistentL s cs := by
  right
  obtain ⟨c, hc⟩ := List.exists_mem_of_ne_nil cs hne
  have hcs := hall c hc
  cases s with
  | PartiallyChecked => exact absurd rfl hs
  | Checked =>
    refine ⟨⟨fun _ => hall, fun _ => rfl⟩, ⟨(fun h => by cases h), fun h => ?_⟩,
      ⟨(fun h => by cases h), fun h => absurd hall h.1⟩⟩
    have := h c hc; rw [hcs] at this; cases this
  | Unchecked =>
    refine ⟨⟨(fun h => by cases h), fun h => ?_⟩, ⟨fun _ => hall, fun _ => rfl⟩,
      ⟨(fun h => by cases h), fun h => absurd hall h.2⟩⟩
    have := h c hc; rw [hcs] at this; cases this

theorem consistentL_partially {cs : List CheckState} (hC : ¬ ∀ c ∈ cs, c = Checked)
    (hU : ¬ ∀ c ∈ cs, c = Unchecked) : ConsistentL PartiallyChecked cs := by
  right
  exact ⟨⟨(fun h => by cases h), fun h => absurd h hC⟩, ⟨(fun h => by cases h), fun h => absurd h hU⟩,
    ⟨fun _ => ⟨hC, hU⟩, fun _ => rfl⟩⟩

theorem stepClosed_consistentL : StepClosed ConsistentL := by
  intro s sp cs i sOld hi hold
  obtain ⟨hne1, hne2, _⟩ := set_ne_nil_of_getElem? sOld hi
  have hmem : s ∈ cs := List.getElem?_mem hi
  rcases hold with h | ⟨hC, hU, hP⟩
  · exact absurd h hne1
  unfold stepState
  by_cases h1 : s = PartiallyChecked
  · subst h1
    simp only [if_true]
    exact consistentL_partially (fun h => by have := h _ hmem; cases this)
      (fun h => by have := h _ hmem; cases this)
  · simp only [h1, if_false]
    have hother : ¬ ∀ c ∈ cs, c = s.opposite := fun h =>
      CheckState.opposite_ne_self h1 (h _ hmem).symm
    by_cases h2 : sp = s
    · subst h2
      simp only [ne_eq, not_true_eq_false, if_false]
      apply consistentL_of_all h1 hne2
      cases sp with
      | PartiallyChecked => exact absurd rfl h1
      | Checked => exact all_eq_of_set hi (hC.mp rfl)
      | Unchecked => exact all_eq_of_set hi (hU.mp rfl)
    · simp only [ne_eq, h2, not_false_eq_true, if_true]
      cases hany : cs.any (fun c => c != s) with
      | false =>
        simp only [Bool.false_eq_true, if_false]
        exact consistentL_of_all h1 hne2 ((any_ne_false_iff cs s).mp hany)
      | true =>
        simp only [if_true]
        have hnall : ¬ ∀ c ∈ cs, c = s := by
          intro h
          rw [← any_ne_false_iff] at h
          rw [h] at hany; cases hany
        have hgoal : ConsistentL PartiallyChecked cs := by
          cases s with
          | PartiallyChecked => exact absurd rfl h1
          | Checked => exact consistentL_partially hnall hother
          | Unchecked => exact consistentL_partially hother hnall
        by_cases h4 : sp = s.opposite
        · simp only [h4, if_true]; exact hgoal
        · simp only [h4, if_false]
          have : sp = PartiallyChecked := by
            cases s <;> cases sp <;> simp_all [CheckState.opposite]
          rw [this]; exact hgoal

theorem Item.allList_iff (ok : Item → Bool) (cs : List Item) :
    Item.allList ok cs = true ↔ ∀ c ∈ cs, Item.all ok c = true := by
  induction cs with
  | nil => simp [Item.allList]
  | cons c cs ih => simp [Item.allList, ih]

theorem Item.all_iff_here (ok : Item → Bool) (x : Item) :
    Item.all ok x = true ↔ ok x = true ∧ ∀ c ∈ x.children, Item.all ok c = true := by
  cases x
  simp [Item.all, Item.allList_iff]

mutual
theorem Item.all_getDown (ok : Item → Bool) :
    ∀ (x : Item), Item.all ok x = true → ∀ (q : List Nat) (y : Item), getDown q x = some y →
      Item.all ok y = true
  | Item.mk text data state children, h, q, y, hq => by
    cases q with
    | nil =>
      simp only [getDown, Option.some.injEq] at hq
      subst hq; exact h
    | cons i rest =>
      simp only [getDown, Item.children_mk] at hq
      cases hc : children[i]? with
      | none => simp [hc] at hq
      | some c =>
        simp only [hc] at hq
        have hcs : Item.allList ok children = true := by
          simp only [Item.all, Bool.and_eq_true] at h
          exact h.2
        exact Item.allList_getDown ok children hcs i c hc rest y hq
theorem Item.allList_getDown (ok : Item → Bool) :
    ∀ (cs : List Item), Item.allList ok cs = true → ∀ (i : Nat) (c : Item), cs[i]? = some c →
      ∀ (q : List Nat) (y : Item), getDown q c = some y → Item.all ok y = true
  | [], _, i, c, hc, _, _, _ => by simp at hc
  | d :: ds, h, i, c, hc, q, y, hq => by
    simp only [Item.allList, Bool.and_eq_true] at h
    cases i with
    | zero =>
      simp only [List.getElem?_cons_zero, Option.some.injEq] at hc
      subst hc
      exact Item.all_getDown ok d h.1 q y hq
    | succ i =>
      simp only [List.getElem?_cons_succ] at hc
      exact Item.allList_getDown ok ds h.2 i c hc q y hq
end

mutual
theorem Item.all_of_getDown (ok : Item → Bool) :
    ∀ (x : Item), (∀ (q : List Nat) (y : Item), getDown q x = some y → ok y = true) →
      Item.all ok x = true
  | Item.mk text data state children, h => by
    simp only [Item.all, Bool.and_eq_true]
    refine ⟨h [] _ rfl, ?_⟩
    apply Item.allList_of_getDown ok children
    intro i c hc q y hq
    apply h (i :: q) y
    simp [getDown, hc, hq]
theorem Item.allList_of_getDown (ok : Item → Bool) :
    ∀ (cs : List Item),
      (∀ (i : Nat) (c : Item), cs[i]? = some c → ∀ (q : List Nat) (y : Item),
        getDown q c = some y → ok y = true) →
      Item.allList ok cs = true
  | [], _ => rfl
  | d :: ds, h => by
    simp only [Item.allList, Bool.and_eq_true]
    refine ⟨?_, ?_⟩
    · exact Item.all_of_getDown ok d (fun q y hq => h 0 d (by simp) q y hq)
    · exact Item.allList_of_getDown ok ds (fun i c hc q y hq => h (i + 1) c (by simpa using hc) q y hq)
end

/-- A local test holds everywhere in the tree exactly when it holds for every
item a handle designates. -/
theorem Item.all_iff_itemAt (ok : Item → Bool) (t : Item) :
    Item.all ok t = true ↔ ∀ (q : ItemRef) (y : Item), itemAt t q = some y → ok y = true := by
  constructor
  · intro h q y hq
    exact ((Item.all_iff_here ok y).mp (Item.all_getDown ok t h q.reverse y hq)).1
  · intro h
    apply Item.all_of_getDown
    intro q y hq
    apply h q.reverse y
    simpa [itemAt] using hq

theorem Item.all_itemAt (ok : Item → Bool) (t : Item) (h : Item.all ok t = true) (q : ItemRef)
    (y : Item) (hq : itemAt t q = some y) : Item.all ok y = true :=
  Item.all_getDown ok t h q.reverse y hq

theorem uniformHere_iff (x : Item) :
    uniformHere x = true ↔ UniformL x.checkState (x.children.map Item.checkState) := by
  simp [uniformHere, UniformL]

theorem consistentHere_iff (x : Item) :
    consistentHere x = true ↔ ConsistentL x.checkState (x.children.map Item.checkState) := by
  unfold consistentHere ConsistentL
  simp only [Bool.or_eq_true, Bool.and_eq_true, decide_eq_true_eq, List.isEmpty_iff,
    List.map_eq_nil_iff, List.forall_mem_map, and_assoc]

theorem holdsAt_iff (L : CheckState → List CheckState → Prop) (t : Item) (q : ItemRef) :
    HoldsAt L t q ↔
      ∀ y, itemAt t q = some y → L y.checkState (y.children.map Item.checkState) := by
  unfold HoldsAt checkStateAt childStates childrenAt
  cases itemAt t q with
  | none => simp
  | some y => simp

theorem uniform_iff_holdsAt (t : Item) : t.uniform = true ↔ ∀ q, HoldsAt UniformL t q := by
  unfold Item.uniform
  rw [Item.all_iff_itemAt]
  simp only [holdsAt_iff, uniformHere_iff]

theorem consistent_iff_holdsAt (t : Item) :
    t.consistent = true ↔ ∀ q, HoldsAt ConsistentL t q := by
  unfold Item.consistent
  rw [Item.all_iff_itemAt]
  simp only [holdsAt_iff, consistentHere_iff]

theorem consistentL_imp_uniformL (s : CheckState) (cs : List CheckState)
    (h : ConsistentL s cs) : UniformL s cs := by
  rcases h with h | ⟨hC, hU, _⟩
  · right; subst h; simp
  · cases s with
    | PartiallyChecked => left; rfl
    | Checked => right; exact hC.mp rfl
    | Unchecked => right; exact hU.mp rfl

/-- A consistent tree is uniform. -/
theorem uniform_of_consistent (t : Item) (h : t.consistent = true) : t.uniform = true := by
  rw [uniform_iff_holdsAt]
  rw [consistent_iff_holdsAt] at h
  intro q s hs
  exact consistentL_imp_uniformL _ _ (h q s hs)

theorem childStates_set_self (t : Item) (i : Nat) (q : ItemRef) (s0 : CheckState)
    (h : checkStateAt t (i :: q) = some s0) : (childStates t q).set i s0 = childStates t q := by
  apply List.ext_getElem?
  intro j
  rw [List.getElem?_set]
  by_cases hj : i = j
  · subst hj
    rw [childStates_getElem?, h]
    have : i < (childStates t q).length := by
      by_contra hlt
      have := List.getElem?_eq_none (Nat.le_of_not_lt hlt)
      rw [childStates_getElem?, h] at this
      cases this
    simp [this]
  · simp [hj]

/-- In a uniform tree whose top-level item is fully set, every item has that state. -/
theorem uniform_state_under (x : Item) (hu : ∀ q, HoldsAt UniformL x q) (s : CheckState)
    (hs : s ≠ PartiallyChecked) (hx : x.checkState = s) :
    ∀ (q : ItemRef) (s' : CheckState), checkStateAt x q = some s' → s' = s := by
  intro q
  induction q with
  | nil =>
    intro s' h
    simp only [checkStateAt, itemAt_nil, Option.map_some', Option.some.injEq] at h
    rw [← h, hx]
  | cons i q ih =>
    intro s' h
    obtain ⟨sq, hsq⟩ := checkStateAt_parent_isSome h
    have hsq' := ih sq hsq
    subst hsq'
    rcases hu q sq hsq with hp | hall
    · exact absurd hp hs
    · apply hall
      have : (childStates x q)[i]? = some s' := by rw [childStates_getElem?, h]
      exact List.getElem?_mem this

theorem getDown_checkState_of_uniform (x : Item) (hu : x.uniform = true) (s : CheckState)
    (hs : s ≠ PartiallyChecked) (hx : x.checkState = s) (q : List Nat) (z : Item)
    (hz : getDown q x = some z) : z.checkState = s := by
  have := uniform_state_under x ((uniform_iff_holdsAt x).mp hu) s hs hx q.reverse z.checkState
    (by simp [checkStateAt, itemAt, hz])
  exact this

mutual
theorem pushDown_states (s : CheckState) (hs : s ≠ PartiallyChecked) :
    ∀ (y : Item), y.uniform = true → ∀ (q : List Nat) (z : Item),
      getDown q (pushDown s y) = some z → z.checkState = s
  | Item.mk text data state children, hu, q, z, hz => by
    cases q with
    | nil =>
      simp only [getDown, pushDown, Option.some.injEq] at hz
      subst hz; rfl
    | cons i rest =>
      simp only [getDown, pushDown, Item.children_mk] at hz
      cases hc : (pushDownList s children)[i]? with
      | none => simp [hc] at hz
      | some c =>
        simp only [hc] at hz
        have hcs : Item.allList uniformHere children = true := by
          simp only [Item.uniform, Item.all, Bool.and_eq_true] at hu
          exact hu.2
        exact pushDownList_states s hs children hcs i c hc rest z hz
theorem pushDownList_states (s : CheckState) (hs : s ≠ PartiallyChecked) :
    ∀ (cs : List Item), Item.allList uniformHere cs = true → ∀ (i : Nat) (c : Item),
      (pushDownList s cs)[i]? = some c → ∀ (q : List Nat) (z : Item),
      getDown q c = some z → z.checkState = s
  | [], _, i, c, hc, _, _, _ => by simp [pushDownList] at hc
  | d :: ds, h, i, c, hc, q, z, hz => by
    simp only [Item.allList, Bool.and_eq_true] at h
    cases i with
    | zero =>
      simp only [pushDownList, List.getElem?_cons_zero, Option.some.injEq] at hc
      by_cases hd : d.checkState = s
      · rw [if_pos hd] at hc
        subst hc
        exact getDown_checkState_of_uniform d h.1 s hs hd q z hz
      · rw [if_neg hd] at hc
        subst hc
        exact pushDown_states s hs d h.1 q z hz
    | succ i =>
      simp only [pushDownList, List.getElem?_cons_succ] at hc
      exact pushDownList_states s hs ds h.2 i c hc q z hz
end

/-- After a fully set state is pushed into a uniform subtree, every item of the
subtree holds it. -/
theorem itemAt_pushDown_checkState (s : CheckState) (hs : s ≠ PartiallyChecked) (y : Item)
    (hu : y.uniform = true) (r : ItemRef) (z : Item) (hz : itemAt (pushDown s y) r = some z) :
    z.checkState = s :=
  pushDown_states s hs y hu r.reverse z hz

/-- The item found below the toggled item after the propagation. -/
theorem itemAt_propagated_under (t : Item) (p r : ItemRef) (s : CheckState)
    (hs : s ≠ PartiallyChecked) (y : Item) (hy : itemAt t p = some y) :
    itemAt (propagated (storeCheckState t p s) p s) (r ++ p) = itemAt (pushDown s y) r := by
  unfold propagated
  rw [itemAt_modifyAt_under, itemAt_cascadeUp_self, itemAt_storeCheckState, hy]
  simp only [Option.map_some', Option.some_bind, pushChildren_withCheckState s hs]

theorem childStates_propagated_off (t : Item) (p : ItemRef) (s : CheckState) (q : ItemRef)
    (hq : ¬ p <:+ q) :
    childStates (propagated t p s) q = childStates (cascadeUp p s t) q := by
  apply childStates_congr
  intro i
  by_cases h : p <:+ i :: q
  · rcases List.suffix_cons_iff.mp h with e | h'
    · rw [← e, checkStateAt_propagated_self, checkStateAt_cascadeUp_self]
    · exact absurd h' hq
  · exact checkStateAt_propagated_off t p s _ h

/-- A step-closed condition that holds for every item, and that holds for an item
all of whose children share its fully set state, still holds for every item after
a user toggle. -/
theorem propagated_holds (L : CheckState → List CheckState → Prop) (hL : StepClosed L)
    (hfull : ∀ (s : CheckState) (cs : List CheckState), s ≠ PartiallyChecked →
      (∀ c ∈ cs, c = s) → L s cs)
    (t : Item) (p : ItemRef) (s : CheckState) (y : Item) (hy : itemAt t p = some y)
    (hs : s ≠ PartiallyChecked) (hall : ∀ q, HoldsAt L t q) (hu : y.uniform = true) :
    ∀ q, HoldsAt L (propagated (storeCheckState t p s) p s) q := by
  intro q
  have hv0 : checkStateAt t p = some y.checkState := by simp [checkStateAt, hy]
  by_cases hq : p <:+ q
  · obtain ⟨r, rfl⟩ := hq
    rw [holdsAt_iff]
    intro z hz
    rw [itemAt_propagated_under t p r s hs y hy] at hz
    have hzs := itemAt_pushDown_checkState s hs y hu r z hz
    rw [hzs]
    apply hfull s _ hs
    intro c hc
    obtain ⟨d, hd, rfl⟩ := List.mem_map.mp hc
    obtain ⟨j, hj, rfl⟩ := List.getElem_of_mem hd
    apply itemAt_pushDown_checkState s hs y hu (j :: r)
    rw [itemAt_cons, hz, Option.some_bind]
    exact List.getElem?_eq_getElem hj
  · apply HoldsAt_congr L (cascadeUp p s (storeCheckState t p s))
    · exact checkStateAt_propagated_off _ _ _ _ hq
    · exact childStates_propagated_off _ _ _ _ hq
    · apply cascadeUp_holds L hL p s _ _ _ _ q hq
      · rw [checkStateAt_storeCheckState_self, hv0]; rfl
      · intro q' hq' hne'
        apply HoldsAt_congr L t
        · exact checkStateAt_storeCheckState_ne _ _ _ _
            (fun e => hq' (by rw [e]))
        · exact childStates_storeCheckState_off _ _ _ _ hne'
        · exact hall q'
      · intro i pp e sp hsp
        subst e
        refine ⟨y.checkState, ?_⟩
        rw [childStates_storeCheckState_child, List.set_set, childStates_set_self t i pp _ hv0]
        apply hall pp sp
        rw [← hsp, checkStateAt_storeCheckState_ne _ _ _ _ (List.cons_ne_self _ _).symm]

/-- A user toggle to `Checked` or `Unchecked` keeps a uniform tree uniform. -/
theorem uniform_propagated (t : Item) (p : ItemRef) (s : CheckState) (y : Item)
    (hy : itemAt t p = some y) (hs : s ≠ PartiallyChecked) (hu : t.uniform = true) :
    (propagated (storeCheckState t p s) p s).uniform = true := by
  rw [uniform_iff_holdsAt]
  exact propagated_holds UniformL stepClosed_uniformL (fun s cs _ h => Or.inr h) t p s y hy hs
    ((uniform_iff_holdsAt t).mp hu) (Item.all_itemAt _ t hu p y hy)

/-- A user toggle to `Checked` or `Unchecked` keeps a consistent tree consistent. -/
theorem consistent_propagated (t : Item) (p : ItemRef) (s : CheckState) (y : Item)
    (hy : itemAt t p = some y) (hs : s ≠ PartiallyChecked) (hc : t.consistent = true) :
    (propagated (storeCheckState t p s) p s).consistent = true := by
  rw [consistent_iff_holdsAt]
  refine propagated_holds ConsistentL stepClosed_consistentL ?_ t p s y hy hs
    ((consistent_iff_holdsAt t).mp hc)
    (Item.all_itemAt _ t (uniform_of_consistent t hc) p y hy)
  intro s cs hs hall
  by_cases hne : cs = []
  · left; exact hne
  · exact consistentL_of_all hs hne hall

theorem uniform_mk_iff (text data : QString) (state : CheckState) (children : List Item) :
    (Item.mk text data state children).uniform = true ↔
      (state = PartiallyChecked ∨ ∀ c ∈ children, c.checkState = state) ∧
        ∀ c ∈ children, c.uniform = true := by
  unfold Item.uniform
  rw [Item.all_iff_here]
  simp [uniformHere]

theorem initialCheckState_of_fully (oldBlackList : List QString) (state : CheckState)
    (path : QString) (h : state ≠ PartiallyChecked) :
    initialCheckState oldBlackList state path = state := by
  cases state <;> simp_all [initialCheckState]

theorem mem_modify_iff {α : Type} (f : α → α) (cs : List α) (i : Nat) (c : α) :
    c ∈ cs.modify f i → c ∈ cs ∨ ∃ d, cs[i]? = some d ∧ c = f d := by
  intro h
  obtain ⟨j, hj, rfl⟩ := List.getElem_of_mem h
  have hj' : j < cs.length := by simpa using hj
  have := List.getElem?_eq_getElem hj
  rw [List.getElem?_modify] at this
  by_cases hij : i = j
  · subst hij
    right
    refine ⟨cs[i], List.getElem?_eq_getElem hj', ?_⟩
    rw [List.getElem?_eq_getElem hj'] at this
    simp only [if_true, Option.map_eq_map, Option.map_some', Option.some.injEq] at this
    exact this.symm
  · left
    rw [List.getElem?_eq_getElem hj'] at this
    simp only [hij, if_false, Option.map_eq_map, Option.map_some', Option.some.injEq] at this
    rw [← this]
    exact List.getElem_mem hj'

/-- Insertion of one listing entry keeps the state of the item it starts from
and keeps a uniform subtree uniform. -/
theorem recursiveInsert_uniform (oldBlackList : List QString) (pathTrail : List QString)
    (path : QString) (x : Item) :
    (recursiveInsert oldBlackList pathTrail path x).checkState = x.checkState ∧
      (x.uniform = true → (recursiveInsert oldBlackList pathTrail path x).uniform = true) := by
  induction pathTrail generalizing x with
  | nil =>
    cases x with
    | mk text data state children =>
      simp only [recursiveInsert, Item.checkState_mk, true_and]
      intro h
      rw [uniform_mk_iff] at h ⊢
      exact h
  | cons first rest ih =>
    cases x with
    | mk text data state children =>
      simp only [recursiveInsert]
      cases hf : findFirstChild children first with
      | some i =>
        simp only [Item.checkState_mk, true_and]
        intro h
        rw [uniform_mk_iff] at h ⊢
        refine ⟨?_, ?_⟩
        · rcases h.1 with hp | hall
          · left; exact hp
          · right
            intro c hc
            rcases mem_modify_iff _ _ _ _ hc with hc' | ⟨d, hd, rfl⟩
            · exact hall c hc'
            · rw [(ih d).1]; exact hall d (List.getElem?_mem hd)
        · intro c hc
          rcases mem_modify_iff _ _ _ _ hc with hc' | ⟨d, hd, rfl⟩
          · exact h.2 c hc'
          · exact (ih d).2 (h.2 d (List.getElem?_mem hd))
      | none =>
        simp only [Item.checkState_mk, true_and]
        intro h
        rw [uniform_mk_iff] at h ⊢
        refine ⟨?_, ?_⟩
        · by_cases hp : state = PartiallyChecked
          · left; exact hp
          · right
            rcases h.1 with hp' | hall
            · exact absurd hp' hp
            · intro c hc
              rcases List.mem_append.mp hc with hc' | hc'
              · exact hall c hc'
              · rw [List.mem_singleton.mp hc', (ih _).1]
                exact initialCheckState_of_fully _ _ _ hp
        · intro c hc
          rcases List.mem_append.mp hc with hc' | hc'
          · exact h.2 c hc'
          · rw [List.mem_singleton.mp hc']
            apply (ih _).2
            rw [uniform_mk_iff]
            simp

theorem insertEntry_uniform (oldBlackList : List QString) (toRemove : QString) (root : Item)
    (entry : QString) (h : root.uniform = true) :
    (insertEntry oldBlackList toRemove root entry).uniform = true := by
  unfold insertEntry
  simp only
  split_ifs
  · exact h
  · exact (recursiveInsert_uniform _ _ _ _).2 h

theorem foldl_insertEntry_uniform (oldBlackList : List QString) (toRemove : QString)
    (list : List QString) (root : Item) (h : root.uniform = true) :
    (list.foldl (insertEntry oldBlackList toRemove) root).uniform = true := by
  induction list generalizing root with
  | nil => exact h
  | cons e es ih => exact ih _ (insertEntry_uniform _ _ _ _ h)

theorem rootItem_uniform (v : SelectiveSyncTreeView)
    (h : ∀ t, v.topLevelItem = some t → t.uniform = true) : (rootItem v).uniform = true := by
  unfold rootItem
  cases hv : v.topLevelItem with
  | some root => exact h root hv
  | none =>
    simp only
    rw [uniform_mk_iff]
    simp

theorem slotUpdateDirectories_uniform (v : SelectiveSyncTreeView) (list : List QString)
    (h : ∀ t, v.topLevelItem = some t → t.uniform = true) :
    ∀ t, (slotUpdateDirectories v list).topLevelItem = some t → t.uniform = true := by
  intro t ht
  simp only [slotUpdateDirectories, Option.some.injEq] at ht
  rw [← ht]
  exact foldl_insertEntry_uniform _ _ _ _ (rootItem_uniform v h)

/-- A user toggle always returns a tree. -/
theorem userToggle_isSome (t : Item) (p : ItemRef) (s : CheckState) :
    ∃ t', userToggle t p s = some t' := by
  cases hy : itemAt t p with
  | none => exact ⟨_, userToggle_of_none t p s hy⟩
  | some y => exact ⟨_, userToggle_eq t p s y hy⟩

theorem userToggle_uniform (t t' : Item) (p : ItemRef) (s : CheckState)
    (hs : s ≠ PartiallyChecked) (hu : t.uniform = true) (h : userToggle t p s = some t') :
    t'.uniform = true := by
  cases hy : itemAt t p with
  | none =>
    rw [userToggle_of_none t p s hy] at h
    cases h; exact hu
  | some y =>
    rw [userToggle_eq t p s y hy] at h
    cases h
    exact uniform_propagated t p s y hy hs hu

theorem userToggle_consistent (t t' : Item) (p : ItemRef) (s : CheckState)
    (hs : s ≠ PartiallyChecked) (hc : t.consistent = true) (h : userToggle t p s = some t') :
    t'.consistent = true := by
  cases hy : itemAt t p with
  | none =>
    rw [userToggle_of_none t p s hy] at h
    cases h; exact hc
  | some y =>
    rw [userToggle_eq t p s y hy] at h
    cases h
    exact consistent_propagated t p s y hy hs hc

/-- Every tree reachable by listing insertions and user toggles is uniform. -/
theorem reachable_uniform (v : SelectiveSyncTreeView) (hr : Reachable v) :
    ∀ t, v.topLevelItem = some t → t.uniform = true := by
  induction hr with
  | fresh => intro t ht; cases ht
  | listing list _ ih => exact slotUpdateDirectories_uniform _ list ih
  | @toggled v v' item s _ hs htog ih =>
    intro t' ht'
    unfold SelectiveSyncTreeView.toggle at htog
    cases hv : v.topLevelItem with
    | none =>
      rw [hv] at htog
      simp only [Option.some.injEq] at htog
      rw [← htog, hv] at ht'
      cases ht'
    | some t =>
      rw [hv] at htog
      simp only [Option.map_eq_some'] at htog
      obtain ⟨t1, h1, rfl⟩ := htog
      simp only [Option.some.injEq] at ht'
      subst ht'
      exact userToggle_uniform t t1 item s hs (ih t hv) h1

theorem toggleAll_consistent (toggles : List (ItemRef × CheckState)) (t : Item)
    (hc : t.consistent = true) (hs : ∀ x ∈ toggles, x.2 ≠ PartiallyChecked) :
    ∃ t', toggleAll toggles t = some t' ∧ t'.consistent = true := by
  induction toggles generalizing t with
  | nil => exact ⟨t, rfl, hc⟩
  | cons x rest ih =>
    obtain ⟨p, s⟩ := x
    obtain ⟨t1, h1⟩ := userToggle_isSome t p s
    have hc1 := userToggle_consistent t t1 p s (hs (p, s) (by simp)) hc h1
    obtain ⟨t', h', hc'⟩ := ih t1 hc1 (fun x hx => hs x (by simp [hx]))
    exact ⟨t', by simp [toggleAll, h1, h'], hc'⟩

/-- C1 (as stated, refuted): the view `staleBuilt` is built by two listing
insertions; the user then toggles `b` from `Checked` to `Unchecked`. Afterwards
the item `a` is `PartiallyChecked` although its only child `x` is `Checked`, so
the tree is not consistent. -/
theorem C1_insertion_leaves_inconsistent_item :
    Built staleBuilt ∧
    ∃ t t', staleBuilt.topLevelItem = some t ∧
      checkStateAt t [1] = some Checked ∧
      toggleAll [([1], Unchecked)] t = some t' ∧
      (itemAt t' [0]).map (fun a => (a.checkState, a.children.map Item.checkState)) =
        some (PartiallyChecked, [Checked]) ∧
      t'.consistent = false :=
  ⟨Built.listing _ (Built.listing _ (Built.fresh _ _ _ _)),
    rootItem staleBuilt, _, rfl, by decide, rfl, by decide, by decide⟩

/-- C1 (amended): in a tree in which every item with at least one child agrees
with its children, every sequence of user toggles to `Checked` or `Unchecked`
runs to its end and leaves a tree in which again every item with at least one
child is `Checked` exactly when all its children are, `Unchecked` exactly when
all its children are, and `PartiallyChecked` otherwise. -/
theorem C1_toggles_preserve_consistency (t : Item) (toggles : List (ItemRef × CheckState))
    (hconsistent : t.consistent = true)
    (htoggles : ∀ x ∈ toggles, x.2 = Checked ∨ x.2 = Unchecked) :
    ∃ t', toggleAll toggles t = some t' ∧ t'.consistent = true ∧
      ∀ (q : ItemRef) (y : Item), itemAt t' q = some y → y.children ≠ [] →
        (y.checkState = Checked ↔ ∀ c ∈ y.children, c.checkState = Checked) ∧
        (y.checkState = Unchecked ↔ ∀ c ∈ y.children, c.checkState = Unchecked) ∧
        (y.checkState = PartiallyChecked ↔
          ¬ (∀ c ∈ y.children, c.checkState = Checked) ∧
          ¬ (∀ c ∈ y.children, c.checkState = Unchecked)) := by
  obtain ⟨t', h', hc'⟩ := toggleAll_consistent toggles t hconsistent
    (fun x hx => by rcases htoggles x hx with h | h <;> rw [h] <;> simp)
  refine ⟨t', h', hc', ?_⟩
  intro q y hy hne
  have := (Item.all_iff_itemAt consistentHere t').mp hc' q y hy
  rw [consistentHere_iff] at this
  rcases this with h | h
  · exact absurd (List.map_eq_nil_iff.mp h) hne
  · simpa only [List.forall_mem_map] using h

/-- C1 witness: `treeABC` is consistent; `c` is toggled to `Unchecked`, then `a`
to `Checked`. -/
theorem C1_toggles_preserve_consistency_witness :
    treeABC.consistent = true ∧
    (∀ x ∈ [(([2] : ItemRef), Unchecked), ([0], Checked)], x.2 = Checked ∨ x.2 = Unchecked) ∧
    ∃ t', toggleAll [([2], Unchecked), ([0], Checked)] treeABC = some t' ∧
      t'.consistent = true ∧
      ∀ (q : ItemRef) (y : Item), itemAt t' q = some y → y.children ≠ [] →
        (y.checkState = Checked ↔ ∀ c ∈ y.children, c.checkState = Checked) ∧
        (y.checkState = Unchecked ↔ ∀ c ∈ y.children, c.checkState = Unchecked) ∧
        (y.checkState = PartiallyChecked ↔
          ¬ (∀ c ∈ y.children, c.checkState = Checked) ∧
          ¬ (∀ c ∈ y.children, c.checkState = Unchecked)) :=
  ⟨by decide, by decide,
    C1_toggles_preserve_consistency treeABC [([2], Unchecked), ([0], Checked)] (by decide)
      (by decide)⟩

/-- C7: in a tree reachable by listing insertions and user toggles, after the
user toggles an existing item to `Checked` or `Unchecked`, every item below it,
at every depth, holds the new state. -/
theorem C7_toggle_reaches_every_descendant (v : SelectiveSyncTreeView) (hreach : Reachable v)
    (t : Item) (ht : v.topLevelItem = some t) (n : ItemRef) (hn : (itemAt t n).isSome = true)
    (newState : CheckState) (hnew : newState = Checked ∨ newState = Unchecked) :
    ∃ t', userToggle t n newState = some t' ∧
      ∀ (r : ItemRef) (z : Item), r ≠ [] → itemAt t' (r ++ n) = some z →
        z.checkState = newState := by
  obtain ⟨y, hy⟩ := Option.isSome_iff_exists.mp hn
  have hs : newState ≠ PartiallyChecked := by
    rcases hnew with h | h <;> rw [h] <;> simp
  have hu := reachable_uniform v hreach t ht
  refine ⟨_, userToggle_eq t n newState y hy, ?_⟩
  intro r z _ hz
  rw [itemAt_propagated_under t n r newState hs y hy] at hz
  exact itemAt_pushDown_checkState newState hs y (Item.all_itemAt _ t hu n y hy) r z hz

/-- C7 witness: after the first listing of the scenario the top-level item is
toggled to `Unchecked`. -/
theorem C7_toggle_reaches_every_descendant_witness :
    Reachable scenarioBuilt ∧
    scenarioBuilt.topLevelItem = some (rootItem scenarioBuilt) ∧
    (itemAt (rootItem scenarioBuilt) []).isSome = true ∧
    (Unchecked = Checked ∨ Unchecked = Unchecked) ∧
    ∃ t', userToggle (rootItem scenarioBuilt) [] Unchecked = some t' ∧
      ∀ (r : ItemRef) (z : Item), r ≠ [] → itemAt t' (r ++ []) = some z →
        z.checkState = Unchecked :=
  ⟨Reachable.listing _ (Reachable.fresh _ _ _ _), rfl, rfl, Or.inr rfl,
    C7_toggle_reaches_every_descendant scenarioBuilt
      (Reachable.listing _ (Reachable.fresh _ _ _ _)) (rootItem scenarioBuilt) rfl [] rfl
      Unchecked (Or.inr rfl)⟩

theorem findFirstChild_congr (cs cs' : List Item) (text : QString)
    (h : cs.map Item.text = cs'.map Item.text) :
    findFirstChild cs text = findFirstChild cs' text := by
  induction cs generalizing cs' with
  | nil =>
    cases cs' with
    | nil => rfl
    | cons d ds => simp at h
  | cons c cs ih =>
    cases cs' with
    | nil => simp at h
    | cons d ds =>
      simp only [List.map_cons, List.cons.injEq] at h
      simp only [findFirstChild, h.1, ih ds h.2]

theorem findFirstChild_some {cs : List Item} {text : QString} {i : Nat}
    (h : findFirstChild cs text = some i) : ∃ c, cs[i]? = some c ∧ c.text = text := by
  induction cs generalizing i with
  | nil => simp [findFirstChild] at h
  | cons c cs ih =>
    simp only [findFirstChild] at h
    by_cases hc : c.text = text
    · rw [if_pos hc] at h
      cases h
      exact ⟨c, by simp, hc⟩
    · rw [if_neg hc] at h
      simp only [Option.map_eq_some'] at h
      obtain ⟨j, hj, rfl⟩ := h
      obtain ⟨d, hd, hdt⟩ := ih hj
      exact ⟨d, by simpa using hd, hdt⟩

theorem findFirstChild_append (cs : List Item) (n : Item) (text : QString) :
    findFirstChild (cs ++ [n]) text =
      match findFirstChild cs text with
      | some i => some i
      | none => if n.text = text then some cs.length else none := by
  induction cs with
  | nil => simp [findFirstChild]
  | cons c cs ih =>
    simp only [List.cons_append, findFirstChild]
    by_cases hc : c.text = text
    · simp [hc]
    · simp only [hc, if_false]
      have ih' : findFirstChild (cs.append [n]) text = _ := ih
      rw [ih']
      cases findFirstChild cs text with
      | some i => simp
      | none => by_cases hn : n.text = text <;> simp [hn]

theorem recursiveInsert_text (oldBlackList : List QString) (pathTrail : List QString)
    (path : QString) (x : Item) :
    (recursiveInsert oldBlackList pathTrail path x).text = x.text := by
  cases pathTrail with
  | nil => cases x; simp [recursiveInsert]
  | cons first rest =>
    cases x with
    | mk text data state children =>
      simp only [recursiveInsert]
      cases findFirstChild children first <;> simp

theorem recursiveInsert_data_cons (oldBlackList : List QString) (first : QString)
    (rest : List QString) (path : QString) (x : Item) :
    (recursiveInsert oldBlackList (first :: rest) path x).data = x.data := by
  cases x with
  | mk text data state children =>
    simp only [recursiveInsert]
    cases findFirstChild children first <;> simp

theorem map_text_modify (f : Item → Item) (hf : ∀ x, (f x).text = x.text) (cs : List Item)
    (i : Nat) : (cs.modify f i).map Item.text = cs.map Item.text := by
  apply List.ext_getElem?
  intro j
  simp only [List.getElem?_map, List.getElem?_modify]
  cases cs[j]? with
  | none => rfl
  | some c => by_cases hij : i = j <;> simp [hij, hf]

theorem modify_eq_self_of_fixed {α : Type} (f : α → α) (cs : List α) (i : Nat) (c : α)
    (hc : cs[i]? = some c) (hf : f c = c) : cs.modify f i = cs := by
  apply List.ext_getElem?
  intro j
  rw [List.getElem?_modify]
  by_cases hij : i = j
  · subst hij
    simp [hc, hf]
  · cases cs[j]? <;> simp [hij]

/-- An entry that is present is a fixed point of its own insertion. -/
theorem recursiveInsert_of_present (oldBlackList : List QString) (segs : List QString)
    (path : QString) (x : Item) (h : entryPresent segs (chopSlash path) x) :
    recursiveInsert oldBlackList segs path x = x := by
  induction segs generalizing x with
  | nil =>
    cases x with
    | mk text data state children =>
      simp only [entryPresent, Item.data_mk] at h
      simp [recursiveInsert, h]
  | cons seg rest ih =>
    cases x with
    | mk text data state children =>
      obtain ⟨i, c, hi, hc, hrest⟩ := h
      simp only [Item.children_mk] at hi hc
      simp only [recursiveInsert, hi]
      rw [modify_eq_self_of_fixed _ children i c hc (ih c hrest)]

/-- After its insertion an entry is present. -/
theorem entryPresent_recursiveInsert (oldBlackList : List QString) (segs : List QString)
    (path : QString) (x : Item) :
    entryPresent segs (chopSlash path) (recursiveInsert oldBlackList segs path x) := by
  induction segs generalizing x with
  | nil => cases x; simp [recursiveInsert, entryPresent]
  | cons seg rest ih =>
    cases x with
    | mk text data state children =>
      cases hf : findFirstChild children seg with
      | some i =>
        simp only [recursiveInsert, hf]
        obtain ⟨c, hc, _⟩ := findFirstChild_some hf
        refine ⟨i, recursiveInsert oldBlackList rest path c, ?_, ?_, ih c⟩
        · simp only [Item.children_mk]
          rw [findFirstChild_congr _ children seg
            (map_text_modify _ (recursiveInsert_text _ _ _) _ _), hf]
        · simp [hc]
      | none =>
        simp only [recursiveInsert, hf]
        refine ⟨children.length, recursiveInsert oldBlackList rest path
          (Item.mk seg [] (initialCheckState oldBlackList state path) []), ?_, ?_, ih _⟩
        · simp only [Item.children_mk]
          rw [findFirstChild_append, hf]
          simp [recursiveInsert_text]
        · simp

/-- The insertion of another entry keeps a present entry present, as long as
entries with the same segments store the same path. -/
theorem entryPresent_recursiveInsert_other (oldBlackList : List QString)
    (segs : List QString) (d : QString) (segs' : List QString) (path' : QString) (x : Item)
    (hcompat : segs = segs' → d = chopSlash path') (h : entryPresent segs d x) :
    entryPresent segs d (recursiveInsert oldBlackList segs' path' x) := by
  induction segs generalizing x segs' with
  | nil =>
    cases segs' with
    | nil =>
      cases x
      simp only [recursiveInsert, entryPresent, Item.data_mk]
      exact (hcompat rfl).symm
    | cons seg' rest' =>
      simp only [entryPresent] at h ⊢
      rw [recursiveInsert_data_cons, h]
  | cons seg rest ih =>
    cases segs' with
    | nil =>
      cases x with
      | mk text data state children =>
        simpa [recursiveInsert, entryPresent] using h
    | cons seg' rest' =>
      cases x with
      | mk text data state children =>
        obtain ⟨i, c, hi, hc, hrest⟩ := h
        simp only [Item.children_mk] at hi hc
        obtain ⟨_, hc2, hct⟩ := findFirstChild_some hi
        rw [hc] at hc2
        cases hc2
        cases hf : findFirstChild children seg' with
        | some j =>
          simp only [recursiveInsert, hf]
          obtain ⟨c', hc', hct'⟩ := findFirstChild_some hf
          have hffc : findFirstChild
              (children.modify (recursiveInsert oldBlackList rest' path') j) seg = some i := by
            rw [findFirstChild_congr _ children seg
              (map_text_modify _ (recursiveInsert_text _ _ _) _ _), hi]
          by_cases hij : j = i
          · subst hij
            rw [hc] at hc'
            cases hc'
            have hseg : seg = seg' := by rw [← hct, hct']
            refine ⟨j, recursiveInsert oldBlackList rest' path' c, hffc, by simp [hc], ?_⟩
            apply ih rest' c _ hrest
            intro e
            apply hcompat
            rw [hseg, e]
          · refine ⟨i, c, hffc, ?_, hrest⟩
            simp only [Item.children_mk]
            rw [List.getElem?_modify_ne _ _ hij, hc]
        | none =>
          simp only [recursiveInsert, hf]
          refine ⟨i, c, ?_, ?_, hrest⟩
          · simp only [Item.children_mk]
            rw [findFirstChild_append, hi]
          · simp only [Item.children_mk]
            have hlt : i < children.length := by
              by_contra hge
              rw [List.getElem?_eq_none (Nat.le_of_not_lt hge)] at hc
              cases hc
            rw [List.getElem?_append_left hlt, hc]

theorem split_ne_nil (sep : Char) (p : QString) : split sep p ≠ [] := by
  cases p with
  | nil => simp [split]
  | cons c cs =>
    simp only [split]
    split_ifs
    · simp
    · cases split sep cs <;> simp

theorem joinSlash_cons_cons (c : Char) (w : QString) (ws : List QString) :
    joinSlash ((c :: w) :: ws) = c :: joinSlash (w :: ws) := by
  cases ws with
  | nil => rfl
  | cons w' ws => rfl

theorem joinSlash_split (p : QString) : joinSlash (split '/' p) = p := by
  induction p with
  | nil => rfl
  | cons c cs ih =>
    simp only [split]
    by_cases hc : c = '/'
    · rw [if_pos hc]
      cases hs : split '/' cs with
      | nil => exact absurd hs (split_ne_nil _ _)
      | cons w ws =>
        rw [hs] at ih
        simp [joinSlash, ih, hc]
    · rw [if_neg hc]
      cases hs : split '/' cs with
      | nil => exact absurd hs (split_ne_nil _ _)
      | cons w ws =>
        rw [hs] at ih
        simp only
        rw [joinSlash_cons_cons, ih]

theorem split_no_sep (p : QString) : ∀ w ∈ split '/' p, '/' ∉ w := by
  induction p with
  | nil => simp [split]
  | cons c cs ih =>
    simp only [split]
    by_cases hc : c = '/'
    · rw [if_pos hc]
      intro w hw
      rcases List.mem_cons.mp hw with rfl | hw'
      · simp
      · exact ih w hw'
    · rw [if_neg hc]
      cases hs : split '/' cs with
      | nil => exact absurd hs (split_ne_nil _ _)
      | cons w ws =>
        rw [hs] at ih
        intro w' hw'
        rcases List.mem_cons.mp hw' with rfl | hw''
        · intro hmem
          rcases List.mem_cons.mp hmem with h | h
          · exact hc h.symm
          · exact ih w (by simp) h
        · exact ih w' (by simp [hw''])

theorem joinSlash_cons_of_ne_nil (w : QString) (ws : List QString) (h : ws ≠ []) :
    joinSlash (w :: ws) = w ++ '/' :: joinSlash ws := by
  cases ws with
  | nil => exact absurd rfl h
  | cons w' ws' => rfl

theorem joinSlash_append_nil (init : List QString) (h : init ≠ []) :
    joinSlash (init ++ [[]]) = joinSlash init ++ ['/'] := by
  induction init with
  | nil => exact absurd rfl h
  | cons w ws ih =>
    by_cases hws : ws = []
    · subst hws
      rfl
    · rw [List.cons_append, joinSlash_cons_of_ne_nil w _ (by simp), ih hws,
        joinSlash_cons_of_ne_nil w ws hws]
      simp

theorem getLast?_joinSlash (ws : List QString) (w : QString) (hw : w ≠ []) :
    (joinSlash (ws ++ [w])).getLast? = w.getLast? := by
  induction ws with
  | nil => rfl
  | cons v vs ih =>
    rw [List.cons_append, joinSlash_cons_of_ne_nil v _ (by simp), List.getLast?_append,
      List.getLast?_cons, ih]
    cases hl : w.getLast? with
    | none => exact absurd (List.getLast?_eq_none_iff.mp hl) hw
    | some c => rfl

/-- The path stored for a listing entry is the join of its segments. -/
theorem chopSlash_eq_joinSlash (p : QString) : chopSlash p = joinSlash (pathSegments p) := by
  have hne := split_ne_nil '/' p
  have hjoin := joinSlash_split p
  have hnosep := split_no_sep p
  unfold pathSegments
  simp only
  obtain ⟨init, last, hsplit⟩ : ∃ init last, split '/' p = init ++ [last] :=
    ⟨(split '/' p).dropLast, (split '/' p).getLast hne, (List.dropLast_append_getLast hne).symm⟩
  rw [hsplit] at hjoin hnosep ⊢
  rw [List.getLast?_concat, List.dropLast_concat]
  by_cases hl : last = []
  · subst hl
    simp only [if_true]
    by_cases hi : init = []
    · subst hi
      rw [← hjoin]
      rfl
    · rw [joinSlash_append_nil init hi] at hjoin
      rw [← hjoin]
      simp [chopSlash, endsWithSlash]
  · rw [if_neg (by simpa using hl), hjoin]
    unfold chopSlash endsWithSlash
    have hlast : p.getLast? = last.getLast? := by
      rw [← hjoin]; exact getLast?_joinSlash init last hl
    have : ¬ (p.getLast? == some '/') = true := by
      rw [hlast]
      intro h
      have h' : last.getLast? = some '/' := by simpa using h
      exact hnosep last (by simp) (List.mem_of_getLast?_eq_some h')
    simp [this]

theorem insertEntry_of_settled (oldBlackList : List QString) (toRemove : QString) (x : Item)
    (entry : QString) (h : entrySettled toRemove entry x) :
    insertEntry oldBlackList toRemove x entry = x := by
  unfold insertEntry
  simp only
  split_ifs with he
  · rfl
  · exact recursiveInsert_of_present _ _ _ _ (h (by simpa using he))

theorem entrySettled_insertEntry_self (oldBlackList : List QString) (toRemove : QString)
    (x : Item) (entry : QString) :
    entrySettled toRemove entry (insertEntry oldBlackList toRemove x entry) := by
  intro hne
  unfold insertEntry
  simp only
  rw [if_neg (by simpa using hne)]
  exact entryPresent_recursiveInsert _ _ _ _

theorem entrySettled_insertEntry_other (oldBlackList : List QString) (toRemove : QString)
    (x : Item) (entry other : QString) (h : entrySettled toRemove entry x) :
    entrySettled toRemove entry (insertEntry oldBlackList toRemove x other) := by
  intro hne
  unfold insertEntry
  simp only
  split_ifs with he
  · exact h hne
  · apply entryPresent_recursiveInsert_other _ _ _ _ _ _ _ (h hne)
    intro e
    rw [chopSlash_eq_joinSlash, chopSlash_eq_joinSlash, e]

theorem entrySettled_foldl (oldBlackList : List QString) (toRemove : QString)
    (list : List QString) (x : Item) (entry : QString) (h : entrySettled toRemove entry x) :
    entrySettled toRemove entry (list.foldl (insertEntry oldBlackList toRemove) x) := by
  induction list generalizing x with
  | nil => exact h
  | cons e es ih => exact ih _ (entrySettled_insertEntry_other _ _ _ _ _ h)

theorem entrySettled_foldl_of_mem (oldBlackList : List QString) (toRemove : QString)
    (list : List QString) (x : Item) (entry : QString) (hmem : entry ∈ list) :
    entrySettled toRemove entry (list.foldl (insertEntry oldBlackList toRemove) x) := by
  induction list generalizing x with
  | nil => simp at hmem
  | cons e es ih =>
    rcases List.mem_cons.mp hmem with rfl | h
    · exact entrySettled_foldl _ _ es _ _ (entrySettled_insertEntry_self _ _ _ _)
    · exact ih _ h

theorem foldl_insertEntry_of_settled (oldBlackList : List QString) (toRemove : QString)
    (list : List QString) (x : Item) (h : ∀ e ∈ list, entrySettled toRemove e x) :
    list.foldl (insertEntry oldBlackList toRemove) x = x := by
  induction list with
  | nil => rfl
  | cons e es ih =>
    simp only [List.foldl_cons]
    rw [insertEntry_of_settled _ _ _ _ (h e (by simp))]
    exact ih (fun e' he' => h e' (by simp [he']))

/-- C10: applying `slotUpdateDirectories` to the same listing a second time
changes nothing: the view, with the same items in the same order, the same
check states and the same stored paths, is the one obtained after the first
application, whatever the tree, the old black list and the listing. -/
theorem C10_slotUpdateDirectories_idempotent (v : SelectiveSyncTreeView)
    (list : List QString) :
    slotUpdateDirectories (slotUpdateDirectories v list) list = slotUpdateDirectories v list := by
  have h : slotUpdateDirectories (slotUpdateDirectories v list) list =
      { v with topLevelItem := some (list.foldl (insertEntry v.oldBlackList (pathToRemove v))
        (list.foldl (insertEntry v.oldBlackList (pathToRemove v)) (rootItem v))) } := rfl
  rw [h, foldl_insertEntry_of_settled]
  · rfl
  · intro e he
    exact entrySettled_foldl_of_mem _ _ list _ e he

theorem strictlyBelow_iff (p q : QString) :
    strictlyBelow p q = true ↔ ∃ w, q = p ++ '/' :: w := by
  unfold strictlyBelow
  rw [List.isPrefixOf_iff_prefix]
  constructor
  · rintro ⟨w, hw⟩
    exact ⟨w, by rw [← hw]; simp⟩
  · rintro ⟨w, hw⟩
    exact ⟨w, by rw [hw]; simp⟩

theorem strictlyBelow_self (d : QString) : strictlyBelow d d = false := by
  rw [Bool.eq_false_iff]
  intro h
  obtain ⟨w, hw⟩ := (strictlyBelow_iff d d).mp h
  have := congrArg List.length hw
  simp at this

/-- Two texts without `/` that are followed by a `/` at the same place are equal. -/
theorem text_eq_of_append_slash (t1 t2 z w : QString) (h1 : '/' ∉ t1) (h2 : '/' ∉ t2)
    (hz : z = [] ∨ ∃ u, z = '/' :: u) (h : t2 ++ z = t1 ++ '/' :: w) : t1 = t2 := by
  induction t1 generalizing t2 with
  | nil =>
    cases t2 with
    | nil => rfl
    | cons b t2' =>
      simp only [List.cons_append, List.nil_append, List.cons.injEq] at h
      exact absurd (by rw [h.1]; simp) h2
  | cons a t1' ih =>
    cases t2 with
    | nil =>
      rcases hz with hz | ⟨u, hz⟩
      · subst hz; simp at h
      · subst hz
        simp only [List.nil_append, List.cons_append, List.cons.injEq] at h
        exact absurd (by rw [← h.1]; simp) h1
    | cons b t2' =>
      simp only [List.cons_append, List.cons.injEq] at h
      have := ih t2' (fun hm => h1 (List.mem_cons_of_mem _ hm))
        (fun hm => h2 (List.mem_cons_of_mem _ hm)) h.2
      rw [this, h.1]

/-- Entries at or below two different siblings are never nested. -/
theorem not_strictlyBelow_of_siblings (pre t1 t2 p q : QString) (h1 : '/' ∉ t1)
    (h2 : '/' ∉ t2) (hne : t1 ≠ t2) (hp : atOrBelow (pre ++ t1) p)
    (hq : atOrBelow (pre ++ t2) q) : strictlyBelow p q = false := by
  rw [Bool.eq_false_iff]
  intro h
  obtain ⟨w, hw⟩ := (strictlyBelow_iff p q).mp h
  apply hne
  obtain ⟨x, hx, hpx⟩ : ∃ x, (x = [] ∨ ∃ u, x = '/' :: u) ∧ p = pre ++ t1 ++ x := by
    rcases hp with hp | ⟨u, hp⟩
    · exact ⟨[], Or.inl rfl, by simp [hp]⟩
    · exact ⟨'/' :: u, Or.inr ⟨u, rfl⟩, hp⟩
  obtain ⟨z, hz, hqz⟩ : ∃ z, (z = [] ∨ ∃ u, z = '/' :: u) ∧ q = pre ++ t2 ++ z := by
    rcases hq with hq | ⟨u, hq⟩
    · exact ⟨[], Or.inl rfl, by simp [hq]⟩
    · exact ⟨'/' :: u, Or.inr ⟨u, rfl⟩, hq⟩
  obtain ⟨w', hw'⟩ : ∃ w', x ++ '/' :: w = '/' :: w' := by
    rcases hx with hx | ⟨u, hx⟩
    · exact ⟨w, by simp [hx]⟩
    · exact ⟨u ++ '/' :: w, by simp [hx]⟩
  have e : t2 ++ z = t1 ++ '/' :: w' := by
    have : pre ++ (t2 ++ z) = pre ++ (t1 ++ '/' :: w') := by
      rw [← hw', ← List.append_assoc, ← hqz, hw, hpx]
      simp
    exact List.append_cancel_left this
  exact text_eq_of_append_slash t1 t2 z w' h1 h2 hz e

theorem pathsFollow_mk_iff (pre text data : QString) (state : CheckState)
    (children : List Item) :
    Item.pathsFollow pre (Item.mk text data state children) = true ↔
      '/' ∉ text ∧ data = pre ++ text ∧ (children.map Item.text).Nodup ∧
        Item.pathsFollowList (data ++ ['/']) children = true := by
  simp [Item.pathsFollow, and_assoc]

theorem pathsFollowList_iff (pre : QString) (cs : List Item) :
    Item.pathsFollowList pre cs = true ↔ ∀ c ∈ cs, Item.pathsFollow pre c = true := by
  induction cs with
  | nil => simp [Item.pathsFollowList]
  | cons c cs ih => simp [Item.pathsFollowList, ih]

theorem noPartialLeaf_mk_iff (text data : QString) (state : CheckState)
    (children : List Item) :
    (Item.mk text data state children).noPartialLeaf = true ↔
      (state = PartiallyChecked → children ≠ []) ∧ ∀ c ∈ children, c.noPartialLeaf = true := by
  rw [Item.noPartialLeaf, Item.all_iff_here]
  simp only [Item.checkState_mk, Item.children_mk, Bool.not_eq_true', Bool.and_eq_false_imp,
    beq_iff_eq, List.isEmpty_eq_false]
  constructor
  · rintro ⟨h1, h2⟩
    exact ⟨fun h => by simpa using h1 h, h2⟩
  · rintro ⟨h1, h2⟩
    exact ⟨fun h => by simpa using h1 h, h2⟩

theorem mem_createBlackListChildren (oldBlackList : List QString) (cs : List Item)
    (e : QString) :
    e ∈ createBlackListChildren oldBlackList cs ↔
      ∃ c ∈ cs, e ∈ createBlackList oldBlackList c := by
  rw [createBlackListChildren_eq]
  simp

mutual
theorem createBlackList_atOrBelow (oldBlackList : List QString) :
    ∀ (c : Item) (pre : QString), Item.pathsFollow pre c = true → c.noPartialLeaf = true →
      ∀ e ∈ createBlackList oldBlackList c, atOrBelow (pre ++ c.text) e
  | Item.mk text data state children, pre, hp, hl, e, he => by
    rw [pathsFollow_mk_iff] at hp
    rw [noPartialLeaf_mk_iff] at hl
    obtain ⟨_, hdata, _, hlist⟩ := hp
    cases state with
    | Unchecked =>
      simp only [createBlackList, List.mem_singleton] at he
      left; rw [he, hdata]; rfl
    | Checked => simp [createBlackList] at he
    | PartiallyChecked =>
      have hne := hl.1 rfl
      simp only [createBlackList, List.isEmpty_iff, hne, if_false] at he
      obtain ⟨c', hc', hbelow⟩ :=
        createBlackListChildren_atOrBelow oldBlackList children (data ++ ['/']) hlist hl.2 e he
      right
      simp only [Item.text_mk]
      rw [← hdata]
      rcases hbelow with h | ⟨u, h⟩
      · exact ⟨c'.text, by rw [h]; simp⟩
      · exact ⟨c'.text ++ '/' :: u, by rw [h]; simp⟩
theorem createBlackListChildren_atOrBelow (oldBlackList : List QString) :
    ∀ (cs : List Item) (pre : QString), Item.pathsFollowList pre cs = true →
      (∀ c ∈ cs, c.noPartialLeaf = true) →
      ∀ e ∈ createBlackListChildren oldBlackList cs,
        ∃ c ∈ cs, atOrBelow (pre ++ c.text) e
  | [], _, _, _, e, he => by simp [createBlackListChildren] at he
  | d :: ds, pre, hp, hl, e, he => by
    simp only [Item.pathsFollowList, Bool.and_eq_true] at hp
    simp only [createBlackListChildren, List.mem_append] at he
    rcases he with he | he
    · exact ⟨d, by simp, createBlackList_atOrBelow oldBlackList d pre hp.1 (hl d (by simp)) e he⟩
    · obtain ⟨c, hc, h⟩ := createBlackListChildren_atOrBelow oldBlackList ds pre hp.2
        (fun c hc => hl c (by simp [hc])) e he
      exact ⟨c, by simp [hc], h⟩
end

theorem text_ne_of_nodup {d : Item} {ds : List Item} (h : ((d :: ds).map Item.text).Nodup)
    {c : Item} (hc : c ∈ ds) : d.text ≠ c.text := by
  simp only [List.map_cons, List.nodup_cons, List.mem_map, not_exists, not_and] at h
  exact fun e => h.1 c hc e.symm

mutual
theorem createBlackList_noNested (oldBlackList : List QString) :
    ∀ (c : Item) (pre : QString), Item.pathsFollow pre c = true → c.noPartialLeaf = true →
      noNestedEntries (createBlackList oldBlackList c)
  | Item.mk text data state children, pre, hp, hl => by
    rw [pathsFollow_mk_iff] at hp
    rw [noPartialLeaf_mk_iff] at hl
    obtain ⟨_, _, hnodup, hlist⟩ := hp
    cases state with
    | Unchecked =>
      intro p hp q hq
      simp only [createBlackList, List.mem_singleton] at hp hq
      rw [hp, hq]
      exact strictlyBelow_self data
    | Checked =>
      intro p hp
      simp [createBlackList] at hp
    | PartiallyChecked =>
      have hne := hl.1 rfl
      simp only [createBlackList, List.isEmpty_iff, hne, if_false]
      exact createBlackListChildren_noNested oldBlackList children (data ++ ['/']) hlist hl.2
        hnodup
theorem createBlackListChildren_noNested (oldBlackList : List QString) :
    ∀ (cs : List Item) (pre : QString), Item.pathsFollowList pre cs = true →
      (∀ c ∈ cs, c.noPartialLeaf = true) → (cs.map Item.text).Nodup →
      noNestedEntries (createBlackListChildren oldBlackList cs)
  | [], _, _, _, _ => by
    intro p hp
    simp [createBlackListChildren] at hp
  | d :: ds, pre, hp, hl, hnodup => by
    have hp' := hp
    simp only [Item.pathsFollowList, Bool.and_eq_true] at hp
    have hd := createBlackList_noNested oldBlackList d pre hp.1 (hl d (by simp))
    have hds := createBlackListChildren_noNested oldBlackList ds pre hp.2
      (fun c hc => hl c (by simp [hc])) (List.Nodup.of_cons (by simpa using hnodup))
    have hbd := createBlackList_atOrBelow oldBlackList d pre hp.1 (hl d (by simp))
    have hbds := createBlackListChildren_atOrBelow oldBlackList ds pre hp.2
      (fun c hc => hl c (by simp [hc]))
    have hslash : ∀ c ∈ d :: ds, '/' ∉ c.text := by
      intro c hc
      have := (pathsFollowList_iff pre (d :: ds)).mp hp' c hc
      cases c
      rw [pathsFollow_mk_iff] at this
      exact this.1
    intro p hpm q hqm
    simp only [createBlackListChildren, List.mem_append] at hpm hqm
    rcases hpm with hpm | hpm <;> rcases hqm with hqm | hqm
    · exact hd p hpm q hqm
    · obtain ⟨c, hc, hcq⟩ := hbds q hqm
      exact not_strictlyBelow_of_siblings pre d.text c.text p q (hslash d (by simp))
        (hslash c (by simp [hc])) (text_ne_of_nodup hnodup hc) (hbd p hpm) hcq
    · obtain ⟨c, hc, hcp⟩ := hbds p hpm
      exact not_strictlyBelow_of_siblings pre c.text d.text p q (hslash c (by simp [hc]))
        (hslash d (by simp)) (text_ne_of_nodup hnodup hc).symm hcp (hbd q hqm)
    · exact hds p hpm q hqm
end

/-- C3 (as stated, refuted): the old black list holds `a/b` and `a/b/c`; after
the listing of the folder the item `a` is `PartiallyChecked` and is never
expanded. `createBlackList()` returns `a/b` and `a/b/c`, the second strictly
below the first. -/
theorem C3_fallback_returns_nested_entries :
    Reachable nestedBuilt ∧
    createBlackListTop nestedBuilt = [['a', '/', 'b'], ['a', '/', 'b', '/', 'c']] ∧
    strictlyBelow ['a', '/', 'b'] ['a', '/', 'b', '/', 'c'] = true ∧
    ¬ noNestedEntries (createBlackListTop nestedBuilt) := by
  refine ⟨Reachable.listing _ (Reachable.fresh _ _ _ _), by decide, by decide, ?_⟩
  intro h
  have := h ['a', '/', 'b'] (by decide) ['a', '/', 'b', '/', 'c'] (by decide)
  revert this
  decide

/-- C3 (amended): in a tree whose items store the path that leads to them (texts
without `/`, different texts among the children of one item) and in which no
`PartiallyChecked` item is without children, the list returned by
`createBlackList` never contains two entries `p` and `q` with `q` strictly below
`p`, whatever the check states and the old black list. -/
theorem C3_createBlackList_minimal (oldBlackList : List QString) (t : Item)
    (hpaths : t.wellPathed = true) (hexpanded : t.noPartialLeaf = true) :
    ∀ p ∈ createBlackList oldBlackList t, ∀ q ∈ createBlackList oldBlackList t,
      strictlyBelow p q = false := by
  cases t with
  | mk text data state children =>
    simp only [Item.wellPathed, Item.children_mk, Bool.and_eq_true, decide_eq_true_eq] at hpaths
    rw [noPartialLeaf_mk_iff] at hexpanded
    cases state with
    | Unchecked =>
      intro p hp q hq
      simp only [createBlackList, List.mem_singleton] at hp hq
      rw [hp, hq]
      exact strictlyBelow_self data
    | Checked =>
      intro p hp
      simp [createBlackList] at hp
    | PartiallyChecked =>
      have hne := hexpanded.1 rfl
      simp only [createBlackList, List.isEmpty_iff, hne, if_false]
      exact createBlackListChildren_noNested oldBlackList children [] hpaths.2 hexpanded.2
        hpaths.1

/-- C3 witness: `treeExpanded`, with an old black list that holds nested entries. -/
theorem C3_createBlackList_minimal_witness :
    treeExpanded.wellPathed = true ∧ treeExpanded.noPartialLeaf = true ∧
    ∀ p ∈ createBlackList [['a'], ['a', '/', 'x']] treeExpanded,
      ∀ q ∈ createBlackList [['a'], ['a', '/', 'x']] treeExpanded, strictlyBelow p q = false :=
  ⟨by decide, by decide,
    C3_createBlackList_minimal [['a'], ['a', '/', 'x']] treeExpanded (by decide) (by decide)⟩

theorem findFirstChild_cons (c : Item) (cs : List Item) (text : QString) :
    findFirstChild (c :: cs) text =
      if c.text = text then some 0 else (findFirstChild cs text).map (· + 1) := rfl

theorem findFirstChild_eq_none {cs : List Item} {n : QString} (h : ∀ c ∈ cs, c.text ≠ n) :
    findFirstChild cs n = none := by
  induction cs with
  | nil => rfl
  | cons c cs ih =>
    rw [findFirstChild_cons, if_neg (h c (by simp)), ih (fun c' hc' => h c' (by simp [hc']))]
    rfl

theorem findFirstChild_append_cons {done rest : List Item} {c : Item}
    (h : ∀ x ∈ done, x.text ≠ c.text) :
    findFirstChild (done ++ c :: rest) c.text = some done.length := by
  induction done with
  | nil => simp [findFirstChild]
  | cons x xs ih =>
    rw [List.cons_append, findFirstChild_cons, if_neg (h x (by simp)),
      ih (fun y hy => h y (by simp [hy]))]
    rfl

theorem chopSlash_append_slash (p : QString) : chopSlash (p ++ ['/']) = p := by
  simp [chopSlash, endsWithSlash]

theorem set_modify_same {α : Type} (f : α → α) (cs : List α) (i : Nat) (a : α) :
    (cs.modify f i).set i a = cs.set i a := by
  apply List.ext_getElem?
  intro j
  simp only [List.getElem?_set, List.length_modify]
  by_cases hij : i = j
  · simp [hij]
  · simp [hij, List.getElem?_modify_ne _ _ hij]

theorem set_of_getElem? {α : Type} (cs : List α) (i : Nat) (c : α) (h : cs[i]? = some c) :
    cs.set i c = cs := by
  apply List.ext_getElem?
  intro j
  rw [List.getElem?_set]
  by_cases hij : i = j
  · subst hij
    have : i < cs.length := by
      by_contra hlt
      rw [List.getElem?_eq_none (Nat.le_of_not_lt hlt)] at h
      cases h
    simp [this, h]
  · simp [hij]

/-- Insertions that all start with the segment of an existing child act on that
child alone. -/
theorem foldl_insertPair_push (oldBlackList : List QString) (n : QString)
    (es : List (List QString × QString)) (text data : QString) (state : CheckState)
    (children : List Item) (i : Nat) (c : Item)
    (hfind : findFirstChild children n = some i) (hc : children[i]? = some c) :
    (es.map (fun e => (n :: e.1, e.2))).foldl (insertPair oldBlackList)
        (Item.mk text data state children) =
      Item.mk text data state (children.set i (es.foldl (insertPair oldBlackList) c)) := by
  induction es generalizing children c with
  | nil => simp [set_of_getElem? children i c hc]
  | cons e es ih =>
    simp only [List.map_cons, List.foldl_cons]
    have hstep : insertPair oldBlackList (Item.mk text data state children) (n :: e.1, e.2) =
        Item.mk text data state
          (children.modify (recursiveInsert oldBlackList e.1 e.2) i) := by
      simp [insertPair, recursiveInsert, hfind]
    rw [hstep, ih (children.modify (recursiveInsert oldBlackList e.1 e.2) i)
      (recursiveInsert oldBlackList e.1 e.2 c)
      (by rw [findFirstChild_congr _ children n
        (map_text_modify _ (recursiveInsert_text _ _ _) _ _), hfind])
      (by simp [hc]), set_modify_same]
    rfl

/-- The listing of a directory appends one new item per subdirectory. -/
theorem foldl_insertPair_listing (oldBlackList : List QString) (pre : QString)
    (subdirs : List RemoteDir) (text data : QString) (state : CheckState) (acc : List Item)
    (hnodup : (subdirs.map RemoteDir.name).Nodup)
    (hacc : ∀ c ∈ subdirs, ∀ x ∈ acc, x.text ≠ c.name) :
    (subdirs.map (fun c => ([c.name], pre ++ c.name ++ ['/']))).foldl
        (insertPair oldBlackList) (Item.mk text data state acc) =
      Item.mk text data state (acc ++ subdirs.map (leafItem oldBlackList state pre)) := by
  induction subdirs generalizing acc with
  | nil => simp
  | cons c cs ih =>
    simp only [List.map_cons, List.foldl_cons]
    have hstep : insertPair oldBlackList (Item.mk text data state acc)
        ([c.name], pre ++ c.name ++ ['/']) =
        Item.mk text data state (acc ++ [leafItem oldBlackList state pre c]) := by
      simp only [insertPair, recursiveInsert,
        findFirstChild_eq_none (fun x hx => hacc c (by simp) x hx), chopSlash_append_slash]
      rfl
    rw [hstep, ih (acc ++ [leafItem oldBlackList state pre c])
      (List.Nodup.of_cons (by simpa using hnodup))]
    · simp
    · intro c' hc' x hx
      rcases List.mem_append.mp hx with hx | hx
      · exact hacc c' (by simp [hc']) x hx
      · rw [List.mem_singleton.mp hx]
        simp only [leafItem, Item.text_mk]
        have := hnodup
        simp only [List.map_cons, List.nodup_cons, List.mem_map, not_exists, not_and] at this
        exact fun e => this.1 c' hc' e.symm

@[simp] theorem RemoteDir.name_mk (name : QString) (subdirs : List RemoteDir) :
    (RemoteDir.mk name subdirs).name = name := rfl

@[simp] theorem RemoteDir.subdirs_mk (name : QString) (subdirs : List RemoteDir) :
    (RemoteDir.mk name subdirs).subdirs = subdirs := rfl

theorem getElem?_append_cons_length {α : Type} (done rest : List α) (c : α) :
    (done ++ c :: rest)[done.length]? = some c := by
  induction done with
  | nil => simp
  | cons x xs ih => simpa using ih

theorem namesOK_mk_iff (name : QString) (subdirs : List RemoteDir) :
    (RemoteDir.mk name subdirs).namesOK = true ↔
      '/' ∉ name ∧ (subdirs.map RemoteDir.name).Nodup ∧
        RemoteDir.namesOKList subdirs = true := by
  simp [RemoteDir.namesOK, and_assoc]

theorem namesOKList_iff (ds : List RemoteDir) :
    RemoteDir.namesOKList ds = true ↔ ∀ d ∈ ds, d.namesOK = true := by
  induction ds with
  | nil => simp [RemoteDir.namesOKList]
  | cons d ds ih => simp [RemoteDir.namesOKList, ih]

theorem seededItem_text (oldBlackList : List QString) (ps : CheckState) (pre : QString)
    (d : RemoteDir) : (seededItem oldBlackList ps pre d).text = d.name := by
  cases d; rfl

theorem seededList_eq_map (oldBlackList : List QString) (ps : CheckState) (pre : QString)
    (ds : List RemoteDir) :
    seededList oldBlackList ps pre ds = ds.map (seededItem oldBlackList ps pre) := by
  induction ds with
  | nil => rfl
  | cons d ds ih => simp [seededList, ih]

theorem set_append_cons {α : Type} (done rest : List α) (c a : α) :
    (done ++ c :: rest).set done.length a = done ++ a :: rest := by
  induction done with
  | nil => rfl
  | cons x xs ih => simp [ih]

mutual
/-- The insertions of the expansion of a directory turn the item that the
parent's listing created for it into the fully expanded item. -/
theorem foldl_relEntries (oldBlackList : List QString) :
    ∀ (d : RemoteDir) (pre : QString) (ps : CheckState), d.namesOK = true →
      (relEntries pre d).foldl (insertPair oldBlackList) (leafItem oldBlackList ps pre d) =
        seededItem oldBlackList ps pre d
  | RemoteDir.mk name subdirs, pre, ps, hok => by
    rw [namesOK_mk_iff] at hok
    simp only [relEntries, leafItem, RemoteDir.name_mk, List.foldl_append]
    rw [foldl_insertPair_listing oldBlackList (pre ++ name ++ ['/']) subdirs name (pre ++ name)
      _ [] hok.2.1 (by simp)]
    rw [foldl_relEntriesList oldBlackList subdirs (pre ++ name ++ ['/']) _ name (pre ++ name) []
      hok.2.2 hok.2.1 (by simp)]
    simp [seededItem]
theorem foldl_relEntriesList (oldBlackList : List QString) :
    ∀ (cs : List RemoteDir) (pre : QString) (st : CheckState) (text data : QString)
      (done : List Item), RemoteDir.namesOKList cs = true → (cs.map RemoteDir.name).Nodup →
      (∀ c ∈ cs, ∀ x ∈ done, x.text ≠ c.name) →
      (relEntriesList pre cs).foldl (insertPair oldBlackList)
          (Item.mk text data st (done ++ cs.map (leafItem oldBlackList st pre))) =
        Item.mk text data st (done ++ seededList oldBlackList st pre cs)
  | [], _, _, _, _, _, _, _, _ => by simp [relEntriesList, seededList]
  | c :: cs, pre, st, text, data, done, hok, hnodup, hdone => by
    simp only [RemoteDir.namesOKList, Bool.and_eq_true] at hok
    simp only [relEntriesList, List.map_cons, List.foldl_append]
    have htext : (leafItem oldBlackList st pre c).text = c.name := rfl
    rw [foldl_insertPair_push oldBlackList c.name (relEntries pre c) text data st
      (done ++ leafItem oldBlackList st pre c :: cs.map (leafItem oldBlackList st pre))
      done.length (leafItem oldBlackList st pre c)
      (by
        rw [← htext]
        exact findFirstChild_append_cons (fun x hx => by
          rw [htext]; exact hdone c (by simp) x hx))
      (getElem?_append_cons_length _ _ _),
      foldl_relEntries oldBlackList c pre st hok.1, set_append_cons]
    have hnd := hnodup
    simp only [List.map_cons, List.nodup_cons, List.mem_map, not_exists, not_and] at hnd
    have := foldl_relEntriesList oldBlackList cs pre st text data
      (done ++ [seededItem oldBlackList st pre c]) hok.2 hnd.2
      (by
        intro c' hc' x hx
        rcases List.mem_append.mp hx with hx | hx
        · exact hdone c' (by simp [hc']) x hx
        · rw [List.mem_singleton.mp hx, seededItem_text]
          exact fun e => hnd.1 c' hc' e.symm)
    simpa [seededList] using this
end

theorem slotUpdateDirectories_withRoot (v : SelectiveSyncTreeView) (r : Item)
    (list : List QString) :
    slotUpdateDirectories (v.withRoot r) list =
      v.withRoot (list.foldl (insertEntry v.oldBlackList (pathToRemove v)) r) := rfl

theorem slotUpdateDirectories_eq_withRoot (v : SelectiveSyncTreeView) (list : List QString) :
    slotUpdateDirectories v list =
      v.withRoot (list.foldl (insertEntry v.oldBlackList (pathToRemove v)) (rootItem v)) := rfl

theorem withRoot_withRoot (v : SelectiveSyncTreeView) (r r' : Item) :
    (v.withRoot r).withRoot r' = v.withRoot r' := rfl

mutual
theorem expandDir_withRoot (v : SelectiveSyncTreeView) :
    ∀ (d : RemoteDir) (pre : QString) (r : Item),
      expandDir pre d (v.withRoot r) =
        v.withRoot ((dfsListings (pathToRemove v) pre d).foldl
          (insertEntry v.oldBlackList (pathToRemove v)) r)
  | RemoteDir.mk name subdirs, pre, r => by
    simp only [expandDir, dfsListings, List.foldl_append]
    rw [slotUpdateDirectories_withRoot, expandDirs_withRoot v subdirs]
    rfl
theorem expandDirs_withRoot (v : SelectiveSyncTreeView) :
    ∀ (ds : List RemoteDir) (pre : QString) (r : Item),
      expandDirs pre ds (v.withRoot r) =
        v.withRoot ((dfsListingsList (pathToRemove v) pre ds).foldl
          (insertEntry v.oldBlackList (pathToRemove v)) r)
  | [], _, _ => rfl
  | d :: ds, pre, r => by
    simp only [expandDirs, dfsListingsList, List.foldl_append]
    rw [expandDir_withRoot v d, expandDirs_withRoot v ds]
end

/-- A full expansion is one fold of `insertEntry` over all its listing entries. -/
theorem fullyExpanded_eq (v : SelectiveSyncTreeView) (dirs : List RemoteDir) :
    fullyExpanded v dirs =
      v.withRoot ((allListings (pathToRemove v) dirs).foldl
        (insertEntry v.oldBlackList (pathToRemove v)) (rootItem v)) := by
  unfold fullyExpanded allListings
  rw [slotUpdateDirectories_eq_withRoot, expandDirs_withRoot, List.foldl_append]

mutual
theorem dfsListings_eq_map (toRemove : QString) :
    ∀ (d : RemoteDir) (pre : QString),
      dfsListings toRemove pre d = (relEntries pre d).map (fun e => toRemove ++ e.2)
  | RemoteDir.mk name subdirs, pre => by
    simp only [dfsListings, relEntries, List.map_append, List.map_map]
    rw [dfsListingsList_eq_map toRemove subdirs]
    congr 1
    unfold listingOf
    apply List.map_congr_left
    intro c _
    simp
theorem dfsListingsList_eq_map (toRemove : QString) :
    ∀ (ds : List RemoteDir) (pre : QString),
      dfsListingsList toRemove pre ds = (relEntriesList pre ds).map (fun e => toRemove ++ e.2)
  | [], _ => rfl
  | d :: ds, pre => by
    simp only [dfsListingsList, relEntriesList, List.map_append, List.map_map]
    rw [dfsListings_eq_map toRemove d, dfsListingsList_eq_map toRemove ds]
    rfl
end

theorem allListings_eq_map (toRemove : QString) (dirs : List RemoteDir) :
    allListings toRemove dirs = (rootEntries dirs).map (fun e => toRemove ++ e.2) := by
  unfold allListings rootEntries
  rw [List.map_append, List.map_map, dfsListingsList_eq_map]
  congr 1
  unfold listingOf
  apply List.map_congr_left
  intro c _
  simp

theorem split_cons_of_ne (sep c : Char) (cs : QString) (h : c ≠ sep) :
    split sep (c :: cs) =
      match split sep cs with
      | [] => [[c]]
      | w :: ws => (c :: w) :: ws := by
  rw [split, if_neg h]

theorem split_append_slash (n rest : QString) (h : '/' ∉ n) :
    split '/' (n ++ '/' :: rest) = n :: split '/' rest := by
  induction n with
  | nil => simp [split]
  | cons c n ih =>
    have hc : c ≠ '/' := fun e => h (by simp [e])
    have := ih (fun hm => h (List.mem_cons_of_mem _ hm))
    rw [List.cons_append, split_cons_of_ne '/' c _ hc, this]

theorem split_slashed (segs : List QString) (h : ∀ n ∈ segs, '/' ∉ n) :
    split '/' (slashed segs) = segs ++ [[]] := by
  induction segs with
  | nil => rfl
  | cons n ns ih =>
    simp only [slashed]
    rw [split_append_slash n _ (h n (by simp)), ih (fun m hm => h m (by simp [hm]))]
    rfl

theorem pathSegments_slashed (segs : List QString) (h : ∀ n ∈ segs, '/' ∉ n) :
    pathSegments (slashed segs) = segs := by
  unfold pathSegments
  simp only [split_slashed segs h]
  simp

theorem namesOK_name (d : RemoteDir) (h : d.namesOK = true) : '/' ∉ d.name := by
  cases d
  rw [namesOK_mk_iff] at h
  exact h.1

mutual
theorem relEntries_spec :
    ∀ (d : RemoteDir) (pre : QString), d.namesOK = true → ∀ e ∈ relEntries pre d,
      e.1 ≠ [] ∧ (∀ n ∈ e.1, '/' ∉ n) ∧ e.2 = pre ++ d.name ++ ['/'] ++ slashed e.1
  | RemoteDir.mk name subdirs, pre, hok, e, he => by
    rw [namesOK_mk_iff] at hok
    simp only [relEntries, List.mem_append, List.mem_map] at he
    rcases he with ⟨c, hc, rfl⟩ | he
    · refine ⟨by simp, ?_, by simp [slashed]⟩
      intro n hn
      rw [List.mem_singleton.mp hn]
      exact namesOK_name c ((namesOKList_iff subdirs).mp hok.2.2 c hc)
    · exact relEntriesList_spec subdirs (pre ++ name ++ ['/']) hok.2.2 e he
theorem relEntriesList_spec :
    ∀ (cs : List RemoteDir) (pre : QString), RemoteDir.namesOKList cs = true →
      ∀ e ∈ relEntriesList pre cs,
        e.1 ≠ [] ∧ (∀ n ∈ e.1, '/' ∉ n) ∧ e.2 = pre ++ slashed e.1
  | [], _, _, e, he => by simp [relEntriesList] at he
  | c :: cs, pre, hok, e, he => by
    simp only [RemoteDir.namesOKList, Bool.and_eq_true] at hok
    simp only [relEntriesList, List.mem_append, List.mem_map] at he
    rcases he with ⟨e', he', rfl⟩ | he
    · obtain ⟨_, h2, h3⟩ := relEntries_spec c pre hok.1 e' he'
      refine ⟨by simp, ?_, ?_⟩
      · intro n hn
        rcases List.mem_cons.mp hn with rfl | hn'
        · exact namesOK_name c hok.1
        · exact h2 n hn'
      · simp only [slashed]
        rw [h3]
        simp
    · exact relEntriesList_spec cs pre hok.2 e he
end

theorem rootEntries_spec (dirs : List RemoteDir) (hok : RemoteDir.namesOKList dirs = true) :
    ∀ e ∈ rootEntries dirs, e.1 ≠ [] ∧ (∀ n ∈ e.1, '/' ∉ n) ∧ e.2 = slashed e.1 := by
  intro e he
  simp only [rootEntries, List.mem_append, List.mem_map] at he
  rcases he with ⟨c, hc, rfl⟩ | he
  · refine ⟨by simp, ?_, by simp [slashed]⟩
    intro n hn
    rw [List.mem_singleton.mp hn]
    exact namesOK_name c ((namesOKList_iff dirs).mp hok c hc)
  · simpa using relEntriesList_spec dirs [] hok e he

theorem insertEntry_eq_insertPair (oldBlackList : List QString) (toRemove : QString) (x : Item)
    (e : List QString × QString) (hrem : removeAll toRemove (toRemove ++ e.2) = e.2)
    (hsegs : pathSegments e.2 = e.1) (hne : e.1 ≠ []) :
    insertEntry oldBlackList toRemove x (toRemove ++ e.2) = insertPair oldBlackList x e := by
  unfold insertEntry insertPair
  simp only [hrem, hsegs]
  rw [if_neg (by simpa using hne)]

theorem foldl_insertEntry_eq_insertPair (oldBlackList : List QString) (toRemove : QString)
    (es : List (List QString × QString)) (x : Item)
    (h : ∀ e ∈ es, removeAll toRemove (toRemove ++ e.2) = e.2 ∧ pathSegments e.2 = e.1 ∧
      e.1 ≠ []) :
    (es.map (fun e => toRemove ++ e.2)).foldl (insertEntry oldBlackList toRemove) x =
      es.foldl (insertPair oldBlackList) x := by
  induction es generalizing x with
  | nil => rfl
  | cons e es ih =>
    simp only [List.map_cons, List.foldl_cons]
    obtain ⟨h1, h2, h3⟩ := h e (by simp)
    rw [insertEntry_eq_insertPair _ _ _ _ h1 h2 h3]
    exact ih _ (fun e' he' => h e' (by simp [he']))

/-- The tree of a full expansion: in an empty view, the listing of the folder
followed by the expansion of every item builds `seededRoot`. -/
theorem fullyExpanded_eq_seededRoot (v : SelectiveSyncTreeView) (dirs : List RemoteDir)
    (hfresh : v.topLevelItem = none) (hok : remoteOK dirs = true)
    (hrem : ∀ s ∈ allListings (pathToRemove v) dirs,
      removeAll (pathToRemove v) s = s.drop (pathToRemove v).length) :
    fullyExpanded v dirs = v.withRoot (seededRoot v dirs) := by
  simp only [remoteOK, Bool.and_eq_true, decide_eq_true_eq] at hok
  rw [fullyExpanded_eq]
  congr 1
  rw [allListings_eq_map] at hrem ⊢
  rw [foldl_insertEntry_eq_insertPair]
  · have hroot : rootItem v = Item.mk v.rootName v.folderPath
        (if v.oldBlackList.isEmpty then Checked else PartiallyChecked) [] := by
      simp [rootItem, hfresh]
    rw [hroot]
    unfold rootEntries seededRoot
    rw [List.foldl_append,
      foldl_insertPair_listing v.oldBlackList [] dirs _ _ _ [] hok.1 (by simp)]
    exact foldl_relEntriesList v.oldBlackList dirs [] _ _ _ [] hok.2 hok.1 (by simp)
  · intro e he
    obtain ⟨h1, h2, h3⟩ := rootEntries_spec dirs hok.2 e he
    refine ⟨?_, ?_, h1⟩
    · have := hrem (pathToRemove v ++ e.2) (List.mem_map.mpr ⟨e, he, rfl⟩)
      simpa using this
    · rw [h3]; exact pathSegments_slashed e.1 h2

/-- The scan of the old black list (lines 78-86): `Unchecked` if an entry
followed by `/` is the path, else `PartiallyChecked` if an entry starts with the
path, else the state set before the scan. -/
theorem scanBlackList_eq (l : List QString) (path : QString) (current : CheckState) :
    scanBlackList l path current =
      if l.any (fun str => str ++ ['/'] == path) then Unchecked
      else if l.any (fun str => startsWith str path) then PartiallyChecked
      else current := by
  induction l generalizing current with
  | nil => rfl
  | cons str rest ih =>
    simp only [scanBlackList, List.any_cons]
    by_cases h1 : str ++ ['/'] = path
    · simp [h1]
    · have h1' : (str ++ ['/'] == path) = false := by simpa using h1
      rw [if_neg h1, h1', Bool.false_or]
      by_cases h2 : startsWith str path = true
      · simp only [if_pos h2, ih, h2, Bool.true_or, if_true]
        split_ifs <;> rfl
      · have h2' : startsWith str path = false := by simpa using h2
        simp only [ih, h2', Bool.false_or, Bool.false_eq_true, if_false]

/-- The state a full expansion gives to the item of the directory with path `r`
under a `PartiallyChecked` parent. -/
theorem initialCheckState_underPartially (oldBlackList : List QString) (r : QString) :
    initialCheckState oldBlackList PartiallyChecked (r ++ ['/']) =
      if r ∈ oldBlackList then Unchecked
      else if ∃ e ∈ oldBlackList, strictlyBelow r e = true then PartiallyChecked
      else Checked := by
  simp only [initialCheckState, scanBlackList_eq]
  have h1 : oldBlackList.any (fun str => str ++ ['/'] == r ++ ['/']) = true ↔
      r ∈ oldBlackList := by
    simp only [List.any_eq_true, beq_iff_eq, List.append_cancel_right_eq]
    constructor
    · rintro ⟨x, hx, rfl⟩; exact hx
    · intro h; exact ⟨r, h, rfl⟩
  have h2 : oldBlackList.any (fun str => startsWith str (r ++ ['/'])) = true ↔
      ∃ e ∈ oldBlackList, strictlyBelow r e = true := by
    simp only [List.any_eq_true, startsWith, strictlyBelow]
  by_cases hr : r ∈ oldBlackList
  · rw [if_pos (h1.mpr hr), if_pos hr]
  · rw [if_neg (fun h => hr (h1.mp h)), if_neg hr]
    by_cases he : ∃ e ∈ oldBlackList, strictlyBelow r e = true
    · rw [if_pos (h2.mpr he), if_pos he]
    · rw [if_neg (fun h => he (h2.mp h)), if_neg he]

theorem mem_relPathsList (pre : QString) (ds : List RemoteDir) (e : QString) :
    e ∈ relPathsList pre ds ↔ ∃ c ∈ ds, e ∈ relPaths pre c := by
  induction ds with
  | nil => simp [relPathsList]
  | cons d ds ih => simp [relPathsList, ih]

theorem mem_relPaths (pre : QString) (d : RemoteDir) (e : QString) :
    e ∈ relPaths pre d ↔
      e = pre ++ d.name ∨ e ∈ relPathsList (pre ++ d.name ++ ['/']) d.subdirs := by
  cases d
  simp [relPaths]

mutual
theorem relPaths_atOrBelow :
    ∀ (d : RemoteDir) (pre e : QString), e ∈ relPaths pre d → atOrBelow (pre ++ d.name) e
  | RemoteDir.mk name subdirs, pre, e, he => by
    simp only [relPaths, List.mem_cons] at he
    rcases he with he | he
    · left; exact he
    · obtain ⟨c, _, hc⟩ := relPathsList_atOrBelow subdirs (pre ++ name ++ ['/']) e he
      right
      rcases hc with h | ⟨u, h⟩
      · exact ⟨c.name, by rw [h]; simp⟩
      · exact ⟨c.name ++ '/' :: u, by rw [h]; simp⟩
theorem relPathsList_atOrBelow :
    ∀ (ds : List RemoteDir) (pre e : QString), e ∈ relPathsList pre ds →
      ∃ c ∈ ds, atOrBelow (pre ++ c.name) e
  | [], _, e, he => by simp [relPathsList] at he
  | d :: ds, pre, e, he => by
    simp only [relPathsList, List.mem_append] at he
    rcases he with he | he
    · exact ⟨d, by simp, relPaths_atOrBelow d pre e he⟩
    · obtain ⟨c, hc, h⟩ := relPathsList_atOrBelow ds pre e he
      exact ⟨c, by simp [hc], h⟩
end

/-- An entry that continues the path of a directory with a `/` and is the path of
some remote directory is the path of a directory below that one. -/
theorem mem_relPathsList_subdirs (pre : QString) (ds : List RemoteDir) (d : RemoteDir)
    (hok : RemoteDir.namesOKList ds = true) (hnodup : (ds.map RemoteDir.name).Nodup)
    (hd : d ∈ ds) (e u : QString) (he : e ∈ relPathsList pre ds)
    (heq : e = pre ++ d.name ++ ['/'] ++ u) :
    e ∈ relPathsList (pre ++ d.name ++ ['/']) d.subdirs := by
  obtain ⟨c, hc, hec⟩ := (mem_relPathsList pre ds e).mp he
  have hcb := relPaths_atOrBelow c pre e hec
  have hnames : d.name = c.name := by
    obtain ⟨z, hz, hez⟩ : ∃ z, (z = [] ∨ ∃ w, z = '/' :: w) ∧ e = pre ++ c.name ++ z := by
      rcases hcb with h | ⟨w, h⟩
      · exact ⟨[], Or.inl rfl, by simp [h]⟩
      · exact ⟨'/' :: w, Or.inr ⟨w, rfl⟩, h⟩
    have e1 : c.name ++ z = d.name ++ '/' :: u := by
      have : pre ++ (c.name ++ z) = pre ++ (d.name ++ '/' :: u) := by
        rw [← List.append_assoc, ← hez, heq]; simp
      exact List.append_cancel_left this
    exact text_eq_of_append_slash d.name c.name z u
      (namesOK_name d ((namesOKList_iff ds).mp hok d hd))
      (namesOK_name c ((namesOKList_iff ds).mp hok c hc)) hz e1
  have hcd : c = d := List.inj_on_of_nodup_map hnodup hc hd hnames.symm
  subst hcd
  rcases (mem_relPaths pre c e).mp hec with h | h
  · exfalso
    have := congrArg List.length (h.symm.trans heq)
    simp at this
  · exact h

/-- A path strictly above `r/n`, where `n` has no `/`, is `r` or strictly above `r`. -/
theorem strictlyBelow_child (p r n : QString) (hn : '/' ∉ n)
    (h : strictlyBelow p (r ++ ['/'] ++ n) = true) : p = r ∨ strictlyBelow p r = true := by
  obtain ⟨w, hw⟩ := (strictlyBelow_iff p _).mp h
  -- compare the two prefixes `p ++ "/"` and `r ++ "/"` of the same string
  have h1 : (p ++ ['/']) <+: (r ++ ['/'] ++ n) := ⟨w, by rw [hw]; simp⟩
  have h2 : (r ++ ['/']) <+: (r ++ ['/'] ++ n) := ⟨n, rfl⟩
  rcases List.prefix_or_prefix_of_prefix h1 h2 with h3 | h3
  · obtain ⟨x, hx⟩ := h3
    rcases List.eq_nil_or_concat x with hx0 | ⟨x', c, hx'⟩
    · subst hx0
      left
      simpa using hx
    · right
      subst hx'
      rw [List.concat_eq_append] at hx
      rw [strictlyBelow_iff]
      refine ⟨x', ?_⟩
      have : p ++ ['/'] ++ x' ++ [c] = r ++ ['/'] := by
        rw [← hx]; simp
      have := List.append_inj_left' this rfl
      rw [← this]; simp
  · obtain ⟨x, hx⟩ := h3
    rcases List.eq_nil_or_concat x with hx0 | ⟨x', c, hx'⟩
    · subst hx0
      left
      have : p ++ ['/'] = r ++ ['/'] := by simpa using hx.symm
      exact List.append_cancel_right this
    · exfalso
      subst hx'
      rw [List.concat_eq_append] at hx
      have hc : c = '/' := by
        have : r ++ ['/'] ++ x' ++ [c] = p ++ ['/'] := by rw [← hx]; simp
        have := List.append_inj_right' this rfl
        simpa using this
      subst hc
      have hpre : (r ++ ['/'] ++ (x' ++ ['/'])) <+: (r ++ ['/'] ++ n) := by
        rw [hx]; exact h1
      have := (List.prefix_append_right_inj (r ++ ['/'])).mp hpre
      obtain ⟨y, hy⟩ := this
      apply hn
      rw [← hy]
      simp

theorem strictlyBelow_append_slash (r u : QString) : strictlyBelow r (r ++ '/' :: u) = true :=
  (strictlyBelow_iff r _).mpr ⟨u, rfl⟩

theorem entriesKnown_subdirs (oldBlackList : List QString) (pre : QString)
    (ds : List RemoteDir) (hok : RemoteDir.namesOKList ds = true)
    (hnodup : (ds.map RemoteDir.name).Nodup) (h : entriesKnown oldBlackList pre ds)
    (d : RemoteDir) (hd : d ∈ ds) :
    entriesKnown oldBlackList (pre ++ d.name ++ ['/']) d.subdirs := by
  rintro e he ⟨u, hu⟩
  apply mem_relPathsList_subdirs pre ds d hok hnodup hd e u _ hu
  exact h e he ⟨d.name ++ ['/'] ++ u, by rw [hu]; simp⟩

mutual
theorem mem_createBlackList_seededItem (oldBlackList : List QString) :
    ∀ (d : RemoteDir) (pre : QString), d.namesOK = true →
      entriesKnown oldBlackList (pre ++ d.name ++ ['/']) d.subdirs →
      (∀ p ∈ oldBlackList, strictlyBelow p (pre ++ d.name) = false) →
      ∀ e, e ∈ createBlackList oldBlackList (seededItem oldBlackList PartiallyChecked pre d) ↔
        (e ∈ oldBlackList ∧ atOrBelow (pre ++ d.name) e ∧ topmostIn oldBlackList e)
  | RemoteDir.mk name subdirs, pre, hok, hknown, hanc, e => by
    rw [namesOK_mk_iff] at hok
    simp only [RemoteDir.name_mk, RemoteDir.subdirs_mk] at hknown hanc ⊢
    simp only [seededItem]
    rw [initialCheckState_underPartially]
    by_cases hr : pre ++ name ∈ oldBlackList
    · rw [if_pos hr]
      simp only [createBlackList, List.mem_singleton]
      constructor
      · rintro rfl
        exact ⟨hr, Or.inl rfl, hanc⟩
      · rintro ⟨_, hbelow, htop⟩
        rcases hbelow with h | ⟨u, h⟩
        · exact h
        · exfalso
          have := htop _ hr
          rw [h, strictlyBelow_append_slash] at this
          cases this
    · rw [if_neg hr]
      by_cases hex : ∃ e0 ∈ oldBlackList, strictlyBelow (pre ++ name) e0 = true
      · rw [if_pos hex]
        have hsub : subdirs ≠ [] := by
          rintro rfl
          obtain ⟨e0, he0, hb⟩ := hex
          obtain ⟨u, hu⟩ := (strictlyBelow_iff _ _).mp hb
          have := hknown e0 he0 ⟨u, by rw [hu]; simp⟩
          simp [relPathsList] at this
        have hne : (seededList oldBlackList PartiallyChecked (pre ++ name ++ ['/'])
            subdirs).isEmpty = false := by
          rw [seededList_eq_map]
          cases subdirs with
          | nil => exact absurd rfl hsub
          | cons c cs => rfl
        simp only [createBlackList, hne, Bool.false_eq_true, if_false]
        rw [mem_createBlackListChildren_seededList oldBlackList subdirs (pre ++ name ++ ['/'])
          hok.2.2
          (fun c hc => entriesKnown_subdirs oldBlackList _ subdirs hok.2.2 hok.2.1 hknown c hc)
          (fun c hc p hp => by
            rw [Bool.eq_false_iff]
            intro h
            rcases strictlyBelow_child p (pre ++ name) c.name
              (namesOK_name c ((namesOKList_iff subdirs).mp hok.2.2 c hc)) h with h' | h'
            · exact hr (h' ▸ hp)
            · rw [hanc p hp] at h'; cases h')]
        constructor
        · rintro ⟨he, ⟨c, _, hc⟩, htop⟩
          refine ⟨he, Or.inr ?_, htop⟩
          rcases hc with h | ⟨u, h⟩
          · exact ⟨c.name, by rw [h]; simp⟩
          · exact ⟨c.name ++ '/' :: u, by rw [h]; simp⟩
        · rintro ⟨he, hbelow, htop⟩
          refine ⟨he, ?_, htop⟩
          rcases hbelow with h | ⟨u, h⟩
          · exact absurd (h ▸ he) hr
          · exact relPathsList_atOrBelow subdirs _ e (hknown e he ⟨u, by rw [h]; simp⟩)
      · rw [if_neg hex]
        simp only [createBlackList, List.not_mem_nil, false_iff, not_and]
        intro he hbelow
        exfalso
        rcases hbelow with h | ⟨u, h⟩
        · exact hr (h ▸ he)
        · exact hex ⟨e, he, by rw [h]; exact strictlyBelow_append_slash _ _⟩
theorem mem_createBlackListChildren_seededList (oldBlackList : List QString) :
    ∀ (ds : List RemoteDir) (pre : QString), RemoteDir.namesOKList ds = true →
      (∀ d ∈ ds, entriesKnown oldBlackList (pre ++ d.name ++ ['/']) d.subdirs) →
      (∀ d ∈ ds, ∀ p ∈ oldBlackList, strictlyBelow p (pre ++ d.name) = false) →
      ∀ e, e ∈ createBlackListChildren oldBlackList
          (seededList oldBlackList PartiallyChecked pre ds) ↔
        (e ∈ oldBlackList ∧ (∃ c ∈ ds, atOrBelow (pre ++ c.name) e) ∧ topmostIn oldBlackList e)
  | [], _, _, _, _, e => by simp [seededList, createBlackListChildren]
  | d :: ds, pre, hok, hknown, hanc, e => by
    simp only [RemoteDir.namesOKList, Bool.and_eq_true] at hok
    simp only [seededList, createBlackListChildren, List.mem_append]
    rw [mem_createBlackList_seededItem oldBlackList d pre hok.1 (hknown d (by simp))
        (hanc d (by simp)),
      mem_createBlackListChildren_seededList oldBlackList ds pre hok.2
        (fun c hc => hknown c (by simp [hc])) (fun c hc => hanc c (by simp [hc]))]
    constructor
    · rintro (⟨he, hb, ht⟩ | ⟨he, ⟨c, hc, hb⟩, ht⟩)
      · exact ⟨he, ⟨d, by simp, hb⟩, ht⟩
      · exact ⟨he, ⟨c, by simp [hc], hb⟩, ht⟩
    · rintro ⟨he, ⟨c, hc, hb⟩, ht⟩
      rcases List.mem_cons.mp hc with rfl | hc'
      · exact Or.inl ⟨he, hb, ht⟩
      · exact Or.inr ⟨he, ⟨c, hc', hb⟩, ht⟩
end

theorem mem_collapsed (oldBlackList : List QString) (e : QString) :
    e ∈ collapsed oldBlackList ↔ e ∈ oldBlackList ∧ topmostIn oldBlackList e := by
  simp [collapsed, topmostIn]

/-- The black list of the tree that a full expansion builds. -/
theorem mem_createBlackList_seededRoot (v : SelectiveSyncTreeView) (dirs : List RemoteDir)
    (hok : remoteOK dirs = true)
    (hknown : ∀ e ∈ v.oldBlackList, e ∈ relPathsList [] dirs) (e : QString) :
    e ∈ createBlackList v.oldBlackList (seededRoot v dirs) ↔ e ∈ collapsed v.oldBlackList := by
  simp only [remoteOK, Bool.and_eq_true, decide_eq_true_eq] at hok
  rw [mem_collapsed]
  unfold seededRoot
  cases hP : v.oldBlackList with
  | nil => simp [createBlackList]
  | cons p0 ps =>
    rw [← hP]
    have hemp : v.oldBlackList.isEmpty = false := by rw [hP]; rfl
    simp only [hemp, Bool.false_eq_true, if_false]
    have hdirs : dirs ≠ [] := by
      rintro rfl
      have := hknown p0 (by rw [hP]; simp)
      simp [relPathsList] at this
    have hne : (seededList v.oldBlackList PartiallyChecked [] dirs).isEmpty = false := by
      rw [seededList_eq_map]
      cases dirs with
      | nil => exact absurd rfl hdirs
      | cons c cs => rfl
    simp only [createBlackList, hne, Bool.false_eq_true, if_false]
    have hk : entriesKnown v.oldBlackList [] dirs := fun e he _ => hknown e he
    rw [mem_createBlackListChildren_seededList v.oldBlackList dirs [] hok.2
      (fun c hc => entriesKnown_subdirs v.oldBlackList [] dirs hok.2 hok.1 hk c hc)
      (fun c hc p _ => by
        rw [Bool.eq_false_iff]
        intro h
        obtain ⟨w, hw⟩ := (strictlyBelow_iff p _).mp h
        apply namesOK_name c ((namesOKList_iff dirs).mp hok.2 c hc)
        have : c.name = p ++ '/' :: w := by simpa using hw
        rw [this]; simp)]
    constructor
    · rintro ⟨he, _, ht⟩
      exact ⟨he, ht⟩
    · rintro ⟨he, ht⟩
      exact ⟨he, relPathsList_atOrBelow dirs [] e (hknown e he), ht⟩

/-- C2 (as stated, refuted): the old black list is `b`, a directory that is no
longer on the server; the remote folder has the single subdirectory `a`. After
the listing of the folder and the expansion of `a`, with no toggle,
`createBlackList()` returns the empty list, whereas the old black list with its
nested entries collapsed is `b`. -/
theorem C2_entry_of_missing_directory_lost :
    createBlackListTop (fullyExpanded goneView goneRemote) = [] ∧
    collapsed goneView.oldBlackList = [['b']] ∧
    ¬ (∀ e, e ∈ createBlackListTop (fullyExpanded goneView goneRemote) ↔
        e ∈ collapsed goneView.oldBlackList) := by
  refine ⟨by decide, by decide, ?_⟩
  intro h
  have h1 : ['b'] ∈ collapsed goneView.oldBlackList := by decide
  have h2 := (h ['b']).mpr h1
  revert h2
  decide

/-- C2 (amended): the remote names contain no `/` and differ among the
subdirectories of one directory, every entry of the old black list is the path
of a remote directory, and the prefix removed from the listing entries occurs
in them at their start only. Then, after the listing of the folder and the
expansion of every item in an empty view with no toggle, the paths returned by
`createBlackList()` are exactly the entries of the old black list that are not
strictly below another entry. -/
theorem C2_round_trip_after_full_expansion (v : SelectiveSyncTreeView)
    (dirs : List RemoteDir) (hfresh : v.topLevelItem = none) (hnames : remoteOK dirs = true)
    (hknown : ∀ e ∈ v.oldBlackList, e ∈ relPathsList [] dirs)
    (hstart : ∀ s ∈ allListings (pathToRemove v) dirs,
      removeAll (pathToRemove v) s = s.drop (pathToRemove v).length) :
    ∀ e, e ∈ createBlackListTop (fullyExpanded v dirs) ↔ e ∈ collapsed v.oldBlackList := by
  intro e
  rw [fullyExpanded_eq_seededRoot v dirs hfresh hnames hstart]
  exact mem_createBlackList_seededRoot v dirs hnames hknown e

/-- C2 witness: the old black list `a`, `a/x`, `b/y` on the remote folder
`demoRemote`. -/
theorem C2_round_trip_after_full_expansion_witness :
    demoView.topLevelItem = none ∧ remoteOK demoRemote = true ∧
    (∀ e ∈ demoView.oldBlackList, e ∈ relPathsList [] demoRemote) ∧
    (∀ s ∈ allListings (pathToRemove demoView) demoRemote,
      removeAll (pathToRemove demoView) s = s.drop (pathToRemove demoView).length) ∧
    ∀ e, e ∈ createBlackListTop (fullyExpanded demoView demoRemote) ↔
      e ∈ collapsed demoView.oldBlackList :=
  ⟨rfl, by decide, by decide, by decide,
    C2_round_trip_after_full_expansion demoView demoRemote rfl (by decide) (by decide)
      (by decide)⟩

theorem checkStateAt_isSome_of_append {t : Item} {r q : ItemRef} {s : CheckState}
    (h : checkStateAt t (r ++ q) = some s) : ∃ s', checkStateAt t q = some s' := by
  unfold checkStateAt at h ⊢
  rw [itemAt_append] at h
  cases hq : itemAt t q with
  | none => simp [hq] at h
  | some y => exact ⟨y.checkState, rfl⟩

theorem stepState_unchecked_of_all (sp : CheckState) (cs : List CheckState)
    (h : ∀ c ∈ cs, c = Unchecked) : stepState Unchecked sp cs = Unchecked := by
  unfold stepState
  have hany : cs.any (fun c => c != Unchecked) = false := (any_ne_false_iff cs Unchecked).mpr h
  by_cases hsp : sp = Unchecked
  · simp [hsp]
  · simp [hsp, hany]

theorem stepState_of_partially (s : CheckState) (cs : List CheckState)
    (hs : s = Unchecked ∨ s = PartiallyChecked) (h : ∃ c ∈ cs, c ≠ Unchecked) :
    stepState s PartiallyChecked cs = PartiallyChecked := by
  unfold stepState
  rcases hs with rfl | rfl
  · have hany : cs.any (fun c => c != Unchecked) = true := by
      obtain ⟨c, hc, hne⟩ := h
      exact List.any_eq_true.mpr ⟨c, hc, by simpa using hne⟩
    simp [hany, CheckState.opposite]
  · simp

theorem stepState_mem (s sp : CheckState) (cs : List CheckState)
    (hs : s = Unchecked ∨ s = PartiallyChecked) (hne : stepState s sp cs ≠ sp) :
    stepState s sp cs = Unchecked ∨ stepState s sp cs = PartiallyChecked := by
  unfold stepState at hne ⊢
  rcases hs with rfl | rfl
  · simp only [reduceCtorEq, if_false] at hne ⊢
    split_ifs at hne ⊢ <;> simp_all
  · simp

/-- What the upward cascade started by a toggle to `Unchecked` does to the
top-level item. -/
theorem cascadeUp_root (p : ItemRef) (hp : p ≠ []) (s : CheckState)
    (hs : s = Unchecked ∨ s = PartiallyChecked) (t : Item) (hv : checkStateAt t p = some s)
    (hbetween : ∀ q, q ≠ [] → q ≠ p → q <:+ p → checkStateAt t q ≠ some Unchecked) :
    ((∀ j sj, checkStateAt (cascadeUp p s t) [j] = some sj → sj = Unchecked) →
        checkStateAt (cascadeUp p s t) [] = some Unchecked) ∧
      (checkStateAt t [] = some PartiallyChecked →
        (∃ j sj, checkStateAt (cascadeUp p s t) [j] = some sj ∧ sj ≠ Unchecked) →
        checkStateAt (cascadeUp p s t) [] = some PartiallyChecked) := by
  induction p generalizing s t with
  | nil => exact absurd rfl hp
  | cons i pp ih =>
    obtain ⟨sp, hsp⟩ := checkStateAt_parent_isSome hv
    by_cases hpp : pp = []
    · subst hpp
      have hcs : childStates (cascadeUp [i] s t) [] = childStates t [] :=
        childStates_cascadeUp _ _ _ _ (by simp)
      have hroot := checkStateAt_cascadeUp_parent i [] s sp t hsp
      have hmem : ∀ c, c ∈ childStates t [] ↔ ∃ j, checkStateAt (cascadeUp [i] s t) [j] = some c := by
        intro c
        rw [← hcs]
        constructor
        · intro hc
          obtain ⟨j, hj, rfl⟩ := List.getElem_of_mem hc
          exact ⟨j, by rw [← childStates_getElem?, List.getElem?_eq_getElem hj]⟩
        · rintro ⟨j, hj⟩
          rw [← childStates_getElem?] at hj
          exact List.getElem?_mem hj
      refine ⟨?_, ?_⟩
      · intro hall
        have hallcs : ∀ c ∈ childStates t [], c = Unchecked := by
          intro c hc
          obtain ⟨j, hj⟩ := (hmem c).mp hc
          exact hall j c hj
        have hsU : s = Unchecked := by
          apply hallcs
          have : (childStates t [])[i]? = some s := by rw [childStates_getElem?, hv]
          exact List.getElem?_mem this
        rw [hroot, hsU, stepState_unchecked_of_all sp _ hallcs]
      · intro hwas hex
        rw [hsp] at hwas
        cases hwas
        obtain ⟨j, sj, hj, hne⟩ := hex
        rw [hroot, stepState_of_partially s _ hs ⟨sj, (hmem sj).mpr ⟨j, hj⟩, hne⟩]
    · rw [cascadeUp_cons i pp s sp t hsp]
      split_ifs with hX
      · refine ⟨?_, fun hwas _ => hwas⟩
        intro hall
        exfalso
        -- the child of the top-level item on the way to the item is not `Unchecked`
        obtain ⟨r, c, hr⟩ : ∃ r c, pp = r ++ [c] := by
          rcases List.eq_nil_or_concat pp with h | ⟨r, c, h⟩
          · exact absurd h hpp
          · exact ⟨r, c, by rw [h, List.concat_eq_append]⟩
        have hsuf : [c] <:+ (i :: pp) := ⟨i :: r, by rw [hr]; simp⟩
        have hcne : [c] ≠ i :: pp := by
          intro e
          have := congrArg List.length e
          rw [hr] at this
          simp at this
        have hcU := hbetween [c] (by simp) hcne hsuf
        obtain ⟨sc, hsc⟩ : ∃ sc, checkStateAt t [c] = some sc := by
          have : checkStateAt t ((i :: r) ++ [c]) = some s := by
            rw [← hv, hr]; simp
          exact checkStateAt_isSome_of_append this
        have := hall c sc hsc
        rw [hsc, this] at hcU
        exact hcU rfl
      · have hXs := stepState_mem s sp (childStates t pp) hs hX
        have hroot0 : checkStateAt (storeCheckState t pp (stepState s sp (childStates t pp))) [] =
            checkStateAt t [] :=
          checkStateAt_storeCheckState_ne _ _ _ _ (fun e => hpp e.symm)
        have := ih hpp _ hXs (storeCheckState t pp (stepState s sp (childStates t pp)))
          (by rw [checkStateAt_storeCheckState_self, hsp]; rfl)
          (by
            intro q hq hqpp hsuf
            rw [checkStateAt_storeCheckState_ne _ _ _ _ hqpp]
            exact hbetween q hq
              (fun e => by
                have := hsuf.length_le
                rw [e] at this
                simp at this)
              (hsuf.trans (List.suffix_cons i pp)))
        rw [hroot0] at this
        exact this


theorem checkStateAt_propagated_top_child (t : Item) (p : ItemRef) (hp : p ≠ [])
    (s : CheckState) (j : Nat) :
    checkStateAt (propagated t p s) [j] = checkStateAt (cascadeUp p s t) [j] := by
  by_cases h : p <:+ [j]
  · rcases List.suffix_cons_iff.mp h with e | h'
    · rw [e, checkStateAt_propagated_self, checkStateAt_cascadeUp_self]
    · exact absurd (List.suffix_nil.mp h') hp
  · exact checkStateAt_propagated_off t p s _ h

/-- C8: the user toggles an item below the top-level item to `Unchecked`
(Excluded); no item strictly between the two is `Unchecked` before the toggle
(nothing to check for a child of the top-level item; in a reachable tree this
holds for every toggle that changes the item, because everything below an
`Unchecked` item is `Unchecked`). If afterwards all children of the top-level
item are `Unchecked`, the top-level item is `Unchecked` and `createBlackList`
returns exactly the one-element list of its stored path. If afterwards some
child is not `Unchecked` and the top-level item was `PartiallyChecked`, it stays
`PartiallyChecked`. -/
theorem C8_root_excluded_once_all_children_excluded (oldBlackList : List QString) (t : Item)
    (p : ItemRef) (hp : p ≠ []) (hvalid : (itemAt t p).isSome = true)
    (hbetween : ∀ q ∈ p.tails, q ≠ [] → q ≠ p → checkStateAt t q ≠ some Unchecked) :
    ∃ t', userToggle t p Unchecked = some t' ∧
      ((∀ c ∈ t'.children, c.checkState = Unchecked) →
        t'.checkState = Unchecked ∧ createBlackList oldBlackList t' = [t.data]) ∧
      ((∃ c ∈ t'.children, c.checkState ≠ Unchecked) → t.checkState = PartiallyChecked →
        t'.checkState = PartiallyChecked) := by
  obtain ⟨y, hy⟩ := Option.isSome_iff_exists.mp hvalid
  refine ⟨_, userToggle_eq t p Unchecked y hy, ?_⟩
  generalize ht0 : storeCheckState t p Unchecked = t0
  have hv0 : checkStateAt t0 p = some Unchecked := by
    rw [← ht0, checkStateAt_storeCheckState_self]
    simp [checkStateAt, hy]
  have hroot0 : checkStateAt t0 [] = some t.checkState := by
    rw [← ht0, checkStateAt_storeCheckState_ne _ _ _ _ (fun e => hp e.symm)]; rfl
  have hdata : (propagated t0 p Unchecked).data = t.data := by
    rw [propagated_data, ← ht0, storeCheckState_data]
  have hstate : some (propagated t0 p Unchecked).checkState =
      checkStateAt (cascadeUp p Unchecked t0) [] := by
    rw [← checkStateAt_propagated_off _ _ _ _ (fun h => hp (List.suffix_nil.mp h))]; rfl
  have hchildren : ∀ c, c ∈ (propagated t0 p Unchecked).children.map Item.checkState ↔
      ∃ j, checkStateAt (cascadeUp p Unchecked t0) [j] = some c := by
    intro c
    have e : (propagated t0 p Unchecked).children.map Item.checkState =
        childStates (propagated t0 p Unchecked) [] := rfl
    rw [e]
    constructor
    · intro hc
      obtain ⟨j, hj, rfl⟩ := List.getElem_of_mem hc
      exact ⟨j, by
        rw [← checkStateAt_propagated_top_child _ _ hp, ← childStates_getElem?,
          List.getElem?_eq_getElem hj]⟩
    · rintro ⟨j, hj⟩
      rw [← checkStateAt_propagated_top_child _ _ hp, ← childStates_getElem?] at hj
      exact List.getElem?_mem hj
  have hcascade := cascadeUp_root p hp Unchecked (Or.inl rfl) t0 hv0 (by
    intro q hq hqp hsuf
    rw [← ht0, checkStateAt_storeCheckState_ne _ _ _ _ hqp]
    exact hbetween q ((List.mem_tails _ _).mpr hsuf) hq hqp)
  refine ⟨?_, ?_⟩
  · intro hall
    have hU : (propagated t0 p Unchecked).checkState = Unchecked := by
      apply Option.some.inj
      rw [hstate]
      apply hcascade.1
      intro j sj hj
      obtain ⟨c, hc, hcs⟩ := List.mem_map.mp ((hchildren sj).mpr ⟨j, hj⟩)
      rw [← hcs]; exact hall c hc
    exact ⟨hU, by rw [createBlackList_of_unchecked _ _ hU, hdata]⟩
  · rintro ⟨c, hc, hne⟩ hwas
    apply Option.some.inj
    rw [hstate]
    apply hcascade.2 (by rw [hroot0, hwas])
    obtain ⟨j, hj⟩ := (hchildren c.checkState).mp (List.mem_map.mpr ⟨c, hc, rfl⟩)
    exact ⟨j, c.checkState, hj, hne⟩

/-- C8 witness: in `treeABC`, where `a` and `b` are excluded already, the child
`c` is toggled to `Unchecked`. -/
theorem C8_root_excluded_once_all_children_excluded_witness :
    ([2] : ItemRef) ≠ [] ∧ (itemAt treeABC [2]).isSome = true ∧
    (∀ q ∈ ([2] : ItemRef).tails, q ≠ [] → q ≠ [2] →
      checkStateAt treeABC q ≠ some Unchecked) ∧
    ∃ t', userToggle treeABC [2] Unchecked = some t' ∧
      ((∀ c ∈ t'.children, c.checkState = Unchecked) →
        t'.checkState = Unchecked ∧ createBlackList [['a']] t' = [treeABC.data]) ∧
      ((∃ c ∈ t'.children, c.checkState ≠ Unchecked) →
        treeABC.checkState = PartiallyChecked → t'.checkState = PartiallyChecked) :=
  ⟨by decide, by decide, by decide,
    C8_root_excluded_once_all_children_excluded [['a']] treeABC [2] (by decide) (by decide)
      (by decide)⟩

theorem getDown_cons_mk (i : Nat) (rest : List Nat) (text data : QString) (state : CheckState)
    (children : List Item) :
    getDown (i :: rest) (Item.mk text data state children) =
      (children[i]?).bind (getDown rest) := by
  simp only [getDown, Item.children_mk]
  cases children[i]? <;> rfl

/-- The insertion of one entry keeps every existing item where it is and keeps
its state. -/
theorem getDown_recursiveInsert (oldBlackList : List QString) (pathTrail : List QString)
    (path : QString) (x : Item) (q : List Nat) (y : Item) (hy : getDown q x = some y) :
    ∃ y', getDown q (recursiveInsert oldBlackList pathTrail path x) = some y' ∧
      y'.checkState = y.checkState := by
  induction pathTrail generalizing x q y with
  | nil =>
    cases x with
    | mk text data state children =>
      cases q with
      | nil =>
        simp only [getDown, Option.some.injEq] at hy
        subst hy
        exact ⟨_, rfl, rfl⟩
      | cons i rest =>
        rw [getDown_cons_mk] at hy
        exact ⟨y, by simp only [recursiveInsert]; rw [getDown_cons_mk]; exact hy, rfl⟩
  | cons first rest ih =>
    cases x with
    | mk text data state children =>
      cases q with
      | nil =>
        simp only [getDown, Option.some.injEq] at hy
        subst hy
        exact ⟨_, rfl, (recursiveInsert_uniform _ _ _ _).1⟩
      | cons k q' =>
        rw [getDown_cons_mk] at hy
        cases hk : children[k]? with
        | none => rw [hk] at hy; cases hy
        | some c =>
          rw [hk, Option.some_bind] at hy
          cases hf : findFirstChild children first with
          | some j =>
            simp only [recursiveInsert, hf]
            rw [getDown_cons_mk]
            by_cases hjk : j = k
            · subst hjk
              rw [List.getElem?_modify_eq, hk]
              exact ih c q' y hy
            · rw [List.getElem?_modify_ne _ _ hjk, hk]
              exact ⟨y, hy, rfl⟩
          | none =>
            simp only [recursiveInsert, hf]
            rw [getDown_cons_mk]
            have hlt : k < children.length := by
              by_contra hge
              rw [List.getElem?_eq_none (Nat.le_of_not_lt hge)] at hk
              cases hk
            rw [List.getElem?_append_left hlt, hk]
            exact ⟨y, hy, rfl⟩

theorem getDown_leaf (q : List Nat) (i : Nat) (text data : QString) (state : CheckState) :
    getDown (q ++ [i]) (Item.mk text data state []) = none := by
  cases q <;> simp [getDown]

/-- An item that the insertion of one entry creates has the state that
`initialCheckState` derives from the state of its parent and the entry's path. -/
theorem getDown_recursiveInsert_new (oldBlackList : List QString) (pathTrail : List QString)
    (path : QString) (x : Item) (p : List Nat) (i : Nat) (c : Item)
    (hnew : getDown (p ++ [i]) x = none)
    (hc : getDown (p ++ [i]) (recursiveInsert oldBlackList pathTrail path x) = some c) :
    ∃ par, getDown p (recursiveInsert oldBlackList pathTrail path x) = some par ∧
      c.checkState = initialCheckState oldBlackList par.checkState path := by
  induction pathTrail generalizing x p with
  | nil =>
    cases x with
    | mk text data state children =>
      exfalso
      cases p with
      | nil =>
        simp only [List.nil_append, recursiveInsert] at hnew hc
        rw [getDown_cons_mk] at hnew hc
        rw [hnew] at hc; cases hc
      | cons k p' =>
        simp only [List.cons_append, recursiveInsert] at hnew hc
        rw [getDown_cons_mk] at hnew hc
        rw [hnew] at hc; cases hc
  | cons first rest ih =>
    cases x with
    | mk text data state children =>
      cases hf : findFirstChild children first with
      | some j =>
        simp only [recursiveInsert, hf] at hc ⊢
        cases p with
        | nil =>
          exfalso
          simp only [List.nil_append] at hnew hc
          rw [getDown_cons_mk] at hnew hc
          cases hi : children[i]? with
          | some ci => rw [hi] at hnew; simp [getDown] at hnew
          | none =>
            have hlen : children.length ≤ i := by
              by_contra hlt
              rw [List.getElem?_eq_getElem (Nat.lt_of_not_le hlt)] at hi
              cases hi
            rw [List.getElem?_eq_none (by simpa using hlen)] at hc
            cases hc
        | cons k p' =>
          simp only [List.cons_append] at hnew hc
          rw [getDown_cons_mk] at hnew hc ⊢
          by_cases hjk : j = k
          · subst hjk
            rw [List.getElem?_modify_eq] at hc ⊢
            cases hk : children[j]? with
            | none => rw [hk] at hc; cases hc
            | some cj =>
              rw [hk] at hnew hc
              simp only [Option.map_eq_map, Option.map_some', Option.some_bind] at hnew hc ⊢
              exact ih cj p' hnew hc
          · exfalso
            rw [List.getElem?_modify_ne _ _ hjk] at hc
            rw [hnew] at hc; cases hc
      | none =>
        simp only [recursiveInsert, hf] at hc ⊢
        cases p with
        | nil =>
          simp only [List.nil_append] at hnew hc
          rw [getDown_cons_mk] at hnew hc
          refine ⟨_, rfl, ?_⟩
          have hlen : children.length ≤ i := by
            by_contra hlt
            rw [List.getElem?_eq_getElem (Nat.lt_of_not_le hlt)] at hnew
            simp [getDown] at hnew
          rcases Nat.eq_or_lt_of_le hlen with e | hgt
          · subst e
            rw [getElem?_append_cons_length] at hc
            simp only [Option.some_bind, getDown, Option.some.injEq] at hc
            subst hc
            rw [(recursiveInsert_uniform _ _ _ _).1]
            rfl
          · rw [List.getElem?_eq_none (by simp; omega)] at hc
            cases hc
        | cons k p' =>
          simp only [List.cons_append] at hnew hc
          rw [getDown_cons_mk] at hnew hc ⊢
          rcases Nat.lt_trichotomy k children.length with hlt | e | hgt
          · exfalso
            rw [List.getElem?_append_left hlt] at hc
            rw [hnew] at hc; cases hc
          · subst e
            rw [getElem?_append_cons_length] at hc ⊢
            simp only [Option.some_bind] at hc ⊢
            exact ih _ p' (getDown_leaf _ _ _ _ _) hc
          · exfalso
            rw [List.getElem?_eq_none (by simp; omega)] at hc
            cases hc

theorem getDown_leaf_cons (k : Nat) (q : List Nat) (text data : QString) (state : CheckState) :
    getDown (k :: q) (Item.mk text data state []) = none := by
  simp [getDown]

/-- The item that the insertion of one entry creates for the last segment
stores the entry's path without its trailing `/`. -/
theorem getDown_recursiveInsert_final (oldBlackList : List QString) (pathTrail : List QString)
    (path : QString) (x : Item) (q : List Nat) (c : Item)
    (hnew : getDown q x = none)
    (hc : getDown q (recursiveInsert oldBlackList pathTrail path x) = some c)
    (hlen : q.length = pathTrail.length) : c.data = chopSlash path := by
  induction pathTrail generalizing x q with
  | nil =>
    have : q = [] := List.length_eq_zero.mp hlen
    subst this
    simp [getDown] at hnew
  | cons first rest ih =>
    cases q with
    | nil => simp at hlen
    | cons k q' =>
      have hlen' : q'.length = rest.length := by simpa using hlen
      cases x with
      | mk text data state children =>
        rw [getDown_cons_mk] at hnew
        cases hf : findFirstChild children first with
        | some j =>
          simp only [recursiveInsert, hf] at hc
          rw [getDown_cons_mk] at hc
          by_cases hjk : j = k
          · subst hjk
            rw [List.getElem?_modify_eq] at hc
            cases hk : children[j]? with
            | none => rw [hk] at hc; cases hc
            | some cj =>
              rw [hk] at hnew hc
              simp only [Option.map_eq_map, Option.map_some', Option.some_bind] at hnew hc
              exact ih cj q' hnew hc hlen'
          · rw [List.getElem?_modify_ne _ _ hjk, hnew] at hc
            cases hc
        | none =>
          simp only [recursiveInsert, hf] at hc
          rw [getDown_cons_mk] at hc
          rcases Nat.lt_trichotomy k children.length with hlt | e | hgt
          · rw [List.getElem?_append_left hlt, hnew] at hc
            cases hc
          · subst e
            rw [getElem?_append_cons_length] at hc
            simp only [Option.some_bind] at hc
            cases q' with
            | nil =>
              have : rest = [] := List.length_eq_zero.mp hlen'.symm
              subst this
              simp only [getDown, recursiveInsert, Option.some.injEq] at hc
              subst hc
              rfl
            | cons k' q'' => exact ih _ _ (getDown_leaf_cons _ _ _ _ _) hc hlen'
          · rw [List.getElem?_eq_none (by simp; omega)] at hc
            cases hc

theorem itemAt_cons_eq_getDown (t : Item) (i : Nat) (parent : ItemRef) :
    itemAt t (i :: parent) = getDown (parent.reverse ++ [i]) t := by
  simp [itemAt]

/-- The state of an item created by the insertion of one entry, through handles. -/
theorem itemAt_recursiveInsert_new (oldBlackList : List QString) (pathTrail : List QString)
    (path : QString) (x : Item) (i : Nat) (parent : ItemRef) (c : Item)
    (hnew : itemAt x (i :: parent) = none)
    (hc : itemAt (recursiveInsert oldBlackList pathTrail path x) (i :: parent) = some c) :
    ∃ s, checkStateAt (recursiveInsert oldBlackList pathTrail path x) parent = some s ∧
      c.checkState = initialCheckState oldBlackList s path := by
  rw [itemAt_cons_eq_getDown] at hnew hc
  obtain ⟨par, hpar, hst⟩ :=
    getDown_recursiveInsert_new oldBlackList pathTrail path x parent.reverse i c hnew hc
  exact ⟨par.checkState, by simp [checkStateAt, itemAt, hpar], hst⟩

/-- The state of an existing item survives the insertion of one entry, through handles. -/
theorem itemAt_recursiveInsert (oldBlackList : List QString) (pathTrail : List QString)
    (path : QString) (x : Item) (q : ItemRef) (y : Item) (hy : itemAt x q = some y) :
    ∃ y', itemAt (recursiveInsert oldBlackList pathTrail path x) q = some y' ∧
      y'.checkState = y.checkState :=
  getDown_recursiveInsert oldBlackList pathTrail path x q.reverse y hy

/-- C11: while one listing entry is inserted by `recursiveInsert`, an item that
did not exist before and is created below a parent in state `Checked`
(Included) is `Checked`, and one created below a parent in state `Unchecked`
(Excluded) is `Unchecked`, whatever `_oldBlackList` holds. The parent's state is
read after the insertion, which never changes a state once it is set. -/
theorem C11_new_item_inherits_full_state (oldBlackList : List QString)
    (pathTrail : List QString) (path : QString) (x : Item) (i : Nat) (parent : ItemRef)
    (c : Item) (s : CheckState) (hs : s = Checked ∨ s = Unchecked)
    (hnew : itemAt x (i :: parent) = none)
    (hc : itemAt (recursiveInsert oldBlackList pathTrail path x) (i :: parent) = some c)
    (hparent : checkStateAt (recursiveInsert oldBlackList pathTrail path x) parent = some s) :
    c.checkState = s := by
  obtain ⟨s', hs', hst⟩ :=
    itemAt_recursiveInsert_new oldBlackList pathTrail path x i parent c hnew hc
  rw [hparent] at hs'
  cases hs'
  rw [hst]
  apply initialCheckState_of_fully
  rcases hs with h | h <;> rw [h] <;> simp

/-- C11 witness: the folder is `Checked` and has the child `b`; the entry `a/` is
inserted while the old black list holds `a`. The new item `a` is `Checked`. -/
theorem C11_new_item_inherits_full_state_witness :
    (Checked = Checked ∨ Checked = Unchecked) ∧
    itemAt (Item.mk ['r'] ['f'] Checked [Item.mk ['b'] ['b'] Checked []]) [1] = none ∧
    itemAt (recursiveInsert [['a']] [['a']] ['a', '/']
      (Item.mk ['r'] ['f'] Checked [Item.mk ['b'] ['b'] Checked []])) [1] =
        some (Item.mk ['a'] ['a'] Checked []) ∧
    checkStateAt (recursiveInsert [['a']] [['a']] ['a', '/']
      (Item.mk ['r'] ['f'] Checked [Item.mk ['b'] ['b'] Checked []])) [] = some Checked ∧
    (Item.mk ['a'] ['a'] Checked []).checkState = Checked :=
  ⟨Or.inl rfl, rfl, rfl, rfl,
    C11_new_item_inherits_full_state [['a']] [['a']] ['a', '/']
      (Item.mk ['r'] ['f'] Checked [Item.mk ['b'] ['b'] Checked []]) 1 []
      (Item.mk ['a'] ['a'] Checked []) Checked (Or.inl rfl) rfl rfl rfl⟩

/-- C12, as stated, fails. (1) With the old black list `a/x` the new item `a`
below a `PartiallyChecked` folder becomes `PartiallyChecked`: the entry lies
below the item, it is no prefix of the item's path `a`, for which the rule in
the words of the specification gives `Checked`. (2) With the old black list
`a/b` the entry `a/b/` creates the intermediate item `a` in state `Unchecked`,
with no path stored: it is seeded with the path of the whole entry, whereas the
test on its own path `a/` gives `PartiallyChecked` and the rule in the words of
the specification gives `Checked`. (3) With the old black list holding the
string `a/` the new item `a` is `PartiallyChecked`, not `Unchecked`: entries
are compared without a trailing `/`. (4) With the old black list `a` a listing
entry `a` that lacks the trailing `/` creates the item `a` in state
`PartiallyChecked`, not `Unchecked`, although it stores the path `a`. -/
theorem C12_seeding_differs_from_stated_rule :
    (itemAt (recursiveInsert [['a', '/', 'x']] [['a']] ['a', '/'] unlistedFolder) [0] =
        some (Item.mk ['a'] ['a'] PartiallyChecked []) ∧
      seedPerSpec [['a', '/', 'x']] ['a'] = Checked ∧
      startsWith ['a'] ['a', '/', 'x'] = false) ∧
    (itemAt (recursiveInsert [['a', '/', 'b']] [['a'], ['b']] ['a', '/', 'b', '/']
        unlistedFolder) [0] =
        some (Item.mk ['a'] [] Unchecked [Item.mk ['b'] ['a', '/', 'b'] Unchecked []]) ∧
      seedPerSpec [['a', '/', 'b']] ['a'] = Checked ∧
      initialCheckState [['a', '/', 'b']] PartiallyChecked ['a', '/'] = PartiallyChecked) ∧
    itemAt (recursiveInsert [['a', '/']] [['a']] ['a', '/'] unlistedFolder) [0] =
      some (Item.mk ['a'] ['a'] PartiallyChecked []) ∧
    itemAt (recursiveInsert [['a']] [['a']] ['a'] unlistedFolder) [0] =
      some (Item.mk ['a'] ['a'] PartiallyChecked []) :=
  ⟨⟨rfl, by decide, by decide⟩, ⟨rfl, by decide, by decide⟩, rfl, rfl⟩

/-- C12, amended: while the listing entry with the path `d/` is inserted by
`recursiveInsert`, the item that did not exist before and is created for the
last segment below a `PartiallyChecked` parent stores the path `d` and is
`Unchecked` (Excluded) if `d` is an entry of `_oldBlackList`, wherever it stands
in the list; else `PartiallyChecked` if some entry starts with `d/`, that is,
lies below the item; else `Checked` (Included). -/
theorem C12_new_item_under_partially_checked (oldBlackList : List QString)
    (pathTrail : List QString) (d : QString) (x : Item) (i : Nat) (parent : ItemRef)
    (c : Item)
    (hnew : itemAt x (i :: parent) = none)
    (hc : itemAt (recursiveInsert oldBlackList pathTrail (d ++ ['/']) x) (i :: parent) = some c)
    (hfinal : pathTrail.length = parent.length + 1)
    (hparent : checkStateAt (recursiveInsert oldBlackList pathTrail (d ++ ['/']) x) parent =
      some PartiallyChecked) :
    c.data = d ∧
      c.checkState =
        if d ∈ oldBlackList then Unchecked
        else if ∃ e ∈ oldBlackList, strictlyBelow d e = true then PartiallyChecked
        else Checked := by
  constructor
  · have := getDown_recursiveInsert_final oldBlackList pathTrail (d ++ ['/']) x
      (i :: parent).reverse c hnew hc (by simp [hfinal])
    rw [this, chopSlash_append_slash]
  · obtain ⟨s', hs', hst⟩ :=
      itemAt_recursiveInsert_new oldBlackList pathTrail (d ++ ['/']) x i parent c hnew hc
    rw [hparent] at hs'
    cases hs'
    rw [hst, initialCheckState_underPartially]

/-- C12 witness: the scenario of the specification with the old black list `a`.
The entry `a/` creates the item `a` below the `PartiallyChecked` folder in state
`Unchecked`; after the whole listing `a` is `Unchecked`, `b` and `c` are
`Checked`. -/
theorem C12_new_item_under_partially_checked_witness :
    itemAt unlistedFolder [0] = none ∧
    itemAt (recursiveInsert [['a']] [['a']] (['a'] ++ ['/']) unlistedFolder) [0] =
      some (Item.mk ['a'] ['a'] Unchecked []) ∧
    [['a']].length = ([] : ItemRef).length + 1 ∧
    checkStateAt (recursiveInsert [['a']] [['a']] (['a'] ++ ['/']) unlistedFolder) [] =
      some PartiallyChecked ∧
    ((Item.mk ['a'] ['a'] Unchecked []).data = ['a'] ∧
      (Item.mk ['a'] ['a'] Unchecked []).checkState =
        if ['a'] ∈ [['a']] then Unchecked
        else if ∃ e ∈ [['a']], strictlyBelow ['a'] e = true then PartiallyChecked
        else Checked) ∧
    checkStateAt (rootItem scenarioBuilt) [0] = some Unchecked ∧
    checkStateAt (rootItem scenarioBuilt) [1] = some Checked ∧
    checkStateAt (rootItem scenarioBuilt) [2] = some Checked :=
  ⟨rfl, rfl, rfl, rfl,
    C12_new_item_under_partially_checked [['a']] [['a']] ['a'] unlistedFolder 0 []
      (Item.mk ['a'] ['a'] Unchecked []) rfl rfl rfl rfl,
    by decide, by decide, by decide⟩

theorem itemAt_insertEntry (oldBlackList : List QString) (toRemove : QString) (root : Item)
    (entry : QString) (q : ItemRef) (y : Item) (hy : itemAt root q = some y) :
    ∃ y', itemAt (insertEntry oldBlackList toRemove root entry) q = some y' ∧
      y'.checkState = y.checkState := by
  unfold insertEntry
  simp only
  split_ifs
  · exact ⟨y, hy, rfl⟩
  · exact itemAt_recursiveInsert _ _ _ _ q y hy

theorem itemAt_foldl_insertEntry (oldBlackList : List QString) (toRemove : QString)
    (list : List QString) (root : Item) (q : ItemRef) (y : Item) (hy : itemAt root q = some y) :
    ∃ y', itemAt (list.foldl (insertEntry oldBlackList toRemove) root) q = some y' ∧
      y'.checkState = y.checkState := by
  induction list generalizing root y with
  | nil => exact ⟨y, hy, rfl⟩
  | cons e es ih =>
    obtain ⟨y1, h1, hs1⟩ := itemAt_insertEntry oldBlackList toRemove root e q y hy
    obtain ⟨y2, h2, hs2⟩ := ih _ y1 h1
    exact ⟨y2, h2, hs2.trans hs1⟩

theorem storeCheckState_same (t : Item) (r : ItemRef) (s : CheckState)
    (h : checkStateAt t r = some s) : storeCheckState t r s = t := by
  unfold storeCheckState
  apply modifyAt_id
  intro y hy
  simp only [checkStateAt, hy, Option.map_some', Option.some.injEq] at h
  cases y
  simp only [Item.checkState_mk] at h
  subst h
  rfl

theorem slotItemChangedWhile_true (fuel : Nat) (t : Item) (item : ItemRef) :
    slotItemChangedWhile true fuel t item = some t := rfl

/-- While an insertion runs, `setCheckState` only stores the state. -/
theorem setCheckState_while_inserting (fuel : Nat) (t : Item) (item : ItemRef)
    (s : CheckState) :
    setCheckState (slotItemChangedWhile true fuel) t item s =
      some (storeCheckState t item s) := by
  unfold setCheckState
  split_ifs with h
  · rw [storeCheckState_same t item s h]
  · rfl

theorem storeCheckState_storeCheckState (t : Item) (p : ItemRef) (s1 s2 : CheckState) :
    storeCheckState (storeCheckState t p s1) p s2 = storeCheckState t p s2 := by
  unfold storeCheckState
  rw [modifyAt_modifyAt]
  apply modifyAt_congr
  intro y _
  cases y
  rfl

theorem scanBlackListEmitting_while_inserting (fuel : Nat) (item : ItemRef)
    (l : List QString) (path : QString) (t : Item) (cur : CheckState)
    (hcur : checkStateAt t item = some cur) :
    scanBlackListEmitting (slotItemChangedWhile true fuel) item l path t =
      some (storeCheckState t item (scanBlackList l path cur)) := by
  induction l generalizing t cur with
  | nil =>
    simp only [scanBlackListEmitting, scanBlackList]
    rw [storeCheckState_same t item cur hcur]
  | cons str rest ih =>
    simp only [scanBlackListEmitting, scanBlackList]
    split_ifs with h1 h2
    · exact setCheckState_while_inserting fuel t item Unchecked
    · rw [setCheckState_while_inserting, Option.some_bind,
        ih (storeCheckState t item PartiallyChecked) PartiallyChecked
          (by rw [checkStateAt_storeCheckState_self, hcur]; rfl),
        storeCheckState_storeCheckState]
    · exact ih t cur hcur

theorem itemAt_appendItem (t : Item) (parent : ItemRef) (x : Item)
    (hx : itemAt t parent = some x) :
    itemAt (appendItem t parent) (x.children.length :: parent) =
      some (Item.mk [] [] Unchecked []) := by
  unfold appendItem
  rw [itemAt_cons, itemAt_modifyAt_self, hx]
  simp

theorem checkStateAt_appendItem (t : Item) (parent : ItemRef) (x : Item)
    (hx : itemAt t parent = some x) :
    checkStateAt (appendItem t parent) parent = some x.checkState := by
  unfold appendItem checkStateAt
  rw [itemAt_modifyAt_self, hx]
  rfl

/-- A change made to the item that `appendItem` has just appended. -/
theorem modifyAt_appendItem (t : Item) (parent : ItemRef) (x : Item)
    (hx : itemAt t parent = some x) (g : Item → Item) :
    modifyAt (appendItem t parent) (x.children.length :: parent) g =
      modifyAt t parent fun y =>
        Item.mk y.text y.data y.checkState (y.children ++ [g (Item.mk [] [] Unchecked [])]) := by
  unfold appendItem
  rw [modifyAt_cons, modifyAt_modifyAt]
  apply modifyAt_congr
  intro y hy
  rw [hx] at hy
  cases hy
  simp only [Function.comp, Item.text_mk, Item.data_mk, Item.checkState_mk, Item.children_mk]
  rw [modify_append_cons]

/-- While an insertion runs, the insertion of one entry with its signals is
`recursiveInsert` applied to the subtree of the item it starts from. -/
theorem recursiveInsertEmitting_while_inserting (fuel : Nat) (oldBlackList : List QString)
    (pathTrail : List QString) (path : QString) (parent : ItemRef) (t : Item) (x : Item)
    (hx : itemAt t parent = some x) :
    recursiveInsertEmitting (slotItemChangedWhile true fuel) oldBlackList pathTrail path
        parent t =
      some (modifyAt t parent (recursiveInsert oldBlackList pathTrail path)) := by
  induction pathTrail generalizing parent t x with
  | nil =>
    simp only [recursiveInsertEmitting, slotItemChangedWhile_true, Option.some_bind]
    split_ifs with h
    · rw [modifyAt_id]
      intro y hy
      rw [hy] at h
      simp only [Option.map_some', Option.some.injEq] at h
      cases y
      simp only [Item.data_mk] at h
      simp [recursiveInsert, h]
    · congr 1
      apply modifyAt_congr
      intro y _
      cases y
      rfl
  | cons first rest ih =>
    have hch : childrenAt t parent = x.children := childrenAt_of_itemAt hx
    have hcount : childCount t parent = x.children.length := by rw [childCount, hch]
    simp only [recursiveInsertEmitting, slotItemChangedWhile_true, Option.some_bind]
    rw [hch]
    cases hf : findFirstChild x.children first with
    | some i =>
      simp only
      obtain ⟨c, hc, _⟩ := findFirstChild_some hf
      rw [ih (i :: parent) t c (by rw [itemAt_cons, hx]; exact hc), modifyAt_cons]
      congr 1
      apply modifyAt_congr
      intro y hy
      rw [hx] at hy
      cases hy
      cases x with
      | mk text data state children =>
        simp only [Item.children_mk] at hf
        simp only [recursiveInsert, hf, Item.text_mk, Item.data_mk, Item.checkState_mk,
          Item.children_mk]
    | none =>
      simp only
      rw [hcount, checkStateAt_appendItem t parent x hx]
      have hleaf : itemAt
          (modifyAt (storeCheckState (appendItem t parent) (x.children.length :: parent)
            (initialCheckState oldBlackList x.checkState path)) (x.children.length :: parent)
            fun y => Item.mk first y.data y.checkState y.children)
          (x.children.length :: parent) =
          some (Item.mk first [] (initialCheckState oldBlackList x.checkState path) []) := by
        rw [itemAt_modifyAt_self, itemAt_storeCheckState, itemAt_appendItem t parent x hx]
        rfl
      have htail : recursiveInsertEmitting (slotItemChangedWhile true fuel) oldBlackList rest
          path (x.children.length :: parent)
          (modifyAt (storeCheckState (appendItem t parent) (x.children.length :: parent)
            (initialCheckState oldBlackList x.checkState path)) (x.children.length :: parent)
            fun y => Item.mk first y.data y.checkState y.children) =
          some (modifyAt t parent (recursiveInsert oldBlackList (first :: rest) path)) := by
        rw [ih _ _ _ hleaf]
        unfold storeCheckState
        rw [modifyAt_modifyAt, modifyAt_modifyAt, modifyAt_appendItem t parent x hx]
        congr 1
        apply modifyAt_congr
        intro y hy
        rw [hx] at hy
        cases hy
        cases x with
        | mk text data state children =>
          simp only [Item.children_mk] at hf
          simp only [recursiveInsert, hf, Item.text_mk, Item.data_mk, Item.checkState_mk,
            Item.children_mk, Function.comp, Item.withCheckState]
      cases hst : x.checkState with
      | Checked =>
        rw [hst] at htail
        simp only [Option.some_bind]
        exact htail
      | Unchecked =>
        rw [hst] at htail
        simp only [Option.some_bind]
        exact htail
      | PartiallyChecked =>
        rw [hst] at htail
        simp only
        rw [scanBlackListEmitting_while_inserting fuel _ oldBlackList path _ Checked
          (by rw [checkStateAt_storeCheckState_self, checkStateAt,
            itemAt_appendItem t parent x hx]; rfl),
          storeCheckState_storeCheckState, Option.some_bind]
        exact htail

theorem insertEntryEmitting_while_inserting (fuel : Nat) (oldBlackList : List QString)
    (toRemove : QString) (root : Item) (entry : QString) :
    insertEntryEmitting (slotItemChangedWhile true fuel) oldBlackList toRemove root entry =
      some (insertEntry oldBlackList toRemove root entry) := by
  unfold insertEntryEmitting insertEntry
  simp only
  split_ifs
  · rfl
  · rw [recursiveInsertEmitting_while_inserting fuel oldBlackList _ _ [] root root rfl]
    rfl

theorem insertAllEmitting_while_inserting (fuel : Nat) (oldBlackList : List QString)
    (toRemove : QString) (list : List QString) (root : Item) :
    insertAllEmitting (slotItemChangedWhile true fuel) oldBlackList toRemove list root =
      some (list.foldl (insertEntry oldBlackList toRemove) root) := by
  induction list generalizing root with
  | nil => rfl
  | cons e es ih =>
    simp only [insertAllEmitting, insertEntryEmitting_while_inserting, Option.some_bind, ih,
      List.foldl_cons]

theorem rootItemEmitting_while_inserting (fuel : Nat) (v : SelectiveSyncTreeView) :
    rootItemEmitting (slotItemChangedWhile true fuel) v = some (rootItem v) := by
  unfold rootItemEmitting rootItem
  cases v.topLevelItem with
  | some root => rfl
  | none => rfl

/-- With `_inserting` set, `slotUpdateDirectories` with all its signals is the
plain insertion. -/
theorem slotUpdateDirectoriesEmitting_eq (fuel : Nat) (v : SelectiveSyncTreeView)
    (list : List QString) :
    slotUpdateDirectoriesEmitting fuel v list = some (slotUpdateDirectories v list) := by
  unfold slotUpdateDirectoriesEmitting slotUpdateDirectories
  rw [rootItemEmitting_while_inserting, Option.some_bind, insertAllEmitting_while_inserting]
  rfl

/-- C13: `slotUpdateDirectories` sets `_inserting`, so every `itemChanged` that
its setters emit finds the slot returning at once: the insertion with all its
signals is the plain insertion, and no propagation runs. For every tree and
every listing, every item that existed before the call is at the same place
afterwards, in the state it had. In particular a `PartiallyChecked` parent
stays `PartiallyChecked` when an `Unchecked` child is inserted below it. -/
theorem C13_insertion_keeps_existing_states (v : SelectiveSyncTreeView) (list : List QString)
    (root : Item) (hroot : v.topLevelItem = some root) :
    (∀ fuel : Nat, slotUpdateDirectoriesEmitting fuel v list =
      some (slotUpdateDirectories v list)) ∧
    ∃ root', (slotUpdateDirectories v list).topLevelItem = some root' ∧
      ∀ (q : ItemRef) (y : Item), itemAt root q = some y →
        ∃ y', itemAt root' q = some y' ∧ y'.checkState = y.checkState := by
  refine ⟨fun fuel => slotUpdateDirectoriesEmitting_eq fuel v list, _, rfl, ?_⟩
  intro q y hy
  have hr : rootItem v = root := by simp [rootItem, hroot]
  rw [hr]
  exact itemAt_foldl_insertEntry _ _ list root q y hy

/-- C13 witness: the first listing of the scenario arrives for the
`PartiallyChecked` folder. The folder stays `PartiallyChecked` although its new
child `a` is `Unchecked`. Were the slot to run during the insertion, it would
turn the folder `Unchecked` after the entry `a/`. -/
theorem C13_insertion_keeps_existing_states_witness :
    (scenarioView.withRoot unlistedFolder).topLevelItem = some unlistedFolder ∧
    ((∀ fuel : Nat, slotUpdateDirectoriesEmitting fuel (scenarioView.withRoot unlistedFolder)
        scenarioListing =
      some (slotUpdateDirectories (scenarioView.withRoot unlistedFolder) scenarioListing)) ∧
    ∃ root', (slotUpdateDirectories (scenarioView.withRoot unlistedFolder)
        scenarioListing).topLevelItem = some root' ∧
      ∀ (q : ItemRef) (y : Item), itemAt unlistedFolder q = some y →
        ∃ y', itemAt root' q = some y' ∧ y'.checkState = y.checkState) ∧
    checkStateAt (rootItem (slotUpdateDirectories (scenarioView.withRoot unlistedFolder)
      scenarioListing)) [] = some PartiallyChecked ∧
    checkStateAt (rootItem (slotUpdateDirectories (scenarioView.withRoot unlistedFolder)
      scenarioListing)) [0] = some Unchecked ∧
    (recursiveInsertEmitting (slotItemChangedWhile false 3) [['a']] [['a']] ['a', '/'] []
      unlistedFolder).map Item.checkState = some Unchecked :=
  ⟨rfl,
    C13_insertion_keeps_existing_states (scenarioView.withRoot unlistedFolder) scenarioListing
      unlistedFolder rfl,
    by decide, by decide, by decide⟩

theorem pathSegments_eq_nil_iff (p : QString) : pathSegments p = [] ↔ p = [] := by
  constructor
  · intro h
    have := chopSlash_eq_joinSlash p
    rw [h] at this
    simp only [joinSlash] at this
    unfold chopSlash at this
    split_ifs at this with he
    · have hp : p = ['/'] := by
        cases p with
        | nil => simp [endsWithSlash] at he
        | cons c cs =>
          cases cs with
          | nil =>
            simp [endsWithSlash] at he
            rw [he]
          | cons c' cs' => simp at this
      subst hp
      revert h
      decide
    · exact this
  · intro h
    subst h
    decide

theorem insertEntry_of_empty (oldBlackList : List QString) (toRemove : QString) (root : Item)
    (entry : QString) (h : removeAll toRemove entry = []) :
    insertEntry oldBlackList toRemove root entry = root := by
  unfold insertEntry
  simp only
  rw [h]
  rfl

theorem foldl_insertEntry_filter (oldBlackList : List QString) (toRemove : QString)
    (list : List QString) (root : Item) :
    list.foldl (insertEntry oldBlackList toRemove) root =
      (list.filter fun e => removeAll toRemove e != []).foldl
        (insertEntry oldBlackList toRemove) root := by
  induction list generalizing root with
  | nil => rfl
  | cons e es ih =>
    by_cases he : removeAll toRemove e = []
    · rw [List.foldl_cons, insertEntry_of_empty _ _ _ _ he, List.filter_cons_of_neg (by simp [he])]
      exact ih root
    · rw [List.foldl_cons, List.filter_cons_of_pos (by simp [he]), List.foldl_cons]
      exact ih _

/-- C14, as stated, fails: the view on the folder `f` removes the prefix
`/dav/f/`; the listing entry `/dav/g/x/` does not start with it, and
`slotUpdateDirectories` inserts it all the same, as the chain of items with the
texts empty, `dav`, `g`, `x` below the folder, which had no child before. -/
theorem C14_entry_without_prefix_is_inserted :
    startsWith foreignEntry (pathToRemove scenarioView) = false ∧
    (slotUpdateDirectories scenarioView []).topLevelItem =
      some (Item.mk ['r'] ['f'] PartiallyChecked []) ∧
    (slotUpdateDirectories scenarioView [foreignEntry]).topLevelItem =
      some (Item.mk ['r'] ['f'] PartiallyChecked
        [Item.mk [] [] Checked
          [Item.mk ['d', 'a', 'v'] [] Checked
            [Item.mk ['g'] [] Checked
              [Item.mk ['x'] ['/', 'd', 'a', 'v', '/', 'g', '/', 'x'] Checked []]]]]) :=
  ⟨by decide, rfl, rfl⟩

/-- C14, amended: `slotUpdateDirectories` discards exactly the entries of which
nothing is left once every occurrence of the prefix `pathToRemove` is removed:
the listing without them gives the same view. Every other entry of the listing,
whether it starts with the prefix or not, is inserted: after the call the item
reached through its segments exists and stores its path. -/
theorem C14_only_empty_remainders_discarded (v : SelectiveSyncTreeView) (list : List QString) :
    slotUpdateDirectories v list =
      slotUpdateDirectories v (list.filter fun e => removeAll (pathToRemove v) e != []) ∧
    ∀ entry ∈ list, removeAll (pathToRemove v) entry ≠ [] →
      ∃ root', (slotUpdateDirectories v list).topLevelItem = some root' ∧
        entryPresent (pathSegments (removeAll (pathToRemove v) entry))
          (chopSlash (removeAll (pathToRemove v) entry)) root' := by
  constructor
  · unfold slotUpdateDirectories
    rw [← foldl_insertEntry_filter]
  · intro entry hmem hne
    refine ⟨_, rfl, ?_⟩
    apply entrySettled_foldl_of_mem _ _ list _ entry hmem
    rw [Ne, pathSegments_eq_nil_iff]
    exact hne

/-- C14 witness: the entry `/dav/g/x/`, which lacks the prefix, is in the tree
after the call. -/
theorem C14_only_empty_remainders_discarded_witness :
    foreignEntry ∈ [foreignEntry] ∧
    removeAll (pathToRemove scenarioView) foreignEntry ≠ [] ∧
    ∃ root', (slotUpdateDirectories scenarioView [foreignEntry]).topLevelItem = some root' ∧
      entryPresent (pathSegments (removeAll (pathToRemove scenarioView) foreignEntry))
        (chopSlash (removeAll (pathToRemove scenarioView) foreignEntry)) root' :=
  ⟨List.mem_singleton.mpr rfl, by decide,
    (C14_only_empty_remainders_discarded scenarioView [foreignEntry]).2 foreignEntry
      (List.mem_singleton.mpr rfl) (by decide)⟩

/-- C15 fails on the code: the old black list `a/x`, `ab` has no duplicate and
the view is the one reached by the listing of the folder `f` (subfolders `a`
and `ab`) alone, yet `createBlackList()` returns `a/x`, `ab`, `ab`. The item `ab`
is `Unchecked` and contributes its path; the item `a` is `PartiallyChecked`
without children and its fallback, which tests `it.startsWith("a")`, contributes
the entry `ab` of its sibling once more. -/
theorem C15_black_list_repeats_sibling_entry :
    siblingView.oldBlackList.Nodup ∧
    Reachable (slotUpdateDirectories siblingView siblingListing) ∧
    createBlackListTop (slotUpdateDirectories siblingView siblingListing) =
      [['a', '/', 'x'], ['a', 'b'], ['a', 'b']] ∧
    ¬ (createBlackListTop (slotUpdateDirectories siblingView siblingListing)).Nodup :=
  ⟨by decide, Reachable.listing _ (Reachable.fresh _ _ _ _), by decide, by decide⟩

theorem reachedBy_cons_mk (seg : QString) (rest : List QString) (text data : QString)
    (state : CheckState) (children : List Item) (i : Nat) (c : Item)
    (hi : findFirstChild children seg = some i) (hc : children[i]? = some c) :
    reachedBy (seg :: rest) (Item.mk text data state children) =
      (reachedBy rest c).map (· ++ [i]) := by
  simp only [reachedBy, Item.children_mk, hi, hc]

theorem reachedBy_cons_some {seg : QString} {rest : List QString} {x : Item} {q : ItemRef}
    (h : reachedBy (seg :: rest) x = some q) :
    ∃ i c q', findFirstChild x.children seg = some i ∧ x.children[i]? = some c ∧
      reachedBy rest c = some q' ∧ q = q' ++ [i] := by
  simp only [reachedBy] at h
  cases hi : findFirstChild x.children seg with
  | none => simp [hi] at h
  | some i =>
    cases hc : x.children[i]? with
    | none => simp [hi, hc] at h
    | some c =>
      simp only [hi, hc, Option.map_eq_some'] at h
      obtain ⟨q', hq', e⟩ := h
      exact ⟨i, c, q', rfl, hc, hq', e.symm⟩

/-- An entry that is present is stored on the item that its segments lead to. -/
theorem reachedBy_of_entryPresent (segs : List QString) (d : QString) (x : Item)
    (h : entryPresent segs d x) :
    ∃ q y, reachedBy segs x = some q ∧ itemAt x q = some y ∧ y.data = d := by
  induction segs generalizing x with
  | nil => exact ⟨[], x, rfl, rfl, h⟩
  | cons seg rest ih =>
    obtain ⟨i, c, hi, hc, hrest⟩ := h
    obtain ⟨q', y, hq', hy, hd⟩ := ih c hrest
    refine ⟨q' ++ [i], y, ?_, ?_, hd⟩
    · cases x with
      | mk text data state children =>
        simp only [Item.children_mk] at hi hc
        rw [reachedBy_cons_mk _ _ _ _ _ _ i c hi hc, hq']
        rfl
    · rw [itemAt_append]
      have : itemAt x [i] = some c := by
        rw [itemAt_cons]
        simpa [itemAt, getDown] using hc
      rw [this]
      exact hy

/-- The insertion of an entry does not move the item that given segments lead to. -/
theorem reachedBy_recursiveInsert (oldBlackList : List QString) (segs : List QString)
    (segs' : List QString) (path' : QString) (x : Item) (q : ItemRef)
    (h : reachedBy segs x = some q) :
    reachedBy segs (recursiveInsert oldBlackList segs' path' x) = some q := by
  induction segs generalizing x segs' q with
  | nil => simpa [reachedBy] using h
  | cons seg rest ih =>
    obtain ⟨i, c, q', hi, hc, hq', rfl⟩ := reachedBy_cons_some h
    cases x with
    | mk text data state children =>
      simp only [Item.children_mk] at hi hc
      cases segs' with
      | nil =>
        simp only [recursiveInsert]
        rw [reachedBy_cons_mk _ _ _ _ _ _ i c hi hc, hq']
        rfl
      | cons seg' rest' =>
        cases hf : findFirstChild children seg' with
        | some j =>
          simp only [recursiveInsert, hf]
          have hffc : findFirstChild
              (children.modify (recursiveInsert oldBlackList rest' path') j) seg = some i := by
            rw [findFirstChild_congr _ children seg
              (map_text_modify _ (recursiveInsert_text _ _ _) _ _), hi]
          by_cases hij : j = i
          · subst hij
            rw [reachedBy_cons_mk _ _ _ _ _ _ j (recursiveInsert oldBlackList rest' path' c)
              hffc (by simp [hc]), ih rest' c q' hq']
            rfl
          · rw [reachedBy_cons_mk _ _ _ _ _ _ i c hffc
              (by rw [List.getElem?_modify_ne _ _ hij, hc]), hq']
            rfl
        | none =>
          simp only [recursiveInsert, hf]
          have hlt : i < children.length := by
            by_contra hge
            rw [List.getElem?_eq_none (Nat.le_of_not_lt hge)] at hc
            cases hc
          rw [reachedBy_cons_mk _ _ _ _ _ _ i c (by rw [findFirstChild_append, hi])
            (by rw [List.getElem?_append_left hlt, hc]), hq']
          rfl

theorem reachedBy_insertEntry (oldBlackList : List QString) (toRemove : QString)
    (segs : List QString) (x : Item) (other : QString) (q : ItemRef)
    (h : reachedBy segs x = some q) :
    reachedBy segs (insertEntry oldBlackList toRemove x other) = some q := by
  unfold insertEntry
  simp only
  split_ifs
  · exact h
  · exact reachedBy_recursiveInsert _ _ _ _ _ _ h

theorem reachedBy_foldl (oldBlackList : List QString) (toRemove : QString)
    (segs : List QString) (list : List QString) (x : Item) (q : ItemRef)
    (h : reachedBy segs x = some q) :
    reachedBy segs (list.foldl (insertEntry oldBlackList toRemove) x) = some q := by
  induction list generalizing x with
  | nil => exact h
  | cons e es ih => exact ih _ (reachedBy_insertEntry _ _ _ _ _ _ h)

theorem stored_path_stable (toRemove entry : QString) (q : ItemRef)
    (later : List (List QString)) (w : SelectiveSyncTreeView) (root : Item)
    (hw : w.topLevelItem = some root) (hp : pathToRemove w = toRemove)
    (hq : reachedBy (pathSegments (removeAll toRemove entry)) root = some q)
    (hs : entrySettled toRemove entry root) :
    ∃ root', (later.foldl slotUpdateDirectories w).topLevelItem = some root' ∧
      reachedBy (pathSegments (removeAll toRemove entry)) root' = some q ∧
      entrySettled toRemove entry root' := by
  induction later generalizing w root with
  | nil => exact ⟨root, hw, hq, hs⟩
  | cons l ls ih =>
    have hr : rootItem w = root := by simp [rootItem, hw]
    apply ih (slotUpdateDirectories w l) (l.foldl (insertEntry w.oldBlackList toRemove) root)
    · simp only [slotUpdateDirectories, hp, hr]
    · exact hp
    · exact reachedBy_foldl _ _ _ l root q hq
    · exact entrySettled_foldl _ _ l root entry hs

/-- C16: after `slotUpdateDirectories` has inserted a listing that holds an
entry of which something is left once the prefix is removed, the item that the
entry's segments lead to stores the entry's path relative to the folder without
its trailing `/`; and after any further listings, whatever they hold, the
segments lead to the same item and it stores the same path. -/
theorem C16_stored_path_is_kept (v : SelectiveSyncTreeView) (list : List QString)
    (entry : QString) (hmem : entry ∈ list) (hne : removeAll (pathToRemove v) entry ≠ []) :
    ∃ q : ItemRef, ∀ later : List (List QString), ∃ root y,
      (later.foldl slotUpdateDirectories (slotUpdateDirectories v list)).topLevelItem =
        some root ∧
      reachedBy (pathSegments (removeAll (pathToRemove v) entry)) root = some q ∧
      itemAt root q = some y ∧
      y.data = chopSlash (removeAll (pathToRemove v) entry) := by
  have hseg : pathSegments (removeAll (pathToRemove v) entry) ≠ [] := by
    rw [Ne, pathSegments_eq_nil_iff]
    exact hne
  have hs := entrySettled_foldl_of_mem v.oldBlackList (pathToRemove v) list (rootItem v) entry
    hmem
  obtain ⟨q, _, hq, _, _⟩ := reachedBy_of_entryPresent _ _ _ (hs hseg)
  refine ⟨q, fun later => ?_⟩
  obtain ⟨root', hroot', hq', hs'⟩ := stored_path_stable (pathToRemove v) entry q later
    (slotUpdateDirectories v list) _ rfl rfl hq hs
  obtain ⟨q'', y, hq'', hy, hd⟩ := reachedBy_of_entryPresent _ _ _ (hs' hseg)
  rw [hq'] at hq''
  cases hq''
  exact ⟨root', y, hroot', hq', hy, hd⟩

/-- C16 witness: the entry `/dav/f/a/` of the first listing of the scenario. -/
theorem C16_stored_path_is_kept_witness :
    ['/', 'd', 'a', 'v', '/', 'f', '/', 'a', '/'] ∈ scenarioListing ∧
    removeAll (pathToRemove scenarioView) ['/', 'd', 'a', 'v', '/', 'f', '/', 'a', '/'] ≠ [] ∧
    ∃ q : ItemRef, ∀ later : List (List QString), ∃ root y,
      (later.foldl slotUpdateDirectories
        (slotUpdateDirectories scenarioView scenarioListing)).topLevelItem = some root ∧
      reachedBy (pathSegments (removeAll (pathToRemove scenarioView)
        ['/', 'd', 'a', 'v', '/', 'f', '/', 'a', '/'])) root = some q ∧
      itemAt root q = some y ∧
      y.data = chopSlash (removeAll (pathToRemove scenarioView)
        ['/', 'd', 'a', 'v', '/', 'f', '/', 'a', '/']) :=
  ⟨by decide, by decide,
    C16_stored_path_is_kept scenarioView scenarioListing
      ['/', 'd', 'a', 'v', '/', 'f', '/', 'a', '/'] (by decide) (by decide)⟩

theorem consistent_iff_agrees (t : Item) :
    t.consistent = true ↔
      ∀ (q : ItemRef) (y : Item), itemAt t q = some y → y.children ≠ [] →
        agreesWithChildren y := by
  unfold Item.consistent agreesWithChildren
  rw [Item.all_iff_itemAt]
  constructor
  · intro h q y hy hne
    have := h q y hy
    rw [consistentHere_iff] at this
    rcases this with h' | h'
    · exact absurd (List.map_eq_nil_iff.mp h') hne
    · simpa only [List.forall_mem_map] using h'
  · intro h q y hy
    rw [consistentHere_iff]
    by_cases hne : y.children = []
    · left; simp [hne]
    · right
      simpa only [List.forall_mem_map] using h q y hy hne

/-- C17: if every item with at least one child agrees with its children, then
one user toggle of any item to `Checked` or `Unchecked`, with the whole
re-entrant cascade of `slotItemChanged`, runs to its end and afterwards every
item with at least one child agrees with its children again. -/
theorem C17_one_toggle_preserves_consistency (t : Item) (item : ItemRef) (s : CheckState)
    (hs : s = Checked ∨ s = Unchecked)
    (hbefore : ∀ (q : ItemRef) (y : Item), itemAt t q = some y → y.children ≠ [] →
      agreesWithChildren y) :
    ∃ t', userToggle t item s = some t' ∧
      ∀ (q : ItemRef) (y : Item), itemAt t' q = some y → y.children ≠ [] →
        agreesWithChildren y := by
  obtain ⟨t', h'⟩ := userToggle_isSome t item s
  refine ⟨t', h', ?_⟩
  rw [← consistent_iff_agrees]
  apply userToggle_consistent t t' item s _ ((consistent_iff_agrees t).mpr hbefore) h'
  rcases hs with h | h <;> rw [h] <;> simp

/-- C17 witness: in `treeExpanded` the item `y` below `a` is toggled to
`Unchecked`. -/
theorem C17_one_toggle_preserves_consistency_witness :
    (Unchecked = Checked ∨ Unchecked = Unchecked) ∧
    (∀ (q : ItemRef) (y : Item), itemAt treeExpanded q = some y → y.children ≠ [] →
      agreesWithChildren y) ∧
    ∃ t', userToggle treeExpanded [1, 0] Unchecked = some t' ∧
      ∀ (q : ItemRef) (y : Item), itemAt t' q = some y → y.children ≠ [] →
        agreesWithChildren y :=
  ⟨Or.inr rfl, (consistent_iff_agrees treeExpanded).mp (by decide),
    C17_one_toggle_preserves_consistency treeExpanded [1, 0] Unchecked (Or.inr rfl)
      ((consistent_iff_agrees treeExpanded).mp (by decide))⟩

theorem properAncestor_cons (a : ItemRef) (k : Nat) (pp : ItemRef) :
    properAncestor a (k :: pp) ↔ a = pp ∨ properAncestor a pp := by
  constructor
  · rintro ⟨r, hr, e⟩
    cases r with
    | nil => exact absurd rfl hr
    | cons x r' =>
      simp only [List.cons_append, List.cons.injEq] at e
      cases r' with
      | nil => left; simpa using e.2.symm
      | cons y r'' => right; exact ⟨y :: r'', by simp, e.2⟩
  · rintro (rfl | ⟨r, hr, e⟩)
    · exact ⟨[k], by simp, rfl⟩
    · exact ⟨k :: r, by simp, by simp [e]⟩

theorem properAncestor_ne {a p : ItemRef} (h : properAncestor a p) : a ≠ p := by
  obtain ⟨r, hr, e⟩ := h
  intro e'
  subst e'
  have := congrArg List.length e
  cases r with
  | nil => exact hr rfl
  | cons x r => simp at this; omega

theorem not_properAncestor_of_properAncestor {a p : ItemRef} (h : properAncestor a p) :
    ¬ properAncestor p a := by
  obtain ⟨r, hr, e⟩ := h
  rintro ⟨r', hr', e'⟩
  have h1 := congrArg List.length e
  have h2 := congrArg List.length e'
  cases r with
  | nil => exact hr rfl
  | cons x r => simp at h1 h2; omega

/-- How far `PartiallyChecked` rises from an item that has just taken it: every
ancestor is reached as long as no ancestor before it was `PartiallyChecked`
already, and nothing changes above an ancestor that was. -/
theorem cascadeUp_partially (p : ItemRef) (t : Item) :
    (∀ above, properAncestor above p → (checkStateAt t above).isSome = true →
      (∀ mid, properAncestor above mid → properAncestor mid p →
        checkStateAt t mid ≠ some PartiallyChecked) →
      checkStateAt (cascadeUp p PartiallyChecked t) above = some PartiallyChecked) ∧
    (∀ above, properAncestor above p → checkStateAt t above = some PartiallyChecked →
      ∀ higher, properAncestor higher above →
        checkStateAt (cascadeUp p PartiallyChecked t) higher = checkStateAt t higher) := by
  induction p generalizing t with
  | nil =>
    constructor
    · rintro above ⟨r, hr, e⟩
      simp at e
      exact absurd e.1 hr
    · rintro above ⟨r, hr, e⟩
      simp at e
      exact absurd e.1 hr
  | cons k pp ih =>
    unfold cascadeUp
    simp only [if_true]
    by_cases hpp : checkStateAt t pp = some PartiallyChecked
    · rw [if_neg (by simpa using hpp)]
      refine ⟨?_, fun _ _ _ _ _ => rfl⟩
      intro above habove _ hmid
      rcases (properAncestor_cons above k pp).mp habove with rfl | h
      · exact hpp
      · exact absurd hpp (hmid pp h ⟨[k], by simp, rfl⟩)
    · rw [if_pos hpp]
      obtain ⟨ih2, ih3⟩ := ih (storeCheckState t pp PartiallyChecked)
      constructor
      · intro above habove hsome hmid
        rcases (properAncestor_cons above k pp).mp habove with rfl | h
        · rw [checkStateAt_cascadeUp_self, checkStateAt_storeCheckState_self]
          cases hv : checkStateAt t above with
          | none => rw [hv] at hsome; cases hsome
          | some s0 => rfl
        · apply ih2 above h
          · rw [checkStateAt_storeCheckState_ne _ _ _ _ (properAncestor_ne h)]
            exact hsome
          · intro mid h1 h2
            rw [checkStateAt_storeCheckState_ne _ _ _ _ (properAncestor_ne h2)]
            exact hmid mid h1 ((properAncestor_cons mid k pp).mpr (Or.inr h2))
      · intro above habove hst higher hhigher
        rcases (properAncestor_cons above k pp).mp habove with rfl | h
        · exact absurd hst hpp
        · have hne : higher ≠ pp := by
            intro e
            subst e
            exact not_properAncestor_of_properAncestor h hhigher
          rw [ih3 above h
            (by rw [checkStateAt_storeCheckState_ne _ _ _ _ (properAncestor_ne h)]; exact hst)
            higher hhigher, checkStateAt_storeCheckState_ne _ _ _ _ hne]

theorem not_cons_suffix_of_properAncestor_or_eq {i : Nat} {parent q : ItemRef}
    (h : q = parent ∨ properAncestor q parent) : ¬ (i :: parent) <:+ q := by
  intro hsuf
  have h1 := hsuf.length_le
  rcases h with rfl | ⟨r, _, e⟩
  · simp at h1
  · have h2 := congrArg List.length e
    simp at h1 h2
    omega

/-- The upward cascade of a toggle that leaves the parent with both kinds of
children starts by making the parent `PartiallyChecked`. -/
theorem cascadeUp_mixed (t : Item) (i : Nat) (parent : ItemRef) (s : CheckState)
    (hs : s = Checked ∨ s = Unchecked)
    (hparent : checkStateAt t parent = some s.opposite)
    (hany : (childrenAt t parent).any (fun c => c.checkState != s) = true) :
    cascadeUp (i :: parent) s t =
      cascadeUp parent PartiallyChecked (storeCheckState t parent PartiallyChecked) := by
  conv_lhs => unfold cascadeUp
  rcases hs with rfl | rfl
  · simp only [hparent, hany, CheckState.opposite]
    simp only [reduceCtorEq, if_false, ne_eq, Option.some.injEq, not_false_eq_true, if_true]
  · simp only [hparent, hany, CheckState.opposite]
    simp only [reduceCtorEq, if_false, ne_eq, Option.some.injEq, not_false_eq_true, if_true]

/-- C18, as stated, fails: in `chainTree` everything is `Checked`; the user
toggles `n` to `Unchecked`. The parent `a/b` of `n` becomes `PartiallyChecked`,
so does the grandparent `a`, and so does the folder itself, an ancestor above
the grandparent, which was `Checked`. -/
theorem C18_partially_checked_rises_above_grandparent :
    checkStateAt chainTree [0, 0] = some Checked ∧
    checkStateAt chainTree [0] = some Checked ∧
    checkStateAt chainTree [] = some Checked ∧
    ∃ t', userToggle chainTree [0, 0, 0] Unchecked = some t' ∧
      checkStateAt t' [0, 0, 0] = some Unchecked ∧
      checkStateAt t' [0, 0] = some PartiallyChecked ∧
      checkStateAt t' [0] = some PartiallyChecked ∧
      checkStateAt t' [] = some PartiallyChecked :=
  ⟨by decide, by decide, by decide, _, rfl, by decide, by decide, by decide, by decide⟩

/-- C18, amended: the user toggles an item to `s` (`Checked` or `Unchecked`);
its parent was in the opposite state and has another child that is not `s`.
The toggle returns and the parent is `PartiallyChecked`. From there
`PartiallyChecked` rises: an ancestor of the parent becomes (or stays)
`PartiallyChecked` if no ancestor strictly between the parent and it was
`PartiallyChecked` already, which holds for the grandparent in every case; and
no state changes above an ancestor of the parent that was `PartiallyChecked`
already. -/
theorem C18_partially_checked_rises (t : Item) (i : Nat) (parent : ItemRef) (s : CheckState)
    (hs : s = Checked ∨ s = Unchecked)
    (hitem : (itemAt t (i :: parent)).isSome = true)
    (hparent : checkStateAt t parent = some s.opposite)
    (hsibling : ∃ j s', j ≠ i ∧ checkStateAt t (j :: parent) = some s' ∧ s' ≠ s) :
    ∃ t', userToggle t (i :: parent) s = some t' ∧
      checkStateAt t' parent = some PartiallyChecked ∧
      (∀ above, properAncestor above parent →
        (∀ mid, properAncestor above mid → properAncestor mid parent →
          checkStateAt t mid ≠ some PartiallyChecked) →
        checkStateAt t' above = some PartiallyChecked) ∧
      (∀ above, properAncestor above parent → checkStateAt t above = some PartiallyChecked →
        ∀ higher, properAncestor higher above →
          checkStateAt t' higher = checkStateAt t higher) := by
  obtain ⟨y, hy⟩ := Option.isSome_iff_exists.mp hitem
  have hsne : s ≠ PartiallyChecked := by rcases hs with h | h <;> rw [h] <;> simp
  -- the tree once the new state is stored
  have hp0 : checkStateAt (storeCheckState t (i :: parent) s) parent = some s.opposite := by
    rw [checkStateAt_storeCheckState_ne _ _ _ _ (List.cons_ne_self _ _).symm, hparent]
  have hany : (childrenAt (storeCheckState t (i :: parent) s) parent).any
      (fun c => c.checkState != s) = true := by
    obtain ⟨j, s', hji, hj, hne⟩ := hsibling
    rw [any_childrenAt_iff]
    refine ⟨j, s', ?_, hne⟩
    rw [checkStateAt_storeCheckState_ne _ _ _ _ (by simpa using hji), hj]
  have hanc : ∀ q, properAncestor q parent →
      checkStateAt (storeCheckState (storeCheckState t (i :: parent) s) parent PartiallyChecked)
        q = checkStateAt t q := by
    intro q hq
    rw [checkStateAt_storeCheckState_ne _ _ _ _ (properAncestor_ne hq),
      checkStateAt_storeCheckState_ne]
    intro e
    obtain ⟨r, _, e'⟩ := hq
    have := congrArg List.length e'
    rw [e] at this
    simp at this
    omega
  have hstate : ∀ q, q = parent ∨ properAncestor q parent →
      checkStateAt (propagated (storeCheckState t (i :: parent) s) (i :: parent) s) q =
        checkStateAt (cascadeUp parent PartiallyChecked
          (storeCheckState (storeCheckState t (i :: parent) s) parent PartiallyChecked)) q := by
    intro q hq
    rw [checkStateAt_propagated_off _ _ _ _ (not_cons_suffix_of_properAncestor_or_eq hq),
      cascadeUp_mixed _ i parent s hs hp0 hany]
  obtain ⟨h2, h3⟩ := cascadeUp_partially parent
    (storeCheckState (storeCheckState t (i :: parent) s) parent PartiallyChecked)
  refine ⟨_, userToggle_eq t (i :: parent) s y hy, ?_, ?_, ?_⟩
  · rw [hstate parent (Or.inl rfl), checkStateAt_cascadeUp_self,
      checkStateAt_storeCheckState_self, hp0]
    rfl
  · intro above habove hmid
    rw [hstate above (Or.inr habove)]
    apply h2 above habove
    · rw [hanc above habove]
      obtain ⟨r, _, e⟩ := habove
      rw [e] at hparent
      obtain ⟨s', hs'⟩ := checkStateAt_isSome_of_append hparent
      rw [hs']
      rfl
    · intro mid h1 hm
      rw [hanc mid hm]
      exact hmid mid h1 hm
  · intro above habove hst higher hhigher
    have hhp : properAncestor higher parent := by
      obtain ⟨r, hr, e⟩ := habove
      obtain ⟨r', hr', e'⟩ := hhigher
      exact ⟨r ++ r', by simp [hr], by rw [e, e', List.append_assoc]⟩
    rw [hstate higher (Or.inr hhp), h3 above habove (by rw [hanc above habove]; exact hst)
      higher hhigher, hanc higher hhp]

/-- C18 witness: in `chainTree` the item `n` is toggled to `Unchecked`; its parent
`a/b` was `Checked` and keeps the `Checked` child `m`. -/
theorem C18_partially_checked_rises_witness :
    (Unchecked = Checked ∨ Unchecked = Unchecked) ∧
    (itemAt chainTree [0, 0, 0]).isSome = true ∧
    checkStateAt chainTree [0, 0] = some Unchecked.opposite ∧
    (∃ j s', j ≠ 0 ∧ checkStateAt chainTree [j, 0, 0] = some s' ∧ s' ≠ Unchecked) ∧
    ∃ t', userToggle chainTree [0, 0, 0] Unchecked = some t' ∧
      checkStateAt t' [0, 0] = some PartiallyChecked ∧
      (∀ above, properAncestor above [0, 0] →
        (∀ mid, properAncestor above mid → properAncestor mid [0, 0] →
          checkStateAt chainTree mid ≠ some PartiallyChecked) →
        checkStateAt t' above = some PartiallyChecked) ∧
      (∀ above, properAncestor above [0, 0] →
        checkStateAt chainTree above = some PartiallyChecked →
        ∀ higher, properAncestor higher above →
          checkStateAt t' higher = checkStateAt chainTree higher) :=
  ⟨Or.inr rfl, rfl, by decide, ⟨1, Checked, by decide, by decide, by decide⟩,
    C18_partially_checked_rises chainTree 0 [0, 0] Unchecked (Or.inr rfl) rfl (by decide)
      ⟨1, Checked, by decide, by decide, by decide⟩⟩

/-- C19: in every view reachable from the empty view by listing insertions and
user toggles to `Checked` or `Unchecked`, in any order and for any old black
list, every item below a `Checked` item is `Checked` and every item below an
`Unchecked` item is `Unchecked`. -/
theorem C19_reachable_subtrees_uniform (v : SelectiveSyncTreeView) (hreach : Reachable v)
    (t : Item) (ht : v.topLevelItem = some t) (q r : ItemRef) (x y : Item)
    (hx : itemAt t q = some x) (hy : itemAt t (r ++ q) = some y) :
    (x.checkState = Checked → y.checkState = Checked) ∧
    (x.checkState = Unchecked → y.checkState = Unchecked) := by
  have hu := Item.all_itemAt _ t (reachable_uniform v hreach t ht) q x hx
  rw [itemAt_append, hx] at hy
  constructor
  · intro h
    exact getDown_checkState_of_uniform x hu Checked (by simp) h r.reverse y hy
  · intro h
    exact getDown_checkState_of_uniform x hu Unchecked (by simp) h r.reverse y hy

/-- C19 witness: the view reached by the listing of the folder, the listing of
`b` and the toggle of `b` to `Unchecked`; the item `x` lies below `b`. -/
theorem C19_reachable_subtrees_uniform_witness :
    Reachable excludedB ∧
    excludedB.topLevelItem = some (rootItem excludedB) ∧
    itemAt (rootItem excludedB) [1] =
      some (Item.mk ['b'] ['b'] Unchecked
        [Item.mk ['x'] ['b', '/', 'x'] Unchecked [],
         Item.mk ['y'] ['b', '/', 'y'] Unchecked []]) ∧
    itemAt (rootItem excludedB) ([0] ++ [1]) =
      some (Item.mk ['x'] ['b', '/', 'x'] Unchecked []) ∧
    (((Item.mk ['b'] ['b'] Unchecked
        [Item.mk ['x'] ['b', '/', 'x'] Unchecked [],
         Item.mk ['y'] ['b', '/', 'y'] Unchecked []]).checkState = Checked →
        (Item.mk ['x'] ['b', '/', 'x'] Unchecked []).checkState = Checked) ∧
      ((Item.mk ['b'] ['b'] Unchecked
        [Item.mk ['x'] ['b', '/', 'x'] Unchecked [],
         Item.mk ['y'] ['b', '/', 'y'] Unchecked []]).checkState = Unchecked →
        (Item.mk ['x'] ['b', '/', 'x'] Unchecked []).checkState = Unchecked)) :=
  ⟨Reachable.toggled [1] Unchecked
      (show Reachable expandedB from
        Reachable.listing _ (Reachable.listing _ (Reachable.fresh _ _ _ _)))
      (by decide) (show expandedB.toggle [1] Unchecked = some excludedB from rfl),
    rfl, rfl, rfl,
    C19_reachable_subtrees_uniform excludedB
      (Reachable.toggled [1] Unchecked
        (show Reachable expandedB from
          Reachable.listing _ (Reachable.listing _ (Reachable.fresh _ _ _ _)))
        (by decide) (show expandedB.toggle [1] Unchecked = some excludedB from rfl))
      (rootItem excludedB) rfl [1] [0] _ _ rfl rfl⟩

theorem getDown_modifyDown_unrelated (f : Item → Item) (p q : List Nat) (x : Item)
    (h1 : ¬ p <+: q) (h2 : ¬ q <+: p) : getDown q (modifyDown f p x) = getDown q x := by
  induction p generalizing q x with
  | nil => exact absurd List.nil_prefix h1
  | cons i p ih =>
    cases q with
    | nil => exact absurd List.nil_prefix h2
    | cons j q =>
      simp only [getDown, modifyDown, Item.children_mk]
      by_cases hij : i = j
      · subst hij
        simp only [List.getElem?_modify_eq]
        cases hc : x.children[i]? with
        | none => simp
        | some c =>
          simp only [Option.map_some']
          exact ih q c (fun hp => h1 (by simpa using hp)) (fun hp => h2 (by simpa using hp))
      · simp [List.getElem?_modify_ne _ _ hij]

/-- An item that is neither above nor below the modified item, nor that item,
is left as it was with all its subtree. -/
theorem itemAt_modifyAt_unrelated (t : Item) (p q : ItemRef) (f : Item → Item)
    (h1 : ¬ p <:+ q) (h2 : ¬ q <:+ p) : itemAt (modifyAt t p f) q = itemAt t q :=
  getDown_modifyDown_unrelated f _ _ t (fun h => h1 (List.reverse_prefix.mp h))
    (fun h => h2 (List.reverse_prefix.mp h))

theorem itemAt_storeCheckState_off (t : Item) (p q : ItemRef) (s : CheckState)
    (h : ¬ q <:+ p) : itemAt (storeCheckState t p s) q = itemAt t q := by
  by_cases hp : p <:+ q
  · obtain ⟨r, rfl⟩ := hp
    apply itemAt_storeCheckState_under
    intro e
    subst e
    exact h (List.suffix_refl _)
  · exact itemAt_modifyAt_unrelated t p q _ hp h

/-- The upward cascade leaves every item that is not an ancestor of the item as
it was, with all its subtree. -/
theorem itemAt_cascadeUp_off (p : ItemRef) (s : CheckState) (t : Item) (q : ItemRef)
    (h : ¬ q <:+ p) : itemAt (cascadeUp p s t) q = itemAt t q := by
  induction p generalizing s t with
  | nil => rfl
  | cons i pp ih =>
    have hpp : ¬ q <:+ pp := fun hs => h (hs.trans (List.suffix_cons i pp))
    unfold cascadeUp
    split_ifs <;>
      first
        | rfl
        | (rw [ih _ _ hpp, itemAt_storeCheckState_off _ _ _ _ hpp])

theorem slotItemChanged_of_none (fuel : Nat) (t : Item) (p : ItemRef)
    (hy : itemAt t p = none) : slotItemChanged (fuel + 1) t p = some t := by
  have hv : checkStateAt t p = none := by simp [checkStateAt, hy]
  rw [slotItemChanged_succ, whenFully_skip _ _ _ _ (by rw [hv]; simp), Option.some_bind,
    whenFully_skip _ _ _ _ (by rw [hv]; simp), Option.some_bind,
    whenPartiallyChecked_skip _ _ _ (by rw [hv]; simp)]

/-- C20: on every tree, in any state, for every item and every new state, the
propagation started by one toggle returns: the re-entrant runs of
`slotItemChanged` never nest deeper than the number of items of the tree, and
every larger bound gives the same tree. The propagation reaches ancestors and
descendants of the toggled item only: every item that is neither is left as it
was, with all its subtree. -/
theorem C20_cascade_terminates (t : Item) (item : ItemRef) (s : CheckState) :
    ∃ t', userToggle t item s = some t' ∧
      (∀ fuel, t.size ≤ fuel →
        slotItemChanged fuel (storeCheckState t item s) item = some t') ∧
      (∀ q, ¬ q <:+ item → ¬ item <:+ q → itemAt t' q = itemAt t q) := by
  cases hy : itemAt t item with
  | none =>
    have hstore : storeCheckState t item s = t := by
      unfold storeCheckState
      apply modifyAt_id
      intro y h; rw [hy] at h; cases h
    refine ⟨t, userToggle_of_none t item s hy, ?_, fun _ _ _ => rfl⟩
    intro fuel hfuel
    obtain ⟨n, rfl⟩ : ∃ n, fuel = n + 1 :=
      ⟨fuel - 1, by have := Item.size_pos t; omega⟩
    rw [hstore]
    exact slotItemChanged_of_none n t item hy
  | some y =>
    refine ⟨_, userToggle_eq t item s y hy, ?_, ?_⟩
    · intro fuel hfuel
      have h1 := itemAt_height t item y hy
      have h2 := Item.height_lt_size t
      have h3 : itemAt (storeCheckState t item s) item = some (y.withCheckState s) := by
        rw [itemAt_storeCheckState, hy]; rfl
      have := slotItemChanged_eq fuel (storeCheckState t item s) item (y.withCheckState s) h3
        (by omega) (by simp; omega)
      simpa using this
    · intro q h1 h2
      unfold propagated
      rw [itemAt_modifyAt_unrelated _ _ _ _ h2 h1, itemAt_cascadeUp_off _ _ _ _ h1,
        itemAt_storeCheckState_off _ _ _ _ h1]

/-- C20 witness: in `chainTree` the item `n` takes the state `PartiallyChecked`. -/
theorem C20_cascade_terminates_witness :
    ∃ t', userToggle chainTree [0, 0, 0] PartiallyChecked = some t' ∧
      (∀ fuel, chainTree.size ≤ fuel →
        slotItemChanged fuel (storeCheckState chainTree [0, 0, 0] PartiallyChecked)
          [0, 0, 0] = some t') ∧
      (∀ q, ¬ q <:+ [0, 0, 0] → ¬ [0, 0, 0] <:+ q → itemAt t' q = itemAt chainTree q) :=
  C20_cascade_terminates chainTree [0, 0, 0] PartiallyChecked

end Mirall
